import Mathlib

/-!
# MQProcessor: a keyed multi-queue dispatcher

Shallow embedding of `src/semaphore.h` and `src/MQProcessor.h`.

Conventions of the embedding

* `Key`, `Value` are arbitrary types `K`, `V`; a consumer object is identified by
  an element of an arbitrary type `C`, and an `IConsumer_ptr` (a nullable
  `std::shared_ptr`) is an `Option C`.
* A call `consumer_->Consume(id, value)` is recorded as a `Call` in a trace.
* `std::list<Value>` is a `List V` (front = head); `std::size_t` values are
  natural numbers (a list cannot hold `2^64` elements, and the semaphore counter
  would need `2^64` outstanding posts to wrap).
* `std::unordered_map<Key, Channel>` is a list of key/channel pairs, searched
  from the front; `try_emplace` of an absent key appends.  The iteration order
  of the map is the order of that list.
* An operation whose C++ execution is undefined (`pop_front` on an empty
  `std::list`) returns `none`.
* Every public operation is one atomic step (each runs under the channel
  mutex); threads are modelled by interleaving such steps (`Sys`).
* `World` adds the worker thread of `Process` (test of `running_`, `wait`
  followed by one dispatch pass) and the three statements of the destructor.
* `Micro` executes the three methods of `Channel` statement by statement,
  with the mutex as state; a call executed alone is proved to agree with the
  functions `Channel.push`, `Channel.reset_consumer` and `Channel.consume`.
-/

namespace mqp

/-! ## semaphore.h -/

/-- The class `Semaphore`: only the counter is state. -/
structure Semaphore where
  count_ : Nat
deriving DecidableEq, Repr

/-- The method `Semaphore::post`: `++count_`. -/
def Semaphore.post (s : Semaphore) : Semaphore :=
  { count_ := s.count_ + 1 }

/-- The method `Semaphore::wait`: blocks while `count_ = 0` (result `none`: the step is
not enabled), otherwise `--count_`. -/
def Semaphore.wait (s : Semaphore) : Option Semaphore :=
  if s.count_ ≠ 0 then some { count_ := s.count_ - 1 } else none

/-! ## MQProcessor.h: the nested class `Channel` -/

/-- One recorded invocation `consumer->Consume(id, value)`. -/
structure Call (K V C : Type) where
  consumer : C
  id : K
  value : V
deriving DecidableEq, Repr

/-- The nested class `MQProcessor::Channel` (the mutex carries no data). -/
structure Channel (V C : Type) where
  queue_ : List V
  consumer_ : Option C
  maxChannelSize_ : Nat
deriving DecidableEq, Repr

/-- The constructor `Channel(std::size_t maxChannelSize)`: empty queue, null consumer. -/
def Channel.new {V C : Type} (maxChannelSize : Nat) : Channel V C :=
  { queue_ := [], consumer_ := none, maxChannelSize_ := maxChannelSize }

/-- The method `Channel::reset_consumer`: `consumer_ = consumer`. -/
def Channel.reset_consumer {V C : Type} (ch : Channel V C) (consumer : Option C) :
    Channel V C :=
  { ch with consumer_ := consumer }

/-- The call `std::list::pop_front`: removes the first element; undefined (`none`) on an
empty list. -/
def pop_front {V : Type} : List V → Option (List V)
  | [] => none
  | _ :: rest => some rest

/-- The method `Channel::push` for the template argument `EjectingStrategy`.
The result is `none` when the C++ code calls `pop_front` on an empty list. -/
def Channel.push {V C : Type} (EjectingStrategy : Bool) (ch : Channel V C) (value : V) :
    Option (Bool × Channel V C) :=
  if ch.queue_.length ≥ ch.maxChannelSize_ then
    if !EjectingStrategy then
      some (false, ch)
    else
      match pop_front ch.queue_ with
      | none => none
      | some q => some (true, { ch with queue_ := q ++ [value] })
  else
    some (true, { ch with queue_ := ch.queue_ ++ [value] })

/-- The method `Channel::consume`: when the queue is not empty and a consumer is bound,
`Consume(id, queue_.front())` is invoked and then `pop_front` runs; otherwise nothing
happens.  The result is the channel afterwards and the invocations made (none or one). -/
def Channel.consume {K V C : Type} (ch : Channel V C) (id : K) :
    Channel V C × List (Call K V C) :=
  match ch.queue_, ch.consumer_ with
  | v :: rest, some c => ({ ch with queue_ := rest }, [{ consumer := c, id := id, value := v }])
  | _, _ => (ch, [])

/-- The three operations of a channel, for sequences of operations on one channel. -/
inductive ChannelOp (V C : Type) where
  | push (value : V)
  | consume
  | reset_consumer (consumer : Option C)
deriving DecidableEq, Repr

/-- One operation applied to a channel that belongs to key `id`. -/
def Channel.apply {K V C : Type} (EjectingStrategy : Bool) (id : K) (ch : Channel V C) :
    ChannelOp V C → Option (Channel V C)
  | .push value => (ch.push EjectingStrategy value).map Prod.snd
  | .consume => some (ch.consume id).1
  | .reset_consumer consumer => some (ch.reset_consumer consumer)

/-- A sequence of operations applied to a channel, in order. -/
def Channel.applyAll {K V C : Type} (EjectingStrategy : Bool) (id : K) :
    Channel V C → List (ChannelOp V C) → Option (Channel V C)
  | ch, [] => some ch
  | ch, op :: ops =>
    match ch.apply EjectingStrategy id op with
    | none => none
    | some ch' => Channel.applyAll EjectingStrategy id ch' ops

/-- A sequence of values pushed onto a channel in order: the results of the pushes and the
channel afterwards. -/
def Channel.pushAll {V C : Type} (EjectingStrategy : Bool) :
    Channel V C → List V → Option (List Bool × Channel V C)
  | ch, [] => some ([], ch)
  | ch, v :: vs =>
    match ch.push EjectingStrategy v with
    | none => none
    | some (r, ch') =>
      match Channel.pushAll EjectingStrategy ch' vs with
      | none => none
      | some (rs, ch'') => some (r :: rs, ch'')

/-! ## MQProcessor.h: the class `MQProcessor` -/

/-- The class `MQProcessor<Key, Value, EjectingStrategy>`: capacity, channel table,
wake semaphore and the `running_` flag (the mutex and the thread handle carry no data). -/
structure MQProcessor (K V C : Type) where
  maxChannelSize_ : Nat
  channels_ : List (K × Channel V C)
  semaphore_ : Semaphore
  running_ : Bool
deriving DecidableEq, Repr

/-- The constructor `MQProcessor(maxChannelSize)` (default argument 1000): no channel,
semaphore at 0, `running_` true.  The argument is not validated. -/
def MQProcessor.new {K V C : Type} (maxChannelSize : Nat) : MQProcessor K V C :=
  { maxChannelSize_ := maxChannelSize, channels_ := [], semaphore_ := { count_ := 0 },
    running_ := true }

/-- The call `channels_.find(id)`: the channel stored under `id`, if any. -/
def find {K V C : Type} [DecidableEq K] (id : K) :
    List (K × Channel V C) → Option (Channel V C)
  | [] => none
  | (k, ch) :: rest => if k = id then some ch else find id rest

/-- Writing through the reference `it->second`: the channel stored under `id` becomes
`ch'`; a table without `id` is unchanged. -/
def assign {K V C : Type} [DecidableEq K] (id : K) (ch' : Channel V C) :
    List (K × Channel V C) → List (K × Channel V C)
  | [] => []
  | (k, ch) :: rest => if k = id then (k, ch') :: rest else (k, ch) :: assign id ch' rest

/-- The channel that an operation on `id` with `Create = true` works on: the one found,
or a freshly constructed `Channel(maxChannelSize_)`. -/
def MQProcessor.channelOf {K V C : Type} [DecidableEq K] (p : MQProcessor K V C) (id : K) :
    Channel V C :=
  match find id p.channels_ with
  | some ch => ch
  | none => Channel.new p.maxChannelSize_

/-- The template `do_operation_in_channel_<Create>(id, func)`.  `func` acts on the channel
and (through the captured `this`) on the semaphore, and may be undefined (`none`).
The result is `none` when `func` is undefined; otherwise the value returned by `func`
(`none` when `func` was not run: key absent and `Create = false`) and the processor
afterwards. -/
def MQProcessor.do_operation_in_channel_ {K V C R : Type} [DecidableEq K] (Create : Bool)
    (p : MQProcessor K V C) (id : K)
    (func : Channel V C → Semaphore → Option (R × Channel V C × Semaphore)) :
    Option (Option R × MQProcessor K V C) :=
  match find id p.channels_ with
  | some ch =>
    match func ch p.semaphore_ with
    | none => none
    | some (r, ch', sem') =>
      some (some r, { p with channels_ := assign id ch' p.channels_, semaphore_ := sem' })
  | none =>
    if Create then
      match func (Channel.new p.maxChannelSize_) p.semaphore_ with
      | none => none
      | some (r, ch', sem') =>
        some (some r, { p with channels_ := p.channels_ ++ [(id, ch')], semaphore_ := sem' })
    else
      some (none, p)

/-- The method `MQProcessor::Subscribe(id, consumer)`. -/
def MQProcessor.Subscribe {K V C : Type} [DecidableEq K] (p : MQProcessor K V C) (id : K)
    (consumer : Option C) : Option (MQProcessor K V C) :=
  (p.do_operation_in_channel_ true id
    (fun chanel sem => some ((), chanel.reset_consumer consumer, sem))).map Prod.snd

/-- The method `MQProcessor::Unsubscribe(id)`: `Create = false`, `reset_consumer(nullptr)`. -/
def MQProcessor.Unsubscribe {K V C : Type} [DecidableEq K] (p : MQProcessor K V C) (id : K) :
    Option (MQProcessor K V C) :=
  (p.do_operation_in_channel_ false id
    (fun chanel sem => some ((), chanel.reset_consumer none, sem))).map Prod.snd

/-- The method `MQProcessor::Enqueue(id, value)`: `push`, then `semaphore_.post()` whatever
the push returned, then the result of the push is returned. -/
def MQProcessor.Enqueue {K V C : Type} [DecidableEq K] (EjectingStrategy : Bool)
    (p : MQProcessor K V C) (id : K) (value : V) : Option (Bool × MQProcessor K V C) :=
  match p.do_operation_in_channel_ true id
      (fun channel sem =>
        match channel.push EjectingStrategy value with
        | none => none
        | some (res, channel') => some (res, channel', sem.post)) with
  | some (some res, p') => some (res, p')
  | _ => none

/-- The loop `for (auto& node : channels_) node.second.consume(node.first)` of
`MQProcessor::Process`: the table afterwards and the invocations made, in order. -/
def consume_all {K V C : Type} :
    List (K × Channel V C) → List (K × Channel V C) × List (Call K V C)
  | [] => ([], [])
  | (k, ch) :: rest =>
    ((k, (ch.consume k).1) :: (consume_all rest).1, (ch.consume k).2 ++ (consume_all rest).2)

/-- One dispatch pass: the body of the loop of `MQProcessor::Process` after `wait`
has returned. -/
def MQProcessor.dispatch_pass {K V C : Type} (p : MQProcessor K V C) :
    MQProcessor K V C × List (Call K V C) :=
  ({ p with channels_ := (consume_all p.channels_).1 }, (consume_all p.channels_).2)

/-! ## Interleavings of public operations and dispatch passes -/

/-- A processor together with the trace of consumer invocations made so far. -/
structure Sys (K V C : Type) where
  proc : MQProcessor K V C
  calls : List (Call K V C)
deriving DecidableEq, Repr

/-- A fresh processor with an empty trace. -/
def Sys.init {K V C : Type} (maxChannelSize : Nat) : Sys K V C :=
  { proc := MQProcessor.new maxChannelSize, calls := [] }

/-- The atomic steps of the system: the three public operations and one dispatch pass. -/
inductive Op (K V C : Type) where
  | Enqueue (id : K) (value : V)
  | Subscribe (id : K) (consumer : Option C)
  | Unsubscribe (id : K)
  | Pass
deriving DecidableEq, Repr

/-- One step of the system (`none`: undefined behaviour). -/
def Sys.step {K V C : Type} [DecidableEq K] (EjectingStrategy : Bool) (s : Sys K V C) :
    Op K V C → Option (Sys K V C)
  | .Enqueue id value =>
    (s.proc.Enqueue EjectingStrategy id value).map fun r => { s with proc := r.2 }
  | .Subscribe id consumer => (s.proc.Subscribe id consumer).map fun p => { s with proc := p }
  | .Unsubscribe id => (s.proc.Unsubscribe id).map fun p => { s with proc := p }
  | .Pass => some { proc := s.proc.dispatch_pass.1, calls := s.calls ++ s.proc.dispatch_pass.2 }

/-- A sequence of steps, in order. -/
def Sys.run {K V C : Type} [DecidableEq K] (EjectingStrategy : Bool) :
    Sys K V C → List (Op K V C) → Option (Sys K V C)
  | s, [] => some s
  | s, op :: ops =>
    match s.step EjectingStrategy op with
    | none => none
    | some s' => Sys.run EjectingStrategy s' ops

/-- The pending queue of key `id` (empty when the key has no channel). -/
def MQProcessor.pending {K V C : Type} [DecidableEq K] (p : MQProcessor K V C) (id : K) :
    List V :=
  match find id p.channels_ with
  | some ch => ch.queue_
  | none => []

/-- The bound consumer of key `id` (none when the key has no channel). -/
def MQProcessor.consumer {K V C : Type} [DecidableEq K] (p : MQProcessor K V C) (id : K) :
    Option C :=
  match find id p.channels_ with
  | some ch => ch.consumer_
  | none => none

/-- The invocations of a trace made with key `id`. -/
def callsOf {K V C : Type} [DecidableEq K] (id : K) (calls : List (Call K V C)) :
    List (Call K V C) :=
  calls.filter fun c => decide (c.id = id)

/-- The values delivered with key `id`, in order of delivery. -/
def delivered {K V C : Type} [DecidableEq K] (id : K) (calls : List (Call K V C)) : List V :=
  (callsOf id calls).map Call.value

/-- The values passed to `Enqueue` under key `id` in a sequence of steps, in order. -/
def enqueued {K V C : Type} [DecidableEq K] (id : K) : List (Op K V C) → List V
  | [] => []
  | .Enqueue k v :: ops => if k = id then v :: enqueued id ops else enqueued id ops
  | _ :: ops => enqueued id ops

/-- The results of a sequence of `Enqueue(id, v)` calls and the processor afterwards. -/
def MQProcessor.enqueueAll {K V C : Type} [DecidableEq K] (EjectingStrategy : Bool) (id : K) :
    MQProcessor K V C → List V → Option (List Bool × MQProcessor K V C)
  | p, [] => some ([], p)
  | p, v :: vs =>
    match p.Enqueue EjectingStrategy id v with
    | none => none
    | some (r, p') =>
      match MQProcessor.enqueueAll EjectingStrategy id p' vs with
      | none => none
      | some (rs, p'') => some (r :: rs, p'')

/-- The table after an operation with `Create = true` has left `ch'` in the channel of
`id`: written through the iterator when the key was found, emplaced otherwise. -/
def put {K V C : Type} [DecidableEq K] (id : K) (ch' : Channel V C)
    (l : List (K × Channel V C)) : List (K × Channel V C) :=
  match find id l with
  | some _ => assign id ch' l
  | none => l ++ [(id, ch')]

/-- A rejecting processor of capacity 1 after `Subscribe(0, 3)` and `Enqueue(0, 7)`:
the channel of key 0 is full. -/
def fullProcessor : MQProcessor Nat Nat Nat :=
  MQProcessor.mk 1 [(0, Channel.mk [7] (some 3) 1)] (Semaphore.mk 1) true

/-- The number of `Enqueue` calls in a sequence of steps. -/
def enqueueCalls {K V C : Type} : List (Op K V C) → Nat
  | [] => 0
  | .Enqueue _ _ :: ops => enqueueCalls ops + 1
  | _ :: ops => enqueueCalls ops

/-- A processor with a subscribed, empty channel for key 1 and a channel without consumer
holding two values for key 2. -/
def twoChannels : MQProcessor Nat Nat Nat :=
  MQProcessor.mk 5 [(1, Channel.mk [] (some 4) 5), (2, Channel.mk [8, 9] none 5)]
    (Semaphore.mk 2) true

/-- No `Enqueue` of the run finds its channel full: at every `Enqueue` step the queue of
the channel of the key is shorter than the capacity. -/
def neverFull {K V C : Type} [DecidableEq K] (EjectingStrategy : Bool) :
    Sys K V C → List (Op K V C) → Bool
  | _, [] => true
  | s, op :: ops =>
    (match op with
      | .Enqueue id _ =>
        decide ((s.proc.channelOf id).queue_.length < (s.proc.channelOf id).maxChannelSize_)
      | _ => true) &&
    (match s.step EjectingStrategy op with
      | some s' => neverFull EjectingStrategy s' ops
      | none => true)

/-- The schedule of the test `one_consumer` after `Subscribe(1, consumer)`: the values
1,2,3,5,4,8 enqueued under key 1, with dispatch passes in between. -/
def oneConsumerOps : List (Op Int Int Nat) :=
  [.Enqueue 1 1, .Pass, .Enqueue 1 2, .Enqueue 1 3, .Pass, .Pass, .Pass, .Enqueue 1 5,
    .Enqueue 1 4, .Pass, .Enqueue 1 8]

/-- An interleaving over two keys with overflow on key 1 (capacity 2). -/
def mixedOps : List (Op Int Int Nat) :=
  [.Enqueue 1 10, .Enqueue 2 20, .Enqueue 1 11, .Enqueue 1 12, .Subscribe 1 (some 7), .Pass,
    .Unsubscribe 1, .Pass, .Enqueue 2 21, .Subscribe 2 (some 8), .Pass, .Pass, .Pass]

/-- The table has one channel per key, as a `std::unordered_map` does. -/
def MQProcessor.WF {K V C : Type} (p : MQProcessor K V C) : Prop :=
  (p.channels_.map Prod.fst).Nodup

/-! ## The worker thread and the destructor -/

/-- Where the thread `th_` stands in `MQProcessor::Process`. -/
inductive WorkerPc where
  | checking
  | waiting
  | exited
deriving DecidableEq, Repr

/-- How far the destructor `~MQProcessor` has got: nothing yet, after `running_ = false`,
after `semaphore_.post()`, after `th_.join()`. -/
inductive TeardownPc where
  | notStarted
  | flagSet
  | posted
  | joined
deriving DecidableEq, Repr

/-- The processor with its worker thread and destructor, the trace of consumer
invocations, and three counters that only observe the run: the calls of
`semaphore_.post()`, the dispatch passes started, and the pushes that returned true. -/
structure World (K V C : Type) where
  proc : MQProcessor K V C
  calls : List (Call K V C)
  worker : WorkerPc
  teardown : TeardownPc
  posts : Nat
  passes : Nat
  pushes : Nat
deriving DecidableEq, Repr

/-- A processor right after construction: the thread `th_` is about to evaluate the
loop condition of `Process` for the first time. -/
def World.init {K V C : Type} (maxChannelSize : Nat) : World K V C :=
  { proc := MQProcessor.new maxChannelSize, calls := [], worker := .checking,
    teardown := .notStarted, posts := 0, passes := 0, pushes := 0 }

/-- The atomic steps of the processor with its worker: the three public operations, the
evaluation of `while (running_)` by the worker, the completion of `semaphore_.wait()`
followed by one dispatch pass, and the next statement of the destructor. -/
inductive Action (K V C : Type) where
  | Enqueue (id : K) (value : V)
  | Subscribe (id : K) (consumer : Option C)
  | Unsubscribe (id : K)
  | WorkerCheck
  | WorkerWake
  | Destroy
deriving DecidableEq, Repr

/-- The statement `running_ = false` of the destructor. -/
def MQProcessor.stop {K V C : Type} (p : MQProcessor K V C) : MQProcessor K V C :=
  { p with running_ := false }

/-- The statement `semaphore_.post()` of the destructor. -/
def MQProcessor.post {K V C : Type} (p : MQProcessor K V C) : MQProcessor K V C :=
  { p with semaphore_ := p.semaphore_.post }

/-- One iteration of the loop body of `MQProcessor::Process`: `semaphore_.wait()`, which
is not enabled (`none`) while the count is 0, then the dispatch pass. -/
def MQProcessor.Process_body {K V C : Type} (p : MQProcessor K V C) :
    Option (MQProcessor K V C × List (Call K V C)) :=
  match p.semaphore_.wait with
  | none => none
  | some sem => some ({ p with semaphore_ := sem }).dispatch_pass

/-- One step of the processor with its worker.  The result is `none` when the step is
not enabled (a blocked `wait` or `join`, a thread that is elsewhere) or undefined. -/
def World.step {K V C : Type} [DecidableEq K] (EjectingStrategy : Bool) (w : World K V C) :
    Action K V C → Option (World K V C)
  | .Enqueue id value =>
    match w.proc.Enqueue EjectingStrategy id value with
    | none => none
    | some (res, p') =>
      some { w with proc := p', posts := w.posts + 1,
                    pushes := if res then w.pushes + 1 else w.pushes }
  | .Subscribe id consumer =>
    match w.proc.Subscribe id consumer with
    | none => none
    | some p' => some { w with proc := p' }
  | .Unsubscribe id =>
    match w.proc.Unsubscribe id with
    | none => none
    | some p' => some { w with proc := p' }
  | .WorkerCheck =>
    match w.worker with
    | .checking => some { w with worker := if w.proc.running_ then .waiting else .exited }
    | _ => none
  | .WorkerWake =>
    match w.worker with
    | .waiting =>
      match w.proc.Process_body with
      | none => none
      | some (p', cs) =>
        some { w with proc := p', calls := w.calls ++ cs, worker := .checking,
                      passes := w.passes + 1 }
    | _ => none
  | .Destroy =>
    match w.teardown with
    | .notStarted => some { w with proc := w.proc.stop, teardown := .flagSet }
    | .flagSet => some { w with proc := w.proc.post, teardown := .posted, posts := w.posts + 1 }
    | .posted =>
      match w.worker with
      | .exited => some { w with teardown := .joined }
      | _ => none
    | .joined => none

/-- A sequence of steps of the processor with its worker, in order. -/
def World.run {K V C : Type} [DecidableEq K] (EjectingStrategy : Bool) :
    World K V C → List (Action K V C) → Option (World K V C)
  | w, [] => some w
  | w, a :: as =>
    match w.step EjectingStrategy a with
    | none => none
    | some w' => World.run EjectingStrategy w' as

/-- The number of channels of a table that a dispatch pass delivers from: those with a
non-empty queue and a bound consumer. -/
def deliverable {K V C : Type} (l : List (K × Channel V C)) : Nat :=
  l.countP fun e => !e.2.queue_.isEmpty && e.2.consumer_.isSome

/-- The run of claim C18: `Enqueue(0, 7)` on a key without consumer, the worker takes the
wake and its pass delivers nothing, the worker blocks in `wait` again, then
`Subscribe(0, 3)`. -/
def strandingRun : List (Action Nat Nat Nat) :=
  [.Enqueue 0 7, .WorkerCheck, .WorkerWake, .WorkerCheck, .Subscribe 0 (some 3)]

/-- The state reached by `strandingRun` from a fresh processor of capacity 5. -/
def strandedWorld : World Nat Nat Nat :=
  { proc := MQProcessor.mk 5 [(0, Channel.mk [7] (some 3) 5)] (Semaphore.mk 0) true,
    calls := [], worker := .waiting, teardown := .notStarted, posts := 1, passes := 1,
    pushes := 1 }

/-- A table with three channels: key 1 holds 5, 6 for consumer 4, key 2 holds 8, 9 without
consumer, key 3 is empty with consumer 7. -/
def busyTable : MQProcessor Nat Nat Nat :=
  MQProcessor.mk 5
    [(1, Channel.mk [5, 6] (some 4) 5), (2, Channel.mk [8, 9] none 5),
      (3, Channel.mk [] (some 7) 5)]
    (Semaphore.mk 2) true

/-- The keys of the table after a step, from the keys before: `Enqueue` and `Subscribe`
(`Create = true`) add their key at the end when it is absent, nothing else changes
the keys. -/
def keysAfter {K V C : Type} [DecidableEq K] (keys : List K) : Op K V C → List K
  | .Enqueue id _ => if id ∈ keys then keys else keys ++ [id]
  | .Subscribe id _ => if id ∈ keys then keys else keys ++ [id]
  | _ => keys

/-- The number of dispatch passes the worker can still start once `running_` is false:
one if it is inside `wait`, none if it is about to test `running_` or has exited. -/
def WorkerPc.passesLeft : WorkerPc → Nat
  | .waiting => 1
  | _ => 0

/-- The state `strandedWorld` after the statement `running_ = false` of the destructor. -/
def flagSetWorld : World Nat Nat Nat :=
  { proc := MQProcessor.mk 5 [(0, Channel.mk [7] (some 3) 5)] (Semaphore.mk 0) false,
    calls := [], worker := .waiting, teardown := .flagSet, posts := 1, passes := 1,
    pushes := 1 }

/-- The state `flagSetWorld` after the statement `semaphore_.post()` of the destructor and
the dispatch pass that this post releases. -/
def drainedWorld : World Nat Nat Nat :=
  { proc := MQProcessor.mk 5 [(0, Channel.mk [] (some 3) 5)] (Semaphore.mk 0) false,
    calls := [Call.mk 3 0 7], worker := .checking, teardown := .posted, posts := 2,
    passes := 2, pushes := 1 }

/-! ## The channel methods statement by statement

The methods of `Channel` are executed here one statement at a time by several threads,
with the mutex as part of the state.  Each statement is atomic; the threads interleave
in any order. -/

/-- The data members of a channel that the methods read and write. -/
inductive Member where
  | queue_
  | consumer_
deriving DecidableEq, Repr

/-- One access to a data member: the thread, the source line of the statement, the member,
whether the access is a write, and whether the thread held `mutex_` at that moment. -/
structure Access where
  thread : Nat
  line : Nat
  member : Member
  write : Bool
  locked : Bool
deriving DecidableEq, Repr

/-- The next statement of a thread inside a call of `push` (lines 73 to 81),
`reset_consumer` (lines 68 to 70) or `consume` (lines 85 to 91), or the value it
returned. -/
inductive Pc (K V C : Type) where
  | push_lock (value : V)
  | push_test (value : V)
  | push_pop (value : V)
  | push_emplace (value : V)
  | push_unlock (res : Bool)
  | reset_lock (consumer : Option C)
  | reset_assign (consumer : Option C)
  | reset_unlock
  | consume_test (id : K)
  | consume_lock (id : K)
  | consume_retest (id : K)
  | consume_invoke (id : K)
  | consume_pop
  | consume_unlock
  | returned (res : Option Bool)
deriving DecidableEq, Repr

/-- The statements that lie inside the scope of the `std::scoped_lock` of their method. -/
def Pc.holds {K V C : Type} : Pc K V C → Bool
  | .push_test _ => true
  | .push_pop _ => true
  | .push_emplace _ => true
  | .push_unlock _ => true
  | .reset_assign _ => true
  | .reset_unlock => true
  | .consume_retest _ => true
  | .consume_invoke _ => true
  | .consume_pop => true
  | .consume_unlock => true
  | _ => false

/-- The first statement of a method call. -/
def Pc.entry {K V C : Type} : Pc K V C → Bool
  | .push_lock _ => true
  | .reset_lock _ => true
  | .consume_test _ => true
  | _ => false

/-- The statement `queue_.pop_front()` of `consume`, reached right after the call of the
consumer. -/
def Pc.isPop {K V C : Type} : Pc K V C → Bool
  | .consume_pop => true
  | _ => false

/-- A channel with its mutex (the owning thread, if any), the threads executing method
calls on it, the trace of consumer invocations, the log of member accesses, and the
values appended by `emplace_back` so far. -/
structure Micro (K V C : Type) where
  ch : Channel V C
  mutex_ : Option Nat
  threads : List (Pc K V C)
  calls : List (Call K V C)
  log : List Access
  emplaced : List V
deriving DecidableEq, Repr

/-- The threads `pcs` about to start on channel `ch`, the mutex free. -/
def Micro.start {K V C : Type} (ch : Channel V C) (pcs : List (Pc K V C)) : Micro K V C :=
  { ch := ch, mutex_ := none, threads := pcs, calls := [], log := [], emplaced := [] }

/-- The record of an access by thread `t` in state `m`. -/
def Micro.access {K V C : Type} (m : Micro K V C) (t : Nat) (line : Nat) (member : Member)
    (write : Bool) : Access :=
  { thread := t, line := line, member := member, write := write,
    locked := decide (m.mutex_ = some t) }

/-- Thread `t` moves to `pc`. -/
def Micro.goto {K V C : Type} (m : Micro K V C) (t : Nat) (pc : Pc K V C) : Micro K V C :=
  { m with threads := m.threads.set t pc }

/-- The constructor of `std::scoped_lock`: enabled only while the mutex is free. -/
def Micro.acquire {K V C : Type} (m : Micro K V C) (t : Nat) (pc : Pc K V C) :
    Option (Micro K V C) :=
  match m.mutex_ with
  | none => some { m with mutex_ := some t, threads := m.threads.set t pc }
  | some _ => none

/-- The destructor of `std::scoped_lock` at the end of the scope. -/
def Micro.release {K V C : Type} (m : Micro K V C) (t : Nat) (pc : Pc K V C) : Micro K V C :=
  { m with mutex_ := none, threads := m.threads.set t pc }

/-- Thread `t` executes its next statement.  The result is `none` when the thread has
returned, is blocked on the mutex, or the statement is undefined (`pop_front` or `front`
on an empty list, a call through a null consumer). -/
def Micro.step {K V C : Type} (EjectingStrategy : Bool) (m : Micro K V C) (t : Nat) :
    Option (Micro K V C) :=
  match m.threads[t]? with
  | none => none
  | some (.push_lock v) => m.acquire t (.push_test v)
  | some (.push_test v) =>
    let m1 := { m with log := m.log ++ [m.access t 74 .queue_ false] }
    if m.ch.queue_.length ≥ m.ch.maxChannelSize_ then
      if !EjectingStrategy then some (m1.goto t (.push_unlock false))
      else some (m1.goto t (.push_pop v))
    else some (m1.goto t (.push_emplace v))
  | some (.push_pop v) =>
    match pop_front m.ch.queue_ with
    | none => none
    | some q =>
      some ({ m with ch := { m.ch with queue_ := q },
                     log := m.log ++ [m.access t 78 .queue_ true] }.goto t (.push_emplace v))
  | some (.push_emplace v) =>
    some ({ m with ch := { m.ch with queue_ := m.ch.queue_ ++ [v] },
                   log := m.log ++ [m.access t 80 .queue_ true],
                   emplaced := m.emplaced ++ [v] }.goto t (.push_unlock true))
  | some (.push_unlock r) => some (m.release t (.returned (some r)))
  | some (.reset_lock c) => m.acquire t (.reset_assign c)
  | some (.reset_assign c) =>
    some ({ m with ch := m.ch.reset_consumer c,
                   log := m.log ++ [m.access t 69 .consumer_ true] }.goto t .reset_unlock)
  | some .reset_unlock => some (m.release t (.returned none))
  | some (.consume_test id) =>
    match m.ch.queue_ with
    | [] =>
      some ({ m with log := m.log ++ [m.access t 85 .queue_ false] }.goto t (.returned none))
    | _ :: _ =>
      let m1 := { m with log := m.log ++
        [m.access t 85 .queue_ false, m.access t 85 .consumer_ false] }
      match m.ch.consumer_ with
      | none => some (m1.goto t (.returned none))
      | some _ => some (m1.goto t (.consume_lock id))
  | some (.consume_lock id) => m.acquire t (.consume_retest id)
  | some (.consume_retest id) =>
    match m.ch.queue_ with
    | [] =>
      some ({ m with log := m.log ++ [m.access t 87 .queue_ false] }.goto t .consume_unlock)
    | _ :: _ =>
      let m1 := { m with log := m.log ++
        [m.access t 87 .queue_ false, m.access t 87 .consumer_ false] }
      match m.ch.consumer_ with
      | none => some (m1.goto t .consume_unlock)
      | some _ => some (m1.goto t (.consume_invoke id))
  | some (.consume_invoke id) =>
    match m.ch.consumer_, m.ch.queue_ with
    | some c, v :: _ =>
      some ({ m with calls := m.calls ++ [Call.mk c id v],
                     log := m.log ++
                       [m.access t 88 .consumer_ false, m.access t 88 .queue_ false] }.goto t
        .consume_pop)
    | _, _ => none
  | some .consume_pop =>
    match pop_front m.ch.queue_ with
    | none => none
    | some q =>
      some ({ m with ch := { m.ch with queue_ := q },
                     log := m.log ++ [m.access t 89 .queue_ true] }.goto t .consume_unlock)
  | some .consume_unlock => some (m.release t (.returned none))
  | some (.returned _) => none

/-- A schedule: the threads that execute a statement, in order. -/
def Micro.run {K V C : Type} (EjectingStrategy : Bool) :
    Micro K V C → List Nat → Option (Micro K V C)
  | m, [] => some m
  | m, t :: ts =>
    match m.step EjectingStrategy t with
    | none => none
    | some m' => Micro.run EjectingStrategy m' ts

/-- Thread 0 executes statements until it has returned, at most `fuel` of them. -/
def Micro.finish {K V C : Type} (EjectingStrategy : Bool) :
    Nat → Micro K V C → Option (Micro K V C)
  | 0, m => some m
  | fuel + 1, m =>
    match m.threads[0]? with
    | some (Pc.returned _) => some m
    | _ =>
      match m.step EjectingStrategy 0 with
      | none => none
      | some m' => Micro.finish EjectingStrategy fuel m'

/-- One method call executed alone on a channel, from its first statement `pc` to its
return (no method has more than six statements on a path). -/
def Micro.exec {K V C : Type} (EjectingStrategy : Bool) (ch : Channel V C) (pc : Pc K V C) :
    Option (Micro K V C) :=
  Micro.finish EjectingStrategy 6 (Micro.start ch [pc])

/-- The values delivered so far whose element has also been popped: all of them, except
the last one while the thread that owns the mutex stands between the call of the consumer
and `pop_front`. -/
def Micro.settled {K V C : Type} (m : Micro K V C) : List V :=
  match m.mutex_ with
  | none => m.calls.map Call.value
  | some t =>
    match m.threads[t]? with
    | some .consume_pop => (m.calls.map Call.value).dropLast
    | _ => m.calls.map Call.value

/-- The invariant of the statement-level model, for a run that started with queue `q0`:
a thread is inside a locked scope exactly when it owns the mutex; every logged access
was made under the mutex or is a read of line 85; a thread about to call the consumer
finds a non-empty queue and a bound consumer; a thread about to pop after the call finds
at the head of the queue the value it has just delivered; and the settled deliveries
followed by the queue are a subsequence of the initial queue followed by the values
appended since. -/
def Micro.Good {K V C : Type} (q0 : List V) (m : Micro K V C) : Prop :=
  (∀ (t : Nat) (pc : Pc K V C), m.threads[t]? = some pc →
      (pc.holds = true ↔ m.mutex_ = some t)) ∧
    (∀ a ∈ m.log, a.locked = true ∨ (a.line = 85 ∧ a.write = false)) ∧
    (∀ (t : Nat) (id : K), m.threads[t]? = some (Pc.consume_invoke id) →
      m.ch.queue_ ≠ [] ∧ m.ch.consumer_ ≠ none) ∧
    (∀ t : Nat, m.threads[t]? = some Pc.consume_pop →
      ∃ c id v rest, m.ch.queue_ = v :: rest ∧ m.calls.getLast? = some (Call.mk c id v)) ∧
    (m.settled ++ m.ch.queue_).Sublist (q0 ++ m.emplaced)

/-- The state reached by `mixedOps` from a fresh ejecting processor of capacity 2. -/
def mixedFinal : Sys Int Int Nat :=
  { proc := MQProcessor.mk 2
      [(1, Channel.mk [12] none 2), (2, Channel.mk [] (some 8) 2)] (Semaphore.mk 5) true,
    calls := [Call.mk 7 1 11, Call.mk 8 2 20, Call.mk 8 2 21] }

/-- The state reached by `strandingRun` followed by `Enqueue(0, 8)`. -/
def twoPostsWorld : World Nat Nat Nat :=
  { proc := MQProcessor.mk 5 [(0, Channel.mk [7, 8] (some 3) 5)] (Semaphore.mk 1) true,
    calls := [], worker := .waiting, teardown := .notStarted, posts := 2, passes := 1,
    pushes := 2 }

/-- A `consume(2)` of thread 0 racing with a `reset_consumer(nullptr)` of thread 1: thread 0
makes the test of line 85, thread 1 runs its whole call, then thread 0 takes the mutex and
finds no consumer. -/
def racingSchedule : List Nat := [0, 1, 1, 1, 0, 0, 0]

/-- The state reached by `racingSchedule` on a channel holding 8, 9 with consumer 4. -/
def racingFinal : Micro Nat Nat Nat :=
  { ch := Channel.mk [8, 9] none 2, mutex_ := none,
    threads := [Pc.returned none, Pc.returned none], calls := [],
    log := [Access.mk 0 85 .queue_ false false, Access.mk 0 85 .consumer_ false false,
      Access.mk 1 69 .consumer_ true true, Access.mk 0 87 .queue_ false true,
      Access.mk 0 87 .consumer_ false true],
    emplaced := [] }

/-- Thread 0 about to execute line 88 of `consume(2)` on a channel holding 8, 9 with
consumer 4. -/
def beforeCall : Micro Nat Nat Nat :=
  { ch := Channel.mk [8, 9] (some 4) 5, mutex_ := some 0, threads := [Pc.consume_invoke 2],
    calls := [], log := [], emplaced := [] }

/-- The state `beforeCall` after line 88: the consumer has been invoked, the queue is as
before. -/
def afterCall : Micro Nat Nat Nat :=
  { ch := Channel.mk [8, 9] (some 4) 5, mutex_ := some 0, threads := [Pc.consume_pop],
    calls := [Call.mk 4 2 8],
    log := [Access.mk 0 88 .consumer_ false true, Access.mk 0 88 .queue_ false true],
    emplaced := [] }

/-! ## Facts about one channel -/

theorem pop_front_cons {V : Type} (v : V) (q : List V) : pop_front (v :: q) = some q := rfl

theorem Channel.push_not_full {V C : Type} (ej : Bool) (ch : Channel V C) (v : V)
    (h : ch.queue_.length < ch.maxChannelSize_) :
    ch.push ej v = some (true, { ch with queue_ := ch.queue_ ++ [v] }) := by
  unfold Channel.push
  rw [if_neg (by omega)]

theorem Channel.push_full_rejecting {V C : Type} (ch : Channel V C) (v : V)
    (h : ch.maxChannelSize_ ≤ ch.queue_.length) :
    ch.push false v = some (false, ch) := by
  unfold Channel.push
  rw [if_pos h]
  rfl

theorem Channel.push_full_ejecting {V C : Type} (ch : Channel V C) (v x : V) (q : List V)
    (hq : ch.queue_ = x :: q) (h : ch.maxChannelSize_ ≤ ch.queue_.length) :
    ch.push true v = some (true, { ch with queue_ := q ++ [v] }) := by
  unfold Channel.push
  rw [if_pos h, hq]
  rfl

/-- The length bound is kept by `push` when the capacity is positive, and the push is
defined. -/
theorem Channel.push_bound {V C : Type} (ej : Bool) (ch : Channel V C) (v : V)
    (hc : 1 ≤ ch.maxChannelSize_) (hb : ch.queue_.length ≤ ch.maxChannelSize_) :
    ∃ r ch', ch.push ej v = some (r, ch') ∧ ch'.maxChannelSize_ = ch.maxChannelSize_ ∧
      ch'.consumer_ = ch.consumer_ ∧ ch'.queue_.length ≤ ch.maxChannelSize_ := by
  by_cases hfull : ch.maxChannelSize_ ≤ ch.queue_.length
  · cases ej with
    | false =>
      exact ⟨false, ch, Channel.push_full_rejecting ch v hfull, rfl, rfl, hb⟩
    | true =>
      cases hq : ch.queue_ with
      | nil => rw [hq] at hfull; simp at hfull; omega
      | cons x q =>
        refine ⟨true, _, Channel.push_full_ejecting ch v x q hq hfull, rfl, rfl, ?_⟩
        rw [hq] at hb
        simp at hb ⊢
        omega
  · refine ⟨true, _, Channel.push_not_full ej ch v (by omega), rfl, rfl, ?_⟩
    simp
    omega

theorem Channel.consume_fst_length {K V C : Type} (ch : Channel V C) (id : K) :
    (ch.consume id).1.queue_.length ≤ ch.queue_.length ∧
      (ch.consume id).1.maxChannelSize_ = ch.maxChannelSize_ := by
  unfold Channel.consume
  split
  · next v rest c hq hc => simp [hq]
  · simp

/-- The invariant of claim C1 along a sequence of channel operations. -/
theorem Channel.applyAll_bound {K V C : Type} (ej : Bool) (id : K) (c : Nat) (hc : 1 ≤ c)
    (ops : List (ChannelOp V C)) :
    ∀ ch : Channel V C, ch.maxChannelSize_ = c → ch.queue_.length ≤ c →
      ∃ ch', Channel.applyAll ej id ch ops = some ch' ∧ ch'.maxChannelSize_ = c ∧
        ch'.queue_.length ≤ c := by
  induction ops with
  | nil => intro ch h1 h2; exact ⟨ch, rfl, h1, h2⟩
  | cons op ops ih =>
    intro ch h1 h2
    cases op with
    | push value =>
      obtain ⟨r, ch', hp, hm, _, hl⟩ := Channel.push_bound ej ch value (by omega) (by omega)
      obtain ⟨ch'', hr, hm', hl'⟩ := ih ch' (by omega) (by omega)
      exact ⟨ch'', by simp [Channel.applyAll, Channel.apply, hp, hr], hm', hl'⟩
    | consume =>
      have hcs := Channel.consume_fst_length ch id
      obtain ⟨ch'', hr, hm', hl'⟩ := ih (ch.consume id).1 (by omega) (by omega)
      exact ⟨ch'', by simp [Channel.applyAll, Channel.apply, hr], hm', hl'⟩
    | reset_consumer consumer =>
      obtain ⟨ch'', hr, hm', hl'⟩ := ih (ch.reset_consumer consumer) h1 h2
      exact ⟨ch'', by simp [Channel.applyAll, Channel.apply, hr], hm', hl'⟩

/-- Claim C1 (capacity bound).  For every capacity `c ≥ 1`, under either overflow policy,
and for every finite sequence of `push`, `consume` and `reset_consumer` applied to a
freshly created channel, the run is defined and after every operation of it (after the
first `n` operations, for every `n`) the pending queue has length between 0 and `c`. -/
theorem C1_capacity_bound {K V C : Type} (EjectingStrategy : Bool) (id : K) (c : Nat)
    (hc : 1 ≤ c) (ops : List (ChannelOp V C)) (n : Nat) :
    ∃ ch', Channel.applyAll EjectingStrategy id (Channel.new c) (ops.take n) = some ch' ∧
      0 ≤ ch'.queue_.length ∧ ch'.queue_.length ≤ c := by
  obtain ⟨ch', h, _, hl⟩ :=
    Channel.applyAll_bound EjectingStrategy id c hc (ops.take n) (Channel.new c) rfl
      (by simp [Channel.new])
  exact ⟨ch', h, Nat.zero_le _, hl⟩

/-- Claim C1 at capacity 2, ejecting policy, on a sequence of seven operations that
overflows. -/
theorem C1_capacity_bound_witness :
    (1 : Nat) ≤ 2 ∧
    ∃ ch', Channel.applyAll true (0 : Nat) (Channel.new 2)
        ([ChannelOp.push (10 : Nat), .push 11, .reset_consumer (some (7 : Nat)), .push 12,
          .consume, .push 13, .push 14].take 7) = some ch' ∧
      0 ≤ ch'.queue_.length ∧ ch'.queue_.length ≤ 2 :=
  ⟨by decide, C1_capacity_bound true 0 2 (by decide) _ 7⟩

/-! ## Sequences of pushes (claims C2 and C3) -/

theorem Channel.pushAll_rejecting {V C : Type} (vs : List V) :
    ∀ ch : Channel V C, ch.queue_.length ≤ ch.maxChannelSize_ →
      Channel.pushAll false ch vs =
        some (List.replicate (min (ch.maxChannelSize_ - ch.queue_.length) vs.length) true ++
            List.replicate (vs.length - (ch.maxChannelSize_ - ch.queue_.length)) false,
          { ch with queue_ := (ch.queue_ ++ vs).take ch.maxChannelSize_ }) := by
  induction vs with
  | nil =>
    intro ch h
    simp [Channel.pushAll, List.take_of_length_le h]
  | cons v vs ih =>
    intro ch h
    by_cases hfull : ch.maxChannelSize_ ≤ ch.queue_.length
    · have hlen : ch.queue_.length = ch.maxChannelSize_ := by omega
      have hz : ch.maxChannelSize_ - ch.queue_.length = 0 := by omega
      rw [Channel.pushAll, Channel.push_full_rejecting ch v hfull]
      simp only [ih ch h, hz, List.length_cons]
      have hq : List.take ch.maxChannelSize_ (ch.queue_ ++ vs) =
          List.take ch.maxChannelSize_ (ch.queue_ ++ v :: vs) := by
        rw [List.take_append_of_le_length (by omega), List.take_append_of_le_length (by omega)]
      simp [hq, List.replicate_succ]
    · have hlt : ch.queue_.length < ch.maxChannelSize_ := by omega
      rw [Channel.pushAll, Channel.push_not_full false ch v hlt]
      have h1 := ih { ch with queue_ := ch.queue_ ++ [v] } (by simp; omega)
      simp only [h1, List.length_append, List.length_cons, List.length_nil, List.append_assoc,
        List.singleton_append]
      have e1 : min (ch.maxChannelSize_ - ch.queue_.length) (vs.length + 1) =
          min (ch.maxChannelSize_ - (ch.queue_.length + (0 + 1))) vs.length + 1 := by omega
      have e2 : vs.length + 1 - (ch.maxChannelSize_ - ch.queue_.length) =
          vs.length - (ch.maxChannelSize_ - (ch.queue_.length + (0 + 1))) := by omega
      rw [e1, e2, List.replicate_succ]
      rfl

theorem Channel.pushAll_ejecting {V C : Type} (vs : List V) :
    ∀ ch : Channel V C, 1 ≤ ch.maxChannelSize_ → ch.queue_.length ≤ ch.maxChannelSize_ →
      Channel.pushAll true ch vs =
        some (List.replicate vs.length true,
          { ch with queue_ :=
              (ch.queue_ ++ vs).drop (ch.queue_.length + vs.length - ch.maxChannelSize_) }) := by
  induction vs with
  | nil =>
    intro ch _ h
    have hz : ch.queue_.length - ch.maxChannelSize_ = 0 := by omega
    simp [Channel.pushAll, hz]
  | cons v vs ih =>
    intro ch hc h
    by_cases hfull : ch.maxChannelSize_ ≤ ch.queue_.length
    · cases hq : ch.queue_ with
      | nil => rw [hq] at hfull; simp at hfull; omega
      | cons x q =>
        rw [Channel.pushAll, Channel.push_full_ejecting ch v x q hq hfull]
        have hlen : q.length + 1 = ch.maxChannelSize_ := by
          rw [hq] at h hfull; simp at h hfull; omega
        have h1 := ih { ch with queue_ := q ++ [v] } hc (by simp; omega)
        simp only [h1, List.length_append, List.length_cons, List.length_nil, List.append_assoc,
          List.singleton_append]
        have e1 : q.length + (0 + 1) + vs.length - ch.maxChannelSize_ = vs.length := by omega
        have e2 : q.length + 1 + (vs.length + 1) - ch.maxChannelSize_ = vs.length + 1 := by
          omega
        rw [e1, e2]
        simp [List.replicate_succ]
    · have hlt : ch.queue_.length < ch.maxChannelSize_ := by omega
      rw [Channel.pushAll, Channel.push_not_full true ch v hlt]
      have h1 := ih { ch with queue_ := ch.queue_ ++ [v] } hc (by simp; omega)
      simp only [h1, List.length_append, List.length_cons, List.length_nil, List.append_assoc,
        List.singleton_append]
      have e1 : ch.queue_.length + (0 + 1) + vs.length - ch.maxChannelSize_ =
          ch.queue_.length + (vs.length + 1) - ch.maxChannelSize_ := by omega
      rw [e1]
      simp [List.replicate_succ]


/-! ## The channel table -/

section Table

variable {K V C : Type} [DecidableEq K]

theorem find_assign_self (id : K) (ch' : Channel V C) (l : List (K × Channel V C)) :
    find id (assign id ch' l) = (find id l).map fun _ => ch' := by
  induction l with
  | nil => rfl
  | cons a l ih =>
    obtain ⟨k, ch⟩ := a
    by_cases hk : k = id
    · simp [find, assign, hk]
    · simp [find, assign, hk, ih]

theorem find_assign_ne (id k : K) (ch' : Channel V C) (l : List (K × Channel V C))
    (h : k ≠ id) : find k (assign id ch' l) = find k l := by
  induction l with
  | nil => rfl
  | cons a l ih =>
    obtain ⟨k0, ch⟩ := a
    by_cases hk : k0 = id
    · have hne : ¬ id = k := fun e => h e.symm
      simp [find, assign, hk, hne]
    · by_cases hk2 : k0 = k
      · subst hk2
        simp [find, assign, hk]
      · simp [find, assign, hk, hk2, ih]

theorem find_append_self (id : K) (ch' : Channel V C) (l : List (K × Channel V C))
    (h : find id l = none) : find id (l ++ [(id, ch')]) = some ch' := by
  induction l with
  | nil => simp [find]
  | cons a l ih =>
    obtain ⟨k, ch⟩ := a
    by_cases hk : k = id
    · simp [find, hk] at h
    · simp [find, hk] at h ⊢
      exact ih h

theorem find_append_ne (id k : K) (ch' : Channel V C) (l : List (K × Channel V C))
    (h : k ≠ id) : find k (l ++ [(id, ch')]) = find k l := by
  induction l with
  | nil =>
    have : id ≠ k := fun e => h e.symm
    simp [find, this]
  | cons a l ih =>
    obtain ⟨k0, ch⟩ := a
    by_cases hk : k0 = k
    · simp [find, hk]
    · simp [find, hk, ih]

theorem assign_of_find (id : K) (ch : Channel V C) (l : List (K × Channel V C))
    (h : find id l = some ch) : assign id ch l = l := by
  induction l with
  | nil => rfl
  | cons a l ih =>
    obtain ⟨k, c0⟩ := a
    by_cases hk : k = id
    · simp [find, hk] at h
      simp [assign, hk, h]
    · simp [find, hk] at h
      simp [assign, hk, ih h]

theorem keys_assign (id : K) (ch' : Channel V C) (l : List (K × Channel V C)) :
    (assign id ch' l).map Prod.fst = l.map Prod.fst := by
  induction l with
  | nil => rfl
  | cons a l ih =>
    obtain ⟨k, ch⟩ := a
    by_cases hk : k = id
    · simp [assign, hk]
    · simp [assign, hk, ih]

theorem find_eq_none_iff (id : K) (l : List (K × Channel V C)) :
    find id l = none ↔ id ∉ l.map Prod.fst := by
  induction l with
  | nil => simp [find]
  | cons a l ih =>
    obtain ⟨k, ch⟩ := a
    by_cases hk : k = id
    · simp [find, hk]
    · have : ¬ id = k := fun e => hk e.symm
      simp [find, hk, ih, this]

theorem find_put_self (id : K) (ch' : Channel V C) (l : List (K × Channel V C)) :
    find id (put id ch' l) = some ch' := by
  unfold put
  cases h : find id l with
  | none => exact find_append_self id ch' l h
  | some ch => simp [find_assign_self, h]

theorem find_put_ne (id k : K) (ch' : Channel V C) (l : List (K × Channel V C))
    (h : k ≠ id) : find k (put id ch' l) = find k l := by
  unfold put
  cases find id l with
  | none => exact find_append_ne id k ch' l h
  | some ch => exact find_assign_ne id k ch' l h

theorem nodup_keys_put (id : K) (ch' : Channel V C) (l : List (K × Channel V C))
    (h : (l.map Prod.fst).Nodup) : ((put id ch' l).map Prod.fst).Nodup := by
  unfold put
  cases hf : find id l with
  | none =>
    have hn := (find_eq_none_iff id l).1 hf
    simp only [List.map_append, List.map_cons, List.map_nil]
    exact List.Nodup.append h (List.nodup_singleton id) (by
      intro x hx hx'
      simp at hx'
      exact hn (hx' ▸ hx))
  | some ch =>
    simp only [keys_assign]
    exact h

/-- `Enqueue` is `push` on the channel of the key, written back, and one `post`. -/
theorem MQProcessor.Enqueue_eq (ej : Bool) (p : MQProcessor K V C) (id : K) (v : V) :
    p.Enqueue ej id v =
      match (p.channelOf id).push ej v with
      | none => none
      | some (r, ch') =>
        some (r, { p with channels_ := put id ch' p.channels_,
                          semaphore_ := p.semaphore_.post }) := by
  unfold MQProcessor.Enqueue MQProcessor.do_operation_in_channel_ MQProcessor.channelOf put
  cases hf : find id p.channels_ with
  | none =>
    simp only [if_true]
    cases (Channel.new p.maxChannelSize_ : Channel V C).push ej v with
    | none => rfl
    | some r => rfl
  | some ch =>
    simp only
    cases ch.push ej v with
    | none => rfl
    | some r => rfl

/-- `Subscribe` always returns: the channel of the key gets the consumer. -/
theorem MQProcessor.Subscribe_eq (p : MQProcessor K V C) (id : K) (c : Option C) :
    p.Subscribe id c =
      some { p with channels_ := put id ((p.channelOf id).reset_consumer c) p.channels_ } := by
  unfold MQProcessor.Subscribe MQProcessor.do_operation_in_channel_ MQProcessor.channelOf put
  cases hf : find id p.channels_ with
  | none => simp
  | some ch => simp

/-- `Unsubscribe` always returns: an existing channel loses its consumer, and nothing
else happens. -/
theorem MQProcessor.Unsubscribe_eq (p : MQProcessor K V C) (id : K) :
    p.Unsubscribe id =
      some (match find id p.channels_ with
        | some ch => { p with channels_ := assign id (ch.reset_consumer none) p.channels_ }
        | none => p) := by
  unfold MQProcessor.Unsubscribe MQProcessor.do_operation_in_channel_
  cases hf : find id p.channels_ with
  | none => simp
  | some ch => simp

theorem MQProcessor.channelOf_put (p : MQProcessor K V C) (id : K) (ch' : Channel V C)
    (sem : Semaphore) :
    ({ p with channels_ := put id ch' p.channels_, semaphore_ := sem } :
      MQProcessor K V C).channelOf id = ch' := by
  simp [MQProcessor.channelOf, find_put_self]

/-- A sequence of `Enqueue` calls on one key is the sequence of pushes on its channel. -/
theorem MQProcessor.enqueueAll_of_pushAll (ej : Bool) (id : K) (vs : List V) :
    ∀ (p : MQProcessor K V C) (rs : List Bool) (ch' : Channel V C),
      Channel.pushAll ej (p.channelOf id) vs = some (rs, ch') →
      ∃ p', MQProcessor.enqueueAll ej id p vs = some (rs, p') ∧ p'.channelOf id = ch' ∧
        p'.maxChannelSize_ = p.maxChannelSize_ ∧
        p'.semaphore_.count_ = p.semaphore_.count_ + vs.length ∧
        (vs ≠ [] → find id p'.channels_ = some ch') := by
  induction vs with
  | nil =>
    intro p rs ch' h
    simp [Channel.pushAll] at h
    exact ⟨p, by simp [MQProcessor.enqueueAll, h.1], h.2, rfl, rfl, by simp⟩
  | cons v vs ih =>
    intro p rs ch' h
    rw [Channel.pushAll] at h
    cases hp : (p.channelOf id).push ej v with
    | none => simp [hp] at h
    | some r1 =>
      obtain ⟨r, ch1⟩ := r1
      simp only [hp] at h
      cases hr : Channel.pushAll ej ch1 vs with
      | none => simp [hr] at h
      | some r2 =>
        obtain ⟨rs', ch2⟩ := r2
        simp only [hr, Option.some.injEq, Prod.mk.injEq] at h
        obtain ⟨hrs, hch⟩ := h
        have hE := MQProcessor.Enqueue_eq ej p id v
        simp only [hp] at hE
        have hco := MQProcessor.channelOf_put p id ch1 p.semaphore_.post
        obtain ⟨p', h1, h2, h3, h4, h5⟩ := ih _ rs' ch2 (by rw [hco]; exact hr)
        refine ⟨p', ?_, ?_, ?_, ?_, ?_⟩
        · simp [MQProcessor.enqueueAll, hE, h1, hrs]
        · rw [h2, hch]
        · rw [h3]
        · rw [h4]
          simp [Semaphore.post]
          omega
        · intro _
          cases vs with
          | nil =>
            simp [MQProcessor.enqueueAll] at h1
            simp [Channel.pushAll] at hr
            rw [← h1.2, ← hch, ← hr.2]
            exact find_put_self id ch1 p.channels_
          | cons w ws => rw [← hch]; exact h5 (by simp)

end Table


section Policies

variable {K V C : Type} [DecidableEq K]

theorem MQProcessor.pending_eq (p : MQProcessor K V C) (id : K) :
    p.pending id = (p.channelOf id).queue_ := by
  unfold MQProcessor.pending MQProcessor.channelOf
  cases find id p.channels_ <;> rfl

theorem MQProcessor.consumer_eq (p : MQProcessor K V C) (id : K) :
    p.consumer id = (p.channelOf id).consumer_ := by
  unfold MQProcessor.consumer MQProcessor.channelOf
  cases find id p.channels_ <;> rfl

theorem MQProcessor.channelOf_new (c : Nat) (id : K) :
    (MQProcessor.new c : MQProcessor K V C).channelOf id = Channel.new c := rfl

/-- Claim C2 (ejecting policy).  For every capacity `c ≥ 1` and every list of values,
pushing the values in order onto a fresh ejecting channel returns true for every push
and leaves exactly the last `c` values (the list without its first `n - c` values),
oldest first; the same holds for `Enqueue` on one key of a fresh processor. -/
theorem C2_ejecting_keeps_last (id : K) (c : Nat) (hc : 1 ≤ c) (vs : List V) :
    Channel.pushAll true (Channel.new c : Channel V C) vs =
        some (List.replicate vs.length true,
          { queue_ := vs.drop (vs.length - c), consumer_ := none, maxChannelSize_ := c }) ∧
      ∃ p', (MQProcessor.new c : MQProcessor K V C).enqueueAll true id vs =
          some (List.replicate vs.length true, p') ∧
        p'.pending id = vs.drop (vs.length - c) := by
  have h := Channel.pushAll_ejecting vs (Channel.new c : Channel V C) hc (by simp [Channel.new])
  have h' : Channel.pushAll true (Channel.new c : Channel V C) vs =
      some (List.replicate vs.length true,
        { queue_ := vs.drop (vs.length - c), consumer_ := none, maxChannelSize_ := c }) := by
    rw [h]
    simp [Channel.new]
  refine ⟨h', ?_⟩
  obtain ⟨p', h1, h2, _, _, _⟩ :=
    MQProcessor.enqueueAll_of_pushAll true id vs (MQProcessor.new c : MQProcessor K V C) _ _
      (by rw [MQProcessor.channelOf_new]; exact h')
  exact ⟨p', h1, by rw [MQProcessor.pending_eq, h2]⟩

/-- Claim C2 on the scenario of the test `ejecting_strategy`: capacity 5, values 0..9. -/
theorem C2_ejecting_keeps_last_witness :
    (1 : Nat) ≤ 5 ∧
    (Channel.pushAll true (Channel.new 5 : Channel Int Nat) [0, 1, 2, 3, 4, 5, 6, 7, 8, 9] =
        some (List.replicate 10 true,
          { queue_ := [5, 6, 7, 8, 9], consumer_ := none, maxChannelSize_ := 5 }) ∧
      ∃ p', (MQProcessor.new 5 : MQProcessor Int Int Nat).enqueueAll true 0
          [0, 1, 2, 3, 4, 5, 6, 7, 8, 9] = some (List.replicate 10 true, p') ∧
        p'.pending 0 = [5, 6, 7, 8, 9]) :=
  ⟨by decide, C2_ejecting_keeps_last (0 : Int) 5 (by decide) [0, 1, 2, 3, 4, 5, 6, 7, 8, 9]⟩

/-- Claim C3 (rejecting policy).  For every capacity `c` and every list of `n` values,
pushing the values in order onto a fresh rejecting channel returns true for the first
`min c n` pushes and false for the `n - c` later ones, and leaves exactly the first `c`
values, oldest first; the same holds for `Enqueue` on one key of a fresh processor. -/
theorem C3_rejecting_keeps_first (id : K) (c : Nat) (vs : List V) :
    Channel.pushAll false (Channel.new c : Channel V C) vs =
        some (List.replicate (min c vs.length) true ++ List.replicate (vs.length - c) false,
          { queue_ := vs.take c, consumer_ := none, maxChannelSize_ := c }) ∧
      ∃ p', (MQProcessor.new c : MQProcessor K V C).enqueueAll false id vs =
          some (List.replicate (min c vs.length) true ++ List.replicate (vs.length - c) false,
            p') ∧
        p'.pending id = vs.take c := by
  have h := Channel.pushAll_rejecting vs (Channel.new c : Channel V C) (by simp [Channel.new])
  have h' : Channel.pushAll false (Channel.new c : Channel V C) vs =
      some (List.replicate (min c vs.length) true ++ List.replicate (vs.length - c) false,
        { queue_ := vs.take c, consumer_ := none, maxChannelSize_ := c }) := by
    rw [h]
    simp [Channel.new]
  refine ⟨h', ?_⟩
  obtain ⟨p', h1, h2, _, _, _⟩ :=
    MQProcessor.enqueueAll_of_pushAll false id vs (MQProcessor.new c : MQProcessor K V C) _ _
      (by rw [MQProcessor.channelOf_new]; exact h')
  exact ⟨p', h1, by rw [MQProcessor.pending_eq, h2]⟩

/-- The three outcomes of `push`, whenever it does not pop an empty list. -/
theorem Channel.push_cases (ej : Bool) (ch : Channel V C) (v : V)
    (hsafe : ej = false ∨ 1 ≤ ch.maxChannelSize_ ∨ ch.queue_ ≠ []) :
    ∃ r ch', ch.push ej v = some (r, ch') ∧
      (r = false ↔ ej = false ∧ ch.maxChannelSize_ ≤ ch.queue_.length) ∧
      (r = false → ch' = ch) ∧
      (r = true → ∃ q, ch'.queue_ = q ++ [v]) ∧
      ch'.consumer_ = ch.consumer_ ∧ ch'.maxChannelSize_ = ch.maxChannelSize_ := by
  by_cases hfull : ch.maxChannelSize_ ≤ ch.queue_.length
  · cases ej with
    | false =>
      exact ⟨false, ch, Channel.push_full_rejecting ch v hfull, by simp [hfull], by simp,
        by simp, rfl, rfl⟩
    | true =>
      cases hq : ch.queue_ with
      | nil =>
        rw [hq] at hfull hsafe
        simp at hfull hsafe
        omega
      | cons x q =>
        exact ⟨true, _, Channel.push_full_ejecting ch v x q hq hfull, by simp, by simp,
          fun _ => ⟨q, rfl⟩, rfl, rfl⟩
  · refine ⟨true, _, Channel.push_not_full ej ch v (by omega), ?_, by simp,
      fun _ => ⟨ch.queue_, rfl⟩, rfl, rfl⟩
    simp
    intro _
    omega

/-- Claim C4 as amended (Enqueue fails exactly on queue-full rejection).  For every
processor state, key and value on which `push` does not pop an empty list (rejecting
policy, or capacity at least 1, or a non-empty queue), `Enqueue` returns; it returns false
if and only if
the policy is rejecting and the channel of the key (after lazy creation) already holds
at least `capacity` values, and then that channel, its pending queue and its consumer
are as before; in every other case it returns true and the value is the newest
element of the pending queue of the key. -/
theorem C4_Enqueue_false_iff_rejecting_full (EjectingStrategy : Bool) (p : MQProcessor K V C)
    (k : K) (v : V)
    (hsafe : EjectingStrategy = false ∨ 1 ≤ (p.channelOf k).maxChannelSize_ ∨
      (p.channelOf k).queue_ ≠ []) :
    ∃ b p', p.Enqueue EjectingStrategy k v = some (b, p') ∧
      (b = false ↔ EjectingStrategy = false ∧
        (p.channelOf k).maxChannelSize_ ≤ (p.channelOf k).queue_.length) ∧
      (b = false → p'.channelOf k = p.channelOf k ∧ p'.pending k = p.pending k ∧
        p'.consumer k = p.consumer k) ∧
      (b = true → ∃ q, p'.pending k = q ++ [v]) ∧
      (EjectingStrategy = true → b = true) := by
  obtain ⟨r, ch', hp, hiff, hfalse, htrue, hcons, _⟩ :=
    Channel.push_cases EjectingStrategy (p.channelOf k) v hsafe
  have hE := MQProcessor.Enqueue_eq EjectingStrategy p k v
  simp only [hp] at hE
  have hco := MQProcessor.channelOf_put p k ch' p.semaphore_.post
  refine ⟨r, _, hE, hiff, ?_, ?_, ?_⟩
  · intro hr
    have hch := hfalse hr
    rw [MQProcessor.pending_eq, MQProcessor.pending_eq, MQProcessor.consumer_eq,
      MQProcessor.consumer_eq, hco, hch]
    exact ⟨rfl, rfl, rfl⟩
  · intro hr
    rw [MQProcessor.pending_eq, hco]
    exact htrue hr
  · intro hej
    cases r with
    | true => rfl
    | false =>
      have := hiff.1 rfl
      rw [hej] at this
      simp at this

/-- Claim C4 as amended, on a full rejecting channel of capacity 1: the second `Enqueue` is
refused. -/
theorem C4_Enqueue_false_iff_rejecting_full_witness :
    ∃ b p', fullProcessor.Enqueue false 0 8 = some (b, p') ∧
      (b = false ↔ false = false ∧
        (fullProcessor.channelOf 0).maxChannelSize_ ≤ (fullProcessor.channelOf 0).queue_.length) ∧
      (b = false → p'.channelOf 0 = fullProcessor.channelOf 0 ∧
        p'.pending 0 = fullProcessor.pending 0 ∧ p'.consumer 0 = fullProcessor.consumer 0) ∧
      (b = true → ∃ q, p'.pending 0 = q ++ [8]) ∧
      (false = true → b = true) :=
  C4_Enqueue_false_iff_rejecting_full false fullProcessor 0 8 (Or.inl rfl)

/-- Claim C4 fails as stated: on a processor constructed with `maxChannelSize = 0` under
the ejecting policy, the channel of key 0 (created by the call) is empty and already holds
at least `capacity` values, so `push` runs `pop_front` on an empty list: `Enqueue(0, 5)`
is undefined and does not return true. -/
theorem C4_ejecting_capacity_zero_undefined :
    ((MQProcessor.new 0 : MQProcessor Nat Nat Nat).channelOf 0).queue_ = [] ∧
      ((MQProcessor.new 0 : MQProcessor Nat Nat Nat).channelOf 0).maxChannelSize_ = 0 ∧
      pop_front ((MQProcessor.new 0 : MQProcessor Nat Nat Nat).channelOf 0).queue_ = none ∧
      (MQProcessor.new 0 : MQProcessor Nat Nat Nat).Enqueue true 0 5 = none :=
  ⟨rfl, rfl, rfl, rfl⟩

end Policies


section Subscription

variable {K V C : Type} [DecidableEq K]

theorem Channel.reset_consumer_same (ch : Channel V C) (c : Option C) (h : ch.consumer_ = c) :
    ch.reset_consumer c = ch := by
  cases ch
  simp [Channel.reset_consumer] at h ⊢
  exact h.symm

/-- Claim C8 (Unsubscribe idempotence).  `Unsubscribe` always returns; on a key without
channel, or whose channel has no bound consumer, it returns the state unchanged (no
channel is created, the wake count is untouched); applied twice it yields the state
it yields applied once. -/
theorem C8_Unsubscribe_idempotent (p : MQProcessor K V C) (k : K) :
    (∃ p', p.Unsubscribe k = some p') ∧
      ((find k p.channels_ = none ∨ ∃ ch, find k p.channels_ = some ch ∧ ch.consumer_ = none) →
        p.Unsubscribe k = some p) ∧
      (p.Unsubscribe k).bind (fun p' => p'.Unsubscribe k) = p.Unsubscribe k := by
  refine ⟨⟨_, MQProcessor.Unsubscribe_eq p k⟩, ?_, ?_⟩
  · rintro (h | ⟨ch, h, hc⟩)
    · rw [MQProcessor.Unsubscribe_eq, h]
    · rw [MQProcessor.Unsubscribe_eq, h]
      simp only [Channel.reset_consumer_same ch none hc, assign_of_find k ch p.channels_ h]
  · rw [MQProcessor.Unsubscribe_eq]
    cases h : find k p.channels_ with
    | none =>
      simp only [Option.some_bind]
      rw [MQProcessor.Unsubscribe_eq, h]
    | some ch =>
      simp only [Option.some_bind]
      rw [MQProcessor.Unsubscribe_eq]
      have hf : find k (assign k (ch.reset_consumer none) p.channels_) =
          some (ch.reset_consumer none) := by
        rw [find_assign_self, h]; rfl
      simp only [hf]
      have hr : (ch.reset_consumer none).reset_consumer none = ch.reset_consumer none := rfl
      rw [hr, assign_of_find k _ _ hf]

/-- Claim C8 on the channel of key 2 of `twoChannels`, which has no consumer, and on the
absent key 7. -/
theorem C8_Unsubscribe_idempotent_witness :
    twoChannels.Unsubscribe 2 = some twoChannels ∧ twoChannels.Unsubscribe 7 = some twoChannels :=
  ⟨(C8_Unsubscribe_idempotent twoChannels 2).2.1 (Or.inr ⟨Channel.mk [8, 9] none 5, rfl, rfl⟩),
    (C8_Unsubscribe_idempotent twoChannels 7).2.1 (Or.inl rfl)⟩

/-- Claim C9 (frame of Subscribe and Unsubscribe).  `Subscribe(k, c)` returns a state in
which the channel of `k` exists, has consumer `c` and the pending queue it had before
(empty if the channel is new); `Unsubscribe(k)` on an existing channel leaves it with no
consumer and the same pending queue; in both cases the channel of every other key,
the wake count, the capacity and the running flag are unchanged. -/
theorem C9_Subscribe_Unsubscribe_frame (p : MQProcessor K V C) (k : K) (c : Option C) :
    (∃ p', p.Subscribe k c = some p' ∧
        find k p'.channels_ = some ((p.channelOf k).reset_consumer c) ∧
        p'.consumer k = c ∧ p'.pending k = p.pending k ∧
        (∀ k', k' ≠ k → find k' p'.channels_ = find k' p.channels_) ∧
        p'.semaphore_ = p.semaphore_ ∧ p'.maxChannelSize_ = p.maxChannelSize_ ∧
        p'.running_ = p.running_) ∧
      (∀ ch, find k p.channels_ = some ch →
        ∃ p', p.Unsubscribe k = some p' ∧
          find k p'.channels_ = some (ch.reset_consumer none) ∧
          p'.consumer k = none ∧ p'.pending k = p.pending k ∧
          (∀ k', k' ≠ k → find k' p'.channels_ = find k' p.channels_) ∧
          p'.semaphore_ = p.semaphore_ ∧ p'.maxChannelSize_ = p.maxChannelSize_ ∧
          p'.running_ = p.running_) := by
  constructor
  · refine ⟨_, MQProcessor.Subscribe_eq p k c, find_put_self _ _ _, ?_, ?_, ?_, rfl, rfl, rfl⟩
    · simp [MQProcessor.consumer, find_put_self, Channel.reset_consumer]
    · rw [MQProcessor.pending_eq p k]
      simp [MQProcessor.pending, find_put_self, Channel.reset_consumer]
    · intro k' hk'
      exact find_put_ne k k' _ _ hk'
  · intro ch hch
    have hU := MQProcessor.Unsubscribe_eq p k
    simp only [hch] at hU
    have hf : find k (assign k (ch.reset_consumer none) p.channels_) =
        some (ch.reset_consumer none) := by
      rw [find_assign_self, hch]; rfl
    refine ⟨_, hU, hf, ?_, ?_, ?_, rfl, rfl, rfl⟩
    · simp only [MQProcessor.consumer, hf]
      rfl
    · simp only [MQProcessor.pending, hf, hch]
      rfl
    · intro k' hk'
      exact find_assign_ne k k' _ _ hk'

/-- Claim C9 on `twoChannels`: unsubscribing key 1 leaves key 2 and the wake count alone. -/
theorem C9_Subscribe_Unsubscribe_frame_witness :
    ∃ p', twoChannels.Unsubscribe 1 = some p' ∧
      find 1 p'.channels_ = some ((Channel.mk [] (some 4) 5).reset_consumer none) ∧
      p'.consumer 1 = none ∧ p'.pending 1 = twoChannels.pending 1 ∧
      (∀ k', k' ≠ 1 → find k' p'.channels_ = find k' twoChannels.channels_) ∧
      p'.semaphore_ = twoChannels.semaphore_ ∧
      p'.maxChannelSize_ = twoChannels.maxChannelSize_ ∧
      p'.running_ = twoChannels.running_ :=
  (C9_Subscribe_Unsubscribe_frame twoChannels 1 none).2 (Channel.mk [] (some 4) 5) rfl

/-- Along a run, the wake count grows by one for every `Enqueue` call. -/
theorem Sys.run_count (ej : Bool) (ops : List (Op K V C)) :
    ∀ s s' : Sys K V C, Sys.run ej s ops = some s' →
      s'.proc.semaphore_.count_ = s.proc.semaphore_.count_ + enqueueCalls ops := by
  induction ops with
  | nil =>
    intro s s' h
    simp [Sys.run] at h
    simp [← h, enqueueCalls]
  | cons op ops ih =>
    intro s s' h
    rw [Sys.run] at h
    cases hs : s.step ej op with
    | none => simp [hs] at h
    | some s1 =>
      simp only [hs] at h
      have h1 := ih s1 s' h
      cases op with
      | Enqueue id value =>
        simp only [Sys.step, MQProcessor.Enqueue_eq] at hs
        cases hp : (s.proc.channelOf id).push ej value with
        | none => simp [hp] at hs
        | some r =>
          simp only [hp, Option.map_some', Option.some.injEq] at hs
          rw [h1, ← hs]
          simp [enqueueCalls, Semaphore.post]
          omega
      | Subscribe id consumer =>
        simp only [Sys.step, MQProcessor.Subscribe_eq, Option.map_some',
          Option.some.injEq] at hs
        rw [h1, ← hs]
        simp [enqueueCalls]
      | Unsubscribe id =>
        simp only [Sys.step, MQProcessor.Unsubscribe_eq, Option.map_some',
          Option.some.injEq] at hs
        rw [h1, ← hs]
        cases find id s.proc.channels_ <;> simp [enqueueCalls]
      | Pass =>
        simp only [Sys.step, Option.some.injEq] at hs
        rw [h1, ← hs]
        simp [enqueueCalls, MQProcessor.dispatch_pass]

/-- Claim C10 fails as stated: on the full rejecting channel of `fullProcessor` (wake
count 1), `Enqueue(0, 8)` returns false, leaves the channel as it was, and the wake count
becomes 2. -/
theorem C10_rejected_Enqueue_posts :
    fullProcessor.semaphore_.count_ = 1 ∧
      fullProcessor.Enqueue false 0 8 =
        some (false, MQProcessor.mk 1 [(0, Channel.mk [7] (some 3) 1)] (Semaphore.mk 2) true) :=
  ⟨rfl, rfl⟩

/-- Claim C10 as amended.  Whenever `push` does not pop an empty list, `Enqueue` returns
and increments the wake count by exactly one, whether the push succeeded or was
rejected; along every run the number of posts made by producers is the number of
`Enqueue` calls. -/
theorem C10_Enqueue_posts_always (EjectingStrategy : Bool) (p : MQProcessor K V C) (k : K)
    (v : V)
    (hsafe : EjectingStrategy = false ∨ 1 ≤ (p.channelOf k).maxChannelSize_ ∨
      (p.channelOf k).queue_ ≠ []) :
    (∃ b p', p.Enqueue EjectingStrategy k v = some (b, p') ∧
        p'.semaphore_.count_ = p.semaphore_.count_ + 1) ∧
      ∀ (s s' : Sys K V C) (ops : List (Op K V C)), Sys.run EjectingStrategy s ops = some s' →
        s'.proc.semaphore_.count_ = s.proc.semaphore_.count_ + enqueueCalls ops := by
  refine ⟨?_, fun s s' ops h => Sys.run_count EjectingStrategy ops s s' h⟩
  obtain ⟨r, ch', hp, _⟩ := Channel.push_cases EjectingStrategy (p.channelOf k) v hsafe
  have hE := MQProcessor.Enqueue_eq EjectingStrategy p k v
  simp only [hp] at hE
  exact ⟨r, _, hE, rfl⟩

/-- Claim C10 as amended, on the rejected `Enqueue` of `fullProcessor`. -/
theorem C10_Enqueue_posts_always_witness :
    ∃ b p', fullProcessor.Enqueue false 0 8 = some (b, p') ∧
      p'.semaphore_.count_ = fullProcessor.semaphore_.count_ + 1 :=
  (C10_Enqueue_posts_always false fullProcessor 0 8 (Or.inl rfl)).1

end Subscription


/-! ## One key seen through a step of the system -/

theorem Channel.consume_calls_id {K V C : Type} (ch : Channel V C) (k : K) :
    ∀ c ∈ (ch.consume k).2, c.id = k := by
  unfold Channel.consume
  split
  · intro c hc
    simp at hc
    rw [hc]
  · intro c hc
    simp at hc

theorem Channel.consume_new {K V C : Type} (cap : Nat) (k : K) :
    (Channel.new cap : Channel V C).consume k = (Channel.new cap, []) := rfl

theorem consume_all_keys {K V C : Type} (l : List (K × Channel V C)) :
    (consume_all l).1.map Prod.fst = l.map Prod.fst := by
  induction l with
  | nil => rfl
  | cons a l ih =>
    obtain ⟨k0, ch⟩ := a
    simp [consume_all, ih]

theorem consume_all_calls_id {K V C : Type} (l : List (K × Channel V C)) :
    ∀ c ∈ (consume_all l).2, c.id ∈ l.map Prod.fst := by
  induction l with
  | nil => intro c hc; simp [consume_all] at hc
  | cons a l ih =>
    obtain ⟨k0, ch⟩ := a
    intro c hc
    simp only [consume_all, List.mem_append] at hc
    rcases hc with hc | hc
    · simp [Channel.consume_calls_id ch k0 c hc]
    · simp only [List.map_cons, List.mem_cons]
      exact Or.inr (ih c hc)

section View

variable {K V C : Type} [DecidableEq K]

theorem consume_all_find (k : K) (l : List (K × Channel V C)) :
    find k (consume_all l).1 = (find k l).map fun ch => (ch.consume k).1 := by
  induction l with
  | nil => rfl
  | cons a l ih =>
    obtain ⟨k0, ch⟩ := a
    by_cases hk : k0 = k
    · subst hk
      simp [consume_all, find]
    · simp [consume_all, find, hk, ih]

theorem callsOf_append (k : K) (a b : List (Call K V C)) :
    callsOf k (a ++ b) = callsOf k a ++ callsOf k b := by
  simp [callsOf]

theorem callsOf_eq_self (k : K) (a : List (Call K V C)) (h : ∀ c ∈ a, c.id = k) :
    callsOf k a = a := by
  unfold callsOf
  rw [List.filter_eq_self]
  intro c hc
  simp [h c hc]

theorem callsOf_eq_nil (k : K) (a : List (Call K V C)) (h : ∀ c ∈ a, c.id ≠ k) :
    callsOf k a = [] := by
  unfold callsOf
  rw [List.filter_eq_nil_iff]
  intro c hc
  simp [h c hc]

/-- With one channel per key, the invocations of a pass made with key `k` are those of
the `consume` of the channel of `k`. -/
theorem consume_all_callsOf (k : K) (l : List (K × Channel V C))
    (hnd : (l.map Prod.fst).Nodup) :
    callsOf k (consume_all l).2 =
      match find k l with
      | some ch => (ch.consume k).2
      | none => [] := by
  induction l with
  | nil => rfl
  | cons a l ih =>
    obtain ⟨k0, ch⟩ := a
    simp only [List.map_cons, List.nodup_cons] at hnd
    by_cases hk : k0 = k
    · subst hk
      have hrest : callsOf k0 (consume_all l).2 = [] :=
        callsOf_eq_nil k0 _ (fun c hc e => hnd.1 (e ▸ consume_all_calls_id l c hc))
      simp [consume_all, find, callsOf_append, hrest,
        callsOf_eq_self k0 _ (Channel.consume_calls_id ch k0)]
    · have hfirst : callsOf k (ch.consume k0).2 = [] :=
        callsOf_eq_nil k _ (fun c hc e => hk ((Channel.consume_calls_id ch k0 c hc).symm.trans e))
      simp [consume_all, find, hk, callsOf_append, hfirst, ih hnd.2]

theorem MQProcessor.dispatch_pass_channelOf (p : MQProcessor K V C) (k : K) :
    p.dispatch_pass.1.channelOf k = ((p.channelOf k).consume k).1 := by
  unfold MQProcessor.channelOf MQProcessor.dispatch_pass
  simp only [consume_all_find]
  cases find k p.channels_ <;> rfl

theorem MQProcessor.dispatch_pass_callsOf (p : MQProcessor K V C) (k : K) (hwf : p.WF) :
    callsOf k p.dispatch_pass.2 = ((p.channelOf k).consume k).2 := by
  unfold MQProcessor.channelOf MQProcessor.dispatch_pass
  simp only [consume_all_callsOf k p.channels_ hwf]
  cases find k p.channels_ <;> rfl

theorem MQProcessor.channelOf_put_ne (p : MQProcessor K V C) (id k : K) (ch' : Channel V C)
    (sem : Semaphore) (h : k ≠ id) :
    ({ p with channels_ := put id ch' p.channels_, semaphore_ := sem } :
      MQProcessor K V C).channelOf k = p.channelOf k := by
  simp [MQProcessor.channelOf, find_put_ne id k ch' p.channels_ h]

theorem Sys.step_Enqueue (ej : Bool) (s s1 : Sys K V C) (id : K) (v : V)
    (h : s.step ej (.Enqueue id v) = some s1) :
    s1.calls = s.calls ∧ s1.proc.maxChannelSize_ = s.proc.maxChannelSize_ ∧
      (∃ r, (s.proc.channelOf id).push ej v = some (r, s1.proc.channelOf id)) ∧
      (∀ k, k ≠ id → s1.proc.channelOf k = s.proc.channelOf k) ∧
      (s.proc.WF → s1.proc.WF) := by
  simp only [Sys.step, MQProcessor.Enqueue_eq] at h
  cases hp : (s.proc.channelOf id).push ej v with
  | none => simp [hp] at h
  | some r =>
    obtain ⟨r, ch'⟩ := r
    simp only [hp, Option.map_some', Option.some.injEq] at h
    subst h
    refine ⟨rfl, rfl, ⟨r, ?_⟩, ?_, ?_⟩
    · rw [MQProcessor.channelOf_put]
    · intro k hk
      exact MQProcessor.channelOf_put_ne s.proc id k ch' _ hk
    · intro hwf
      exact nodup_keys_put id ch' s.proc.channels_ hwf

theorem Sys.step_Subscribe (ej : Bool) (s s1 : Sys K V C) (id : K) (c : Option C)
    (h : s.step ej (.Subscribe id c) = some s1) :
    s1.calls = s.calls ∧ s1.proc.maxChannelSize_ = s.proc.maxChannelSize_ ∧
      s1.proc.channelOf id = (s.proc.channelOf id).reset_consumer c ∧
      (∀ k, k ≠ id → s1.proc.channelOf k = s.proc.channelOf k) ∧
      (s.proc.WF → s1.proc.WF) := by
  simp only [Sys.step, MQProcessor.Subscribe_eq, Option.map_some', Option.some.injEq] at h
  subst h
  refine ⟨rfl, rfl, ?_, ?_, ?_⟩
  · exact MQProcessor.channelOf_put s.proc id _ s.proc.semaphore_
  · intro k hk
    exact MQProcessor.channelOf_put_ne s.proc id k _ s.proc.semaphore_ hk
  · intro hwf
    exact nodup_keys_put id _ s.proc.channels_ hwf

theorem Sys.step_Unsubscribe (ej : Bool) (s s1 : Sys K V C) (id : K)
    (h : s.step ej (.Unsubscribe id) = some s1) :
    s1.calls = s.calls ∧ s1.proc.maxChannelSize_ = s.proc.maxChannelSize_ ∧
      s1.proc.channelOf id = (s.proc.channelOf id).reset_consumer none ∧
      (∀ k, k ≠ id → s1.proc.channelOf k = s.proc.channelOf k) ∧
      (s.proc.WF → s1.proc.WF) := by
  simp only [Sys.step, MQProcessor.Unsubscribe_eq, Option.map_some', Option.some.injEq] at h
  subst h
  cases hf : find id s.proc.channels_ with
  | none =>
    refine ⟨rfl, rfl, ?_, fun _ _ => rfl, fun hwf => hwf⟩
    simp [MQProcessor.channelOf, hf, Channel.new, Channel.reset_consumer]
  | some ch =>
    refine ⟨rfl, rfl, ?_, ?_, ?_⟩
    · simp [MQProcessor.channelOf, hf, find_assign_self]
    · intro k hk
      simp [MQProcessor.channelOf, find_assign_ne id k _ _ hk]
    · intro hwf
      simp only [MQProcessor.WF, keys_assign]
      exact hwf

theorem Sys.step_Pass (ej : Bool) (s s1 : Sys K V C) (h : s.step ej .Pass = some s1) :
    s1.proc.maxChannelSize_ = s.proc.maxChannelSize_ ∧
      (∀ k, s1.proc.channelOf k = ((s.proc.channelOf k).consume k).1) ∧
      (s.proc.WF → ∀ k, callsOf k s1.calls =
        callsOf k s.calls ++ ((s.proc.channelOf k).consume k).2) ∧
      (s.proc.WF → s1.proc.WF) := by
  simp only [Sys.step, Option.some.injEq] at h
  subst h
  refine ⟨rfl, fun k => MQProcessor.dispatch_pass_channelOf s.proc k, ?_, ?_⟩
  · intro hwf k
    rw [callsOf_append, MQProcessor.dispatch_pass_callsOf s.proc k hwf]
  · intro hwf
    simp only [MQProcessor.WF, MQProcessor.dispatch_pass, consume_all_keys]
    exact hwf

end View


/-! ## Per-key FIFO order (claim C6) -/

theorem Channel.consume_queue {K V C : Type} (ch : Channel V C) (k : K) :
    ((ch.consume k).2.map Call.value) ++ (ch.consume k).1.queue_ = ch.queue_ ∧
      (ch.consume k).1.maxChannelSize_ = ch.maxChannelSize_ ∧
      (ch.consume k).1.consumer_ = ch.consumer_ := by
  unfold Channel.consume
  split
  · next v rest c hq hc => simp [hq]
  · simp

section Fifo

variable {K V C : Type} [DecidableEq K]

theorem enqueued_cons (k : K) (op : Op K V C) (ops : List (Op K V C)) :
    enqueued k (op :: ops) = enqueued k [op] ++ enqueued k ops := by
  cases op with
  | Enqueue id v =>
    by_cases h : id = k
    · simp [enqueued, h]
    · simp [enqueued, h]
  | Subscribe id c => simp [enqueued]
  | Unsubscribe id => simp [enqueued]
  | Pass => simp [enqueued]

theorem Channel.push_sublist (ej : Bool) (ch ch' : Channel V C) (v : V) (r : Bool)
    (h : ch.push ej v = some (r, ch')) :
    ch'.queue_.Sublist (ch.queue_ ++ [v]) ∧ ch'.maxChannelSize_ = ch.maxChannelSize_ := by
  unfold Channel.push at h
  split at h
  · split at h
    · simp only [Option.some.injEq, Prod.mk.injEq] at h
      rw [← h.2]
      exact ⟨List.sublist_append_left _ _, rfl⟩
    · cases hq : ch.queue_ with
      | nil => simp [hq, pop_front] at h
      | cons x q =>
        simp only [hq, pop_front, Option.some.injEq, Prod.mk.injEq] at h
        rw [← h.2]
        exact ⟨List.Sublist.cons _ (List.Sublist.refl _), rfl⟩
  · simp only [Option.some.injEq, Prod.mk.injEq] at h
    rw [← h.2]
    exact ⟨List.Sublist.refl _, rfl⟩

theorem delivered_append (k : K) (a b : List (Call K V C)) :
    delivered k (a ++ b) = delivered k a ++ delivered k b := by
  simp [delivered, callsOf_append]

/-- The invariant behind claim C6: for every key, what was delivered followed by what is
pending is a subsequence of what was enqueued. -/
theorem Sys.run_fifo (ej : Bool) (cap : Nat) (hsafe : ej = false ∨ 1 ≤ cap)
    (ops : List (Op K V C)) :
    ∀ (s : Sys K V C) (E : K → List V), s.proc.WF →
      (∀ k, (s.proc.channelOf k).maxChannelSize_ = cap) →
      (∀ k, (delivered k s.calls ++ (s.proc.channelOf k).queue_).Sublist (E k)) →
      ∃ s', Sys.run ej s ops = some s' ∧ s'.proc.WF ∧
        (∀ k, (s'.proc.channelOf k).maxChannelSize_ = cap) ∧
        ∀ k, (delivered k s'.calls ++ (s'.proc.channelOf k).queue_).Sublist
          (E k ++ enqueued k ops) := by
  induction ops with
  | nil =>
    intro s E hwf hcap hinv
    exact ⟨s, rfl, hwf, hcap, fun k => by simpa [enqueued] using hinv k⟩
  | cons op ops ih =>
    intro s E hwf hcap hinv
    have key : ∃ s1, s.step ej op = some s1 ∧ s1.proc.WF ∧
        (∀ k, (s1.proc.channelOf k).maxChannelSize_ = cap) ∧
        ∀ k, (delivered k s1.calls ++ (s1.proc.channelOf k).queue_).Sublist
          (E k ++ enqueued k [op]) := by
      cases op with
      | Enqueue id v =>
        obtain ⟨r, ch', hp, _⟩ := Channel.push_cases ej (s.proc.channelOf id) v
          (by rcases hsafe with h | h
              · exact Or.inl h
              · exact Or.inr (Or.inl (by rw [hcap id]; exact h)))
        have hE := MQProcessor.Enqueue_eq ej s.proc id v
        simp only [hp] at hE
        have hstep : ∃ s1, s.step ej (.Enqueue id v) = some s1 := by
          simp [Sys.step, hE]
        obtain ⟨s1, hstep⟩ := hstep
        obtain ⟨hc, _, ⟨r', hp'⟩, hother, hwf'⟩ := Sys.step_Enqueue ej s s1 id v hstep
        have hsub := Channel.push_sublist ej _ _ v r' hp'
        refine ⟨s1, hstep, hwf' hwf, ?_, ?_⟩
        · intro k
          by_cases hk : k = id
          · rw [hk, hsub.2]; exact hcap id
          · rw [hother k hk]; exact hcap k
        · intro k
          rw [hc]
          by_cases hk : k = id
          · subst hk
            have h1 : (delivered k s.calls ++ (s1.proc.channelOf k).queue_).Sublist
                (delivered k s.calls ++ ((s.proc.channelOf k).queue_ ++ [v])) :=
              List.Sublist.append (List.Sublist.refl _) hsub.1
            rw [← List.append_assoc] at h1
            have h2 := List.Sublist.append (hinv k) (List.Sublist.refl [v])
            simpa [enqueued] using h1.trans h2
          · rw [hother k hk]
            have hk' : ¬ id = k := fun e => hk e.symm
            simpa [enqueued, hk'] using hinv k
      | Subscribe id c =>
        have hstep : ∃ s1, s.step ej (.Subscribe id c) = some s1 := by
          simp [Sys.step, MQProcessor.Subscribe_eq]
        obtain ⟨s1, hstep⟩ := hstep
        obtain ⟨hc, _, hself, hother, hwf'⟩ := Sys.step_Subscribe ej s s1 id c hstep
        refine ⟨s1, hstep, hwf' hwf, ?_, ?_⟩
        · intro k
          by_cases hk : k = id
          · rw [hk, hself]; exact hcap id
          · rw [hother k hk]; exact hcap k
        · intro k
          rw [hc]
          by_cases hk : k = id
          · rw [hk, hself]
            simpa [enqueued, Channel.reset_consumer] using hinv id
          · rw [hother k hk]
            simpa [enqueued] using hinv k
      | Unsubscribe id =>
        have hstep : ∃ s1, s.step ej (.Unsubscribe id) = some s1 := by
          simp [Sys.step, MQProcessor.Unsubscribe_eq]
        obtain ⟨s1, hstep⟩ := hstep
        obtain ⟨hc, _, hself, hother, hwf'⟩ := Sys.step_Unsubscribe ej s s1 id hstep
        refine ⟨s1, hstep, hwf' hwf, ?_, ?_⟩
        · intro k
          by_cases hk : k = id
          · rw [hk, hself]; exact hcap id
          · rw [hother k hk]; exact hcap k
        · intro k
          rw [hc]
          by_cases hk : k = id
          · rw [hk, hself]
            simpa [enqueued, Channel.reset_consumer] using hinv id
          · rw [hother k hk]
            simpa [enqueued] using hinv k
      | Pass =>
        have hstep : ∃ s1, s.step ej (.Pass : Op K V C) = some s1 := ⟨_, rfl⟩
        obtain ⟨s1, hstep⟩ := hstep
        obtain ⟨_, hch, hcalls, hwf'⟩ := Sys.step_Pass ej s s1 hstep
        refine ⟨s1, hstep, hwf' hwf, ?_, ?_⟩
        · intro k
          rw [hch k, (Channel.consume_queue (s.proc.channelOf k) k).2.1]
          exact hcap k
        · intro k
          have hq := (Channel.consume_queue (s.proc.channelOf k) k).1
          have : delivered k s1.calls ++ (s1.proc.channelOf k).queue_ =
              delivered k s.calls ++ (s.proc.channelOf k).queue_ := by
            unfold delivered
            rw [hcalls hwf k, hch k, List.map_append, List.append_assoc, hq]
          rw [this]
          simpa [enqueued] using hinv k
    obtain ⟨s1, hstep, hwf1, hcap1, hinv1⟩ := key
    obtain ⟨s', hrun, hwf', hcap', hinv'⟩ :=
      ih s1 (fun k => E k ++ enqueued k [op]) hwf1 hcap1 hinv1
    refine ⟨s', by simp [Sys.run, hstep, hrun], hwf', hcap', ?_⟩
    intro k
    rw [enqueued_cons, ← List.append_assoc]
    exact hinv' k

/-- Claim C6 (per-key FIFO order under any interleaving).  Under either overflow policy
(capacity at least 1 when ejecting), every finite sequence of `Enqueue`, `Subscribe`,
`Unsubscribe` and dispatch-pass steps on a fresh processor is defined, and for every key
the values delivered with that key, followed by the values still pending for it, form an
order-preserving subsequence of the values enqueued under that key; in particular the
delivered values do, so nothing enqueued under another key is delivered with it. -/
theorem C6_per_key_fifo (EjectingStrategy : Bool) (cap : Nat)
    (hsafe : EjectingStrategy = false ∨ 1 ≤ cap) (ops : List (Op K V C)) :
    ∃ s', Sys.run EjectingStrategy (Sys.init cap) ops = some s' ∧
      ∀ k, (delivered k s'.calls).Sublist (enqueued k ops) ∧
        (delivered k s'.calls ++ s'.proc.pending k).Sublist (enqueued k ops) := by
  obtain ⟨s', hrun, _, _, hinv⟩ :=
    Sys.run_fifo EjectingStrategy cap hsafe ops (Sys.init cap : Sys K V C) (fun _ => [])
      (by simp [MQProcessor.WF, Sys.init, MQProcessor.new])
      (fun k => rfl)
      (fun k => by simp [Sys.init, delivered, callsOf, MQProcessor.channelOf_new, Channel.new])
  refine ⟨s', hrun, fun k => ?_⟩
  have h := hinv k
  simp only [List.nil_append] at h
  rw [MQProcessor.pending_eq]
  exact ⟨(List.sublist_append_left _ _).trans h, h⟩

end Fifo


/-! ## One key followed through a run (claims C5 and C7) -/

section OneKey

variable {K V C : Type} [DecidableEq K]

theorem Sys.run_append (ej : Bool) (a b : List (Op K V C)) :
    ∀ s : Sys K V C, Sys.run ej s (a ++ b) = (Sys.run ej s a).bind fun s' => Sys.run ej s' b := by
  induction a with
  | nil => intro s; rfl
  | cons op a ih =>
    intro s
    simp only [List.cons_append, Sys.run]
    cases s.step ej op with
    | none => rfl
    | some s1 => exact ih s1

theorem neverFull_prefix (ej : Bool) (a b : List (Op K V C)) :
    ∀ s : Sys K V C, neverFull ej s (a ++ b) = true → neverFull ej s a = true := by
  induction a with
  | nil => intro s _; rfl
  | cons op a ih =>
    intro s h
    simp only [List.cons_append, neverFull, Bool.and_eq_true] at h ⊢
    refine ⟨h.1, ?_⟩
    cases hs : s.step ej op with
    | none => rfl
    | some s1 =>
      simp only [hs] at h ⊢
      exact ih s1 h.2

/-- Passes and non-overflowing `Enqueue`s on a key with bound consumer `c`: the calls made
with the key go to `c`, and delivered ++ pending grows by exactly the enqueued values. -/
theorem Sys.run_bound_key (ej : Bool) (k : K) (c : C) (ops : List (Op K V C))
    (hops : ∀ op ∈ ops, op = Op.Pass ∨ ∃ v, op = Op.Enqueue k v) :
    ∀ s : Sys K V C, s.proc.WF → (s.proc.channelOf k).consumer_ = some c →
      neverFull ej s ops = true →
      ∃ s', Sys.run ej s ops = some s' ∧ s'.proc.WF ∧
        (s'.proc.channelOf k).consumer_ = some c ∧
        ∃ d : List V, callsOf k s'.calls =
            callsOf k s.calls ++ d.map (fun v => Call.mk c k v) ∧
          d ++ (s'.proc.channelOf k).queue_ = (s.proc.channelOf k).queue_ ++ enqueued k ops := by
  induction ops with
  | nil =>
    intro s hwf hc _
    exact ⟨s, rfl, hwf, hc, [], by simp, by simp [enqueued]⟩
  | cons op ops ih =>
    intro s hwf hc hnf
    simp only [neverFull, Bool.and_eq_true] at hnf
    obtain ⟨hnf1, hnf2⟩ := hnf
    have hops' : ∀ op ∈ ops, op = Op.Pass ∨ ∃ v, op = Op.Enqueue k v :=
      fun o ho => hops o (List.mem_cons_of_mem _ ho)
    rcases hops op (List.mem_cons_self _ _) with hop | ⟨v, hop⟩
    · subst hop
      have hs : s.step ej (Op.Pass : Op K V C) = some
          (Sys.mk s.proc.dispatch_pass.1 (s.calls ++ s.proc.dispatch_pass.2)) := rfl
      simp only [hs] at hnf2
      obtain ⟨_, hch, hcalls, hwf'⟩ := Sys.step_Pass ej s _ hs
      have hq := Channel.consume_queue (s.proc.channelOf k) k
      obtain ⟨s', hrun, hwf2, hc2, d, hd1, hd2⟩ :=
        ih hops' _ (hwf' hwf) (by rw [hch k, hq.2.2]; exact hc) hnf2
      refine ⟨s', by simp [Sys.run, hs, hrun], hwf2, hc2,
        ((s.proc.channelOf k).consume k).2.map Call.value ++ d, ?_, ?_⟩
      · rw [hd1, hcalls hwf k, List.append_assoc, List.map_append]
        congr 2
        unfold Channel.consume
        split
        · next v rest c' hq' hc' =>
          rw [hc] at hc'
          simp only [Option.some.injEq] at hc'
          simp [hc']
        · simp
      · rw [List.append_assoc, hd2, hch k, ← List.append_assoc, hq.1]
        simp [enqueued]
    · subst hop
      simp only [decide_eq_true_eq] at hnf1
      have hpush := Channel.push_not_full ej (s.proc.channelOf k) v hnf1
      have hE := MQProcessor.Enqueue_eq ej s.proc k v
      simp only [hpush] at hE
      have hstep : ∃ s1, s.step ej (Op.Enqueue k v) = some s1 := by
        simp [Sys.step, hE]
      obtain ⟨s1, hs⟩ := hstep
      simp only [hs] at hnf2
      obtain ⟨hcalls, _, ⟨r, hp⟩, _, hwf'⟩ := Sys.step_Enqueue ej s s1 k v hs
      rw [hpush] at hp
      simp only [Option.some.injEq, Prod.mk.injEq] at hp
      have hch : s1.proc.channelOf k =
          { s.proc.channelOf k with queue_ := (s.proc.channelOf k).queue_ ++ [v] } := hp.2.symm
      obtain ⟨s', hrun, hwf2, hc2, d, hd1, hd2⟩ :=
        ih hops' s1 (hwf' hwf) (by rw [hch]; exact hc) hnf2
      refine ⟨s', by simp [Sys.run, hs, hrun], hwf2, hc2, d, ?_, ?_⟩
      · rw [hd1, hcalls]
      · rw [hd2, hch]
        simp [enqueued]

/-- Passes on a key with bound consumer `c`: `j` passes deliver the first `j` pending
values to `c`, in order, and leave the rest pending. -/
theorem Sys.run_drain (ej : Bool) (k : K) (c : C) (j : Nat) :
    ∀ s : Sys K V C, s.proc.WF → (s.proc.channelOf k).consumer_ = some c →
      ∃ s', Sys.run ej s (List.replicate j Op.Pass) = some s' ∧ s'.proc.WF ∧
        (s'.proc.channelOf k).consumer_ = some c ∧
        callsOf k s'.calls = callsOf k s.calls ++
          ((s.proc.channelOf k).queue_.take j).map (fun v => Call.mk c k v) ∧
        (s'.proc.channelOf k).queue_ = (s.proc.channelOf k).queue_.drop j := by
  induction j with
  | zero =>
    intro s hwf hc
    exact ⟨s, rfl, hwf, hc, by simp, by simp⟩
  | succ j ih =>
    intro s hwf hc
    have hs : s.step ej (Op.Pass : Op K V C) = some
        (Sys.mk s.proc.dispatch_pass.1 (s.calls ++ s.proc.dispatch_pass.2)) := rfl
    obtain ⟨_, hch, hcalls, hwf'⟩ := Sys.step_Pass ej s _ hs
    have hq := Channel.consume_queue (s.proc.channelOf k) k
    obtain ⟨s', hrun, hwf2, hc2, hd1, hd2⟩ :=
      ih _ (hwf' hwf) (by rw [hch k, hq.2.2]; exact hc)
    refine ⟨s', by simp [List.replicate_succ, Sys.run, hs, hrun], hwf2, hc2, ?_, ?_⟩
    · rw [hd1, hcalls hwf k, hch k, List.append_assoc]
      congr 1
      unfold Channel.consume
      split
      · next v rest c' hq' hc' =>
        rw [hc] at hc'
        simp only [Option.some.injEq] at hc'
        simp [hq', hc']
      · next hne =>
        cases hq' : (s.proc.channelOf k).queue_ with
        | nil => simp
        | cons v rest => exact absurd hc (fun hc' => hne v rest c hq' hc')
    · rw [hd2, hch k]
      unfold Channel.consume
      split
      · next v rest c' hq' hc' => simp [hq']
      · next hne =>
        cases hq' : (s.proc.channelOf k).queue_ with
        | nil => simp
        | cons v rest => exact absurd hc (fun hc' => hne v rest c hq' hc')

end OneKey


section OnlyKey

variable {K V C : Type} [DecidableEq K]

theorem keys_put (id : K) (ch' : Channel V C) (l : List (K × Channel V C)) :
    ∀ x ∈ (put id ch' l).map Prod.fst, x ∈ l.map Prod.fst ∨ x = id := by
  intro x hx
  unfold put at hx
  cases hf : find id l with
  | none =>
    simp only [hf, List.map_append, List.map_cons, List.map_nil, List.mem_append,
      List.mem_singleton] at hx
    exact hx
  | some ch =>
    simp only [hf, keys_assign] at hx
    exact Or.inl hx

/-- A step on key `k` (or a pass) of a table whose only possible key is `k` keeps it so,
and every invocation made carries key `k`. -/
theorem Sys.step_only_key (ej : Bool) (k : K) (op : Op K V C) (s s1 : Sys K V C)
    (hop : op = Op.Pass ∨ (∃ v, op = Op.Enqueue k v) ∨ ∃ c, op = Op.Subscribe k c)
    (hkeys : ∀ x ∈ s.proc.channels_.map Prod.fst, x = k)
    (hcalls : ∀ call ∈ s.calls, call.id = k) (h : s.step ej op = some s1) :
    (∀ x ∈ s1.proc.channels_.map Prod.fst, x = k) ∧ ∀ call ∈ s1.calls, call.id = k := by
  rcases hop with hop | ⟨v, hop⟩ | ⟨c, hop⟩
  · subst hop
    simp only [Sys.step, Option.some.injEq] at h
    subst h
    constructor
    · intro x hx
      simp only [MQProcessor.dispatch_pass, consume_all_keys] at hx
      exact hkeys x hx
    · intro call hcall
      simp only [List.mem_append] at hcall
      rcases hcall with hcall | hcall
      · exact hcalls call hcall
      · exact hkeys _ (consume_all_calls_id s.proc.channels_ call hcall)
  · subst hop
    simp only [Sys.step, MQProcessor.Enqueue_eq] at h
    cases hp : (s.proc.channelOf k).push ej v with
    | none => simp [hp] at h
    | some r =>
      simp only [hp, Option.map_some', Option.some.injEq] at h
      subst h
      refine ⟨fun x hx => ?_, hcalls⟩
      rcases keys_put k r.2 s.proc.channels_ x hx with hx' | hx'
      · exact hkeys x hx'
      · exact hx'
  · subst hop
    simp only [Sys.step, MQProcessor.Subscribe_eq, Option.map_some', Option.some.injEq] at h
    subst h
    refine ⟨fun x hx => ?_, hcalls⟩
    rcases keys_put k _ s.proc.channels_ x hx with hx' | hx'
    · exact hkeys x hx'
    · exact hx'

theorem Sys.run_only_key (ej : Bool) (k : K) (ops : List (Op K V C))
    (hops : ∀ op ∈ ops, op = Op.Pass ∨ (∃ v, op = Op.Enqueue k v) ∨ ∃ c, op = Op.Subscribe k c) :
    ∀ s s' : Sys K V C, (∀ x ∈ s.proc.channels_.map Prod.fst, x = k) →
      (∀ call ∈ s.calls, call.id = k) → Sys.run ej s ops = some s' →
      (∀ x ∈ s'.proc.channels_.map Prod.fst, x = k) ∧ ∀ call ∈ s'.calls, call.id = k := by
  induction ops with
  | nil =>
    intro s s' hk hc h
    simp only [Sys.run, Option.some.injEq] at h
    subst h
    exact ⟨hk, hc⟩
  | cons op ops ih =>
    intro s s' hk hc h
    rw [Sys.run] at h
    cases hs : s.step ej op with
    | none => simp [hs] at h
    | some s1 =>
      simp only [hs] at h
      obtain ⟨hk1, hc1⟩ :=
        Sys.step_only_key ej k op s s1 (hops op (List.mem_cons_self _ _)) hk hc hs
      exact ih (fun o ho => hops o (List.mem_cons_of_mem _ ho)) s1 s' hk1 hc1 h

/-- The core of claim C5 for one schedule. -/
theorem Sys.run_subscribed_fresh (ej : Bool) (cap : Nat) (k : K) (c : C)
    (ops : List (Op K V C)) (hops : ∀ op ∈ ops, op = Op.Pass ∨ ∃ v, op = Op.Enqueue k v)
    (hnf : neverFull ej (Sys.init cap) (Op.Subscribe k (some c) :: ops) = true) :
    ∃ s1, Sys.run ej (Sys.init cap) (Op.Subscribe k (some c) :: ops) = some s1 ∧
      (∃ d, s1.calls = d.map (fun v => Call.mk c k v) ∧
        d ++ s1.proc.pending k = enqueued k ops) ∧
      ∀ m, (s1.proc.pending k).length ≤ m →
        ∃ s2, Sys.run ej s1 (List.replicate m Op.Pass) = some s2 ∧
          s2.calls = (enqueued k ops).map (fun v => Call.mk c k v) ∧
          s2.proc.pending k = [] := by
  have hsub : ∃ s0, (Sys.init cap : Sys K V C).step ej (Op.Subscribe k (some c)) = some s0 := by
    simp [Sys.step, MQProcessor.Subscribe_eq]
  obtain ⟨s0, hs0⟩ := hsub
  obtain ⟨hcalls0, _, hself0, _, hwf0⟩ := Sys.step_Subscribe ej _ s0 k (some c) hs0
  have hwf : s0.proc.WF := hwf0 (by simp [MQProcessor.WF, Sys.init, MQProcessor.new])
  have hq0 : (s0.proc.channelOf k).queue_ = [] := by rw [hself0]; rfl
  have hc0 : (s0.proc.channelOf k).consumer_ = some c := by rw [hself0]; rfl
  have hcalls0' : s0.calls = [] := by rw [hcalls0]; rfl
  simp only [neverFull, hs0, Bool.true_and] at hnf
  obtain ⟨s1, hrun, hwf1, hc1, d, hd1, hd2⟩ := Sys.run_bound_key ej k c ops hops s0 hwf hc0 hnf
  have hfull : Sys.run ej (Sys.init cap) (Op.Subscribe k (some c) :: ops) = some s1 := by
    simp [Sys.run, hs0, hrun]
  have honly := Sys.run_only_key ej k (Op.Subscribe k (some c) :: ops)
    (by
      intro o ho
      simp only [List.mem_cons] at ho
      rcases ho with ho | ho
      · exact Or.inr (Or.inr ⟨some c, ho⟩)
      · rcases hops o ho with h | h
        · exact Or.inl h
        · exact Or.inr (Or.inl h))
    (Sys.init cap) s1 (by simp [Sys.init, MQProcessor.new]) (by simp [Sys.init]) hfull
  have hcalls1 : s1.calls = d.map (fun v => Call.mk c k v) := by
    rw [← callsOf_eq_self k s1.calls honly.2, hd1, hcalls0']
    simp [callsOf]
  have hpend : d ++ s1.proc.pending k = enqueued k ops := by
    rw [MQProcessor.pending_eq, hd2, hq0]
    rfl
  refine ⟨s1, hfull, ⟨d, hcalls1, hpend⟩, ?_⟩
  intro m hm
  obtain ⟨s2, hrun2, _, _, hd3, hd4⟩ := Sys.run_drain ej k c m s1 hwf1 hc1
  have honly2 := Sys.run_only_key ej k (List.replicate m (Op.Pass : Op K V C))
    (by
      intro o ho
      exact Or.inl (List.eq_of_mem_replicate ho))
    s1 s2 honly.1 honly.2 hrun2
  rw [MQProcessor.pending_eq] at hm hpend
  refine ⟨s2, hrun2, ?_, ?_⟩
  · rw [← callsOf_eq_self k s2.calls honly2.2, hd3, callsOf_eq_self k s1.calls honly.2, hcalls1,
      List.take_of_length_le hm, ← List.map_append, hpend]
  · rw [MQProcessor.pending_eq, hd4, List.drop_of_length_le hm]

/-- Claim C5 (FIFO delivery without overflow).  On a fresh processor, `Subscribe(k, c)`
followed by any schedule of `Enqueue(k, v)` calls and dispatch passes in which no
`Enqueue` finds the channel full is defined; at every point of the schedule the values
delivered so far (all to `c`, with key `k`) followed by the pending values are exactly the
values enqueued so far; and any number of further passes that is at least the number of
pending values makes the trace exactly `Consume(k, v1), ..., Consume(k, vn)` on `c`,
with an empty queue. -/
theorem C5_fifo_without_overflow (EjectingStrategy : Bool) (cap : Nat) (k : K) (c : C)
    (ops : List (Op K V C)) (hops : ∀ op ∈ ops, op = Op.Pass ∨ ∃ v, op = Op.Enqueue k v)
    (hnf : neverFull EjectingStrategy (Sys.init cap) (Op.Subscribe k (some c) :: ops) = true) :
    (∀ n, ∃ sn, Sys.run EjectingStrategy (Sys.init cap)
          (Op.Subscribe k (some c) :: ops.take n) = some sn ∧
        ∃ d, sn.calls = d.map (fun v => Call.mk c k v) ∧
          d ++ sn.proc.pending k = enqueued k (ops.take n)) ∧
      ∃ s1, Sys.run EjectingStrategy (Sys.init cap) (Op.Subscribe k (some c) :: ops) = some s1 ∧
        ∀ m, (s1.proc.pending k).length ≤ m →
          ∃ s2, Sys.run EjectingStrategy s1 (List.replicate m Op.Pass) = some s2 ∧
            s2.calls = (enqueued k ops).map (fun v => Call.mk c k v) ∧
            s2.proc.pending k = [] := by
  constructor
  · intro n
    have hnf' : neverFull EjectingStrategy (Sys.init cap)
        (Op.Subscribe k (some c) :: ops.take n) = true := by
      apply neverFull_prefix EjectingStrategy _ (ops.drop n)
      rw [List.cons_append, List.take_append_drop]
      exact hnf
    obtain ⟨sn, hrun, hd, _⟩ := Sys.run_subscribed_fresh EjectingStrategy cap k c (ops.take n)
      (fun o ho => hops o (List.mem_of_mem_take ho)) hnf'
    exact ⟨sn, hrun, hd⟩
  · obtain ⟨s1, hrun, _, hdrain⟩ :=
      Sys.run_subscribed_fresh EjectingStrategy cap k c ops hops hnf
    exact ⟨s1, hrun, hdrain⟩

end OnlyKey


section Unbound

variable {K V C : Type} [DecidableEq K]

/-- `Enqueue`s on one key while there is room: all defined, the values are appended, no
consumer is invoked. -/
theorem Sys.run_enqueue_room (ej : Bool) (k : K) (vs : List V) :
    ∀ s : Sys K V C, s.proc.WF →
      (s.proc.channelOf k).queue_.length + vs.length ≤ (s.proc.channelOf k).maxChannelSize_ →
      ∃ s', Sys.run ej s (vs.map (Op.Enqueue k)) = some s' ∧ s'.proc.WF ∧
        s'.calls = s.calls ∧
        s'.proc.channelOf k =
          { s.proc.channelOf k with queue_ := (s.proc.channelOf k).queue_ ++ vs } := by
  induction vs with
  | nil =>
    intro s hwf _
    exact ⟨s, rfl, hwf, rfl, by simp⟩
  | cons v vs ih =>
    intro s hwf hlen
    simp only [List.length_cons] at hlen
    have hp := Channel.push_not_full ej (s.proc.channelOf k) v (by omega)
    have hE := MQProcessor.Enqueue_eq ej s.proc k v
    simp only [hp] at hE
    have hstep : ∃ s1, s.step ej (Op.Enqueue k v) = some s1 := by
      simp [Sys.step, hE]
    obtain ⟨s1, hs⟩ := hstep
    obtain ⟨hcalls, _, ⟨r, hp'⟩, _, hwf'⟩ := Sys.step_Enqueue ej s s1 k v hs
    rw [hp] at hp'
    simp only [Option.some.injEq, Prod.mk.injEq] at hp'
    have hch : s1.proc.channelOf k =
        { s.proc.channelOf k with queue_ := (s.proc.channelOf k).queue_ ++ [v] } := hp'.2.symm
    obtain ⟨s', hrun, hwf2, hcalls2, hch2⟩ := ih s1 (hwf' hwf) (by
      rw [hch]
      simp only [List.length_append, List.length_cons, List.length_nil]
      omega)
    refine ⟨s', by simp [Sys.run, hs, hrun], hwf2, by rw [hcalls2, hcalls], ?_⟩
    rw [hch2, hch]
    simp

/-- Passes on a key without bound consumer: nothing is invoked with the key and its
channel is unchanged. -/
theorem Sys.run_pass_unbound (ej : Bool) (k : K) (m : Nat) :
    ∀ s : Sys K V C, s.proc.WF → (s.proc.channelOf k).consumer_ = none →
      ∃ s', Sys.run ej s (List.replicate m Op.Pass) = some s' ∧ s'.proc.WF ∧
        callsOf k s'.calls = callsOf k s.calls ∧
        s'.proc.channelOf k = s.proc.channelOf k := by
  induction m with
  | zero =>
    intro s hwf _
    exact ⟨s, rfl, hwf, rfl, rfl⟩
  | succ m ih =>
    intro s hwf hc
    have hs : s.step ej (Op.Pass : Op K V C) = some
        (Sys.mk s.proc.dispatch_pass.1 (s.calls ++ s.proc.dispatch_pass.2)) := rfl
    obtain ⟨_, hch, hcalls, hwf'⟩ := Sys.step_Pass ej s _ hs
    have hcons : (s.proc.channelOf k).consume k = (s.proc.channelOf k, []) := by
      unfold Channel.consume
      split
      · next v rest c' hq' hc' => rw [hc] at hc'; simp at hc'
      · rfl
    obtain ⟨s', hrun, hwf2, hcalls2, hch2⟩ := ih _ (hwf' hwf) (by rw [hch k, hcons]; exact hc)
    refine ⟨s', by simp [List.replicate_succ, Sys.run, hs, hrun], hwf2, ?_, ?_⟩
    · rw [hcalls2, hcalls hwf k, hcons]
      simp
    · rw [hch2, hch k, hcons]

/-- Claim C7 (no delivery without consumer).  In any state with one channel per key, for a
key `k` with no bound consumer and nothing pending and values `v1..vn` with
`n ≤ capacity`: `Enqueue(k, v1..vn)` followed by any number of dispatch passes is defined,
invokes no consumer with key `k` and leaves the pending queue of `k` equal to
`[v1, ..., vn]`; after `Subscribe(k, c)` the first `j` further passes deliver exactly
`v1, ..., vj` to `c` with key `k`, in that order, and leave the other values pending
(so the next `n` passes deliver `v1, ..., vn`). -/
theorem C7_no_delivery_without_consumer (EjectingStrategy : Bool) (p : MQProcessor K V C)
    (k : K) (c : C) (vs : List V) (m : Nat) (hwf : p.WF) (hcons : p.consumer k = none)
    (hempty : p.pending k = []) (hn : vs.length ≤ (p.channelOf k).maxChannelSize_) :
    ∃ s1, Sys.run EjectingStrategy (Sys.mk p [])
        (vs.map (Op.Enqueue k) ++ List.replicate m Op.Pass) = some s1 ∧
      callsOf k s1.calls = [] ∧ s1.proc.pending k = vs ∧ s1.proc.consumer k = none ∧
      ∃ s2, s1.step EjectingStrategy (Op.Subscribe k (some c)) = some s2 ∧
        ∀ j, ∃ s3, Sys.run EjectingStrategy s2 (List.replicate j Op.Pass) = some s3 ∧
          callsOf k s3.calls = (vs.take j).map (fun v => Call.mk c k v) ∧
          s3.proc.pending k = vs.drop j := by
  rw [MQProcessor.consumer_eq] at hcons
  rw [MQProcessor.pending_eq] at hempty
  obtain ⟨sa, hra, hwfa, hca, hcha⟩ :=
    Sys.run_enqueue_room EjectingStrategy k vs (Sys.mk p []) hwf (by
      simp only [hempty, List.length_nil, Nat.zero_add]
      exact hn)
  have hconsa : (sa.proc.channelOf k).consumer_ = none := by rw [hcha]; exact hcons
  have hqa : (sa.proc.channelOf k).queue_ = vs := by rw [hcha]; simp [hempty]
  obtain ⟨s1, hr1, hwf1, hc1, hch1⟩ := Sys.run_pass_unbound EjectingStrategy k m sa hwfa hconsa
  have hcalls1 : callsOf k s1.calls = [] := by rw [hc1, hca]; rfl
  have hsub : ∃ s2, s1.step EjectingStrategy (Op.Subscribe k (some c)) = some s2 := by
    simp [Sys.step, MQProcessor.Subscribe_eq]
  obtain ⟨s2, hs2⟩ := hsub
  obtain ⟨hcalls2, _, hself2, _, hwf2⟩ := Sys.step_Subscribe EjectingStrategy s1 s2 k (some c) hs2
  have hq2 : (s2.proc.channelOf k).queue_ = vs := by
    rw [hself2, ← hqa, ← hch1]; rfl
  refine ⟨s1, ?_, hcalls1, ?_, ?_, s2, hs2, ?_⟩
  · rw [Sys.run_append, hra]
    exact hr1
  · rw [MQProcessor.pending_eq, hch1, hqa]
  · rw [MQProcessor.consumer_eq, hch1, hconsa]
  · intro j
    obtain ⟨s3, hr3, _, _, hd1, hd2⟩ :=
      Sys.run_drain EjectingStrategy k c j s2 (hwf2 hwf1) (by rw [hself2]; rfl)
    refine ⟨s3, hr3, ?_, ?_⟩
    · rw [hd1, hcalls2, hcalls1, hq2]
      rfl
    · rw [MQProcessor.pending_eq, hd2, hq2]

end Unbound

section Witnesses

/-- Claim C5 on the scenario of the test `one_consumer`: key 1, values 1,2,3,5,4,8. -/
theorem C5_fifo_without_overflow_witness :
    ∃ s1, Sys.run true (Sys.init 1000) (Op.Subscribe 1 (some 0) :: oneConsumerOps) = some s1 ∧
      ∀ m, (s1.proc.pending 1).length ≤ m →
        ∃ s2, Sys.run true s1 (List.replicate m Op.Pass) = some s2 ∧
          s2.calls = [Call.mk 0 1 1, Call.mk 0 1 2, Call.mk 0 1 3, Call.mk 0 1 5, Call.mk 0 1 4,
            Call.mk 0 1 8] ∧
          s2.proc.pending 1 = [] :=
  (C5_fifo_without_overflow true 1000 1 0 oneConsumerOps
    (by
      intro op hop
      simp only [oneConsumerOps, List.mem_cons, List.mem_singleton, List.not_mem_nil,
        or_false] at hop
      rcases hop with h | h | h | h | h | h | h | h | h | h | h <;> simp [h])
    (by decide)).2

/-- Claim C6 on `mixedOps` with the ejecting policy and capacity 2. -/
theorem C6_per_key_fifo_witness :
    ∃ s', Sys.run true (Sys.init 2) mixedOps = some s' ∧
      ∀ k, (delivered k s'.calls).Sublist (enqueued k mixedOps) ∧
        (delivered k s'.calls ++ s'.proc.pending k).Sublist (enqueued k mixedOps) :=
  C6_per_key_fifo true 2 (Or.inr (by decide)) mixedOps

/-- Claim C7 on `twoChannels`: key 3 has no channel; two values are enqueued, four passes
run, then consumer 6 subscribes. -/
theorem C7_no_delivery_without_consumer_witness :
    ∃ s1, Sys.run true (Sys.mk twoChannels [])
        ([(21 : Nat), 22].map (Op.Enqueue 3) ++ List.replicate 4 Op.Pass) = some s1 ∧
      callsOf 3 s1.calls = [] ∧ s1.proc.pending 3 = [21, 22] ∧ s1.proc.consumer 3 = none ∧
      ∃ s2, s1.step true (Op.Subscribe 3 (some 6)) = some s2 ∧
        ∀ j, ∃ s3, Sys.run true s2 (List.replicate j Op.Pass) = some s3 ∧
          callsOf 3 s3.calls = ([(21 : Nat), 22].take j).map (fun v => Call.mk 6 3 v) ∧
          s3.proc.pending 3 = [(21 : Nat), 22].drop j :=
  C7_no_delivery_without_consumer true twoChannels 3 6 [21, 22] 4
    (by simp [MQProcessor.WF, twoChannels]) rfl rfl (by decide)

/-- Claim C3 on the scenario of the test `non_ejecting_strategy`: capacity 5, values 0..9. -/
theorem C3_rejecting_keeps_first_witness :
    Channel.pushAll false (Channel.new 5 : Channel Int Nat) [0, 1, 2, 3, 4, 5, 6, 7, 8, 9] =
        some ([true, true, true, true, true, false, false, false, false, false],
          { queue_ := [0, 1, 2, 3, 4], consumer_ := none, maxChannelSize_ := 5 }) ∧
      ∃ p', (MQProcessor.new 5 : MQProcessor Int Int Nat).enqueueAll false 0
          [0, 1, 2, 3, 4, 5, 6, 7, 8, 9] =
            some ([true, true, true, true, true, false, false, false, false, false], p') ∧
        p'.pending 0 = [0, 1, 2, 3, 4] :=
  C3_rejecting_keeps_first (0 : Int) 5 [0, 1, 2, 3, 4, 5, 6, 7, 8, 9]

end Witnesses


/-! ## One `consume`, one dispatch pass (claims C14 and C15) -/

theorem Channel.consume_deliver {K V C : Type} (ch : Channel V C) (k : K) (v : V)
    (rest : List V) (c : C) (hq : ch.queue_ = v :: rest) (hc : ch.consumer_ = some c) :
    ch.consume k = ({ ch with queue_ := rest }, [Call.mk c k v]) := by
  unfold Channel.consume
  rw [hq, hc]

theorem Channel.consume_idle {K V C : Type} (ch : Channel V C) (k : K)
    (h : ch.queue_ = [] ∨ ch.consumer_ = none) : ch.consume k = (ch, []) := by
  unfold Channel.consume
  split
  · next v rest c hq hc =>
    rcases h with h | h
    · rw [h] at hq; cases hq
    · rw [h] at hc; cases hc
  · rfl

theorem Channel.consume_length {K V C : Type} (ch : Channel V C) (k : K) :
    (ch.consume k).2.length =
      if (!ch.queue_.isEmpty && ch.consumer_.isSome) = true then 1 else 0 := by
  unfold Channel.consume
  split
  · next v rest c hq hc => simp [hq, hc]
  · next hne =>
    cases hq : ch.queue_ with
    | nil => simp
    | cons v rest =>
      cases hc : ch.consumer_ with
      | none => simp
      | some c => exact absurd hc (hne v rest c hq)

/-- Claim C14 (ConsumeOne single step).  If the queue is `v :: rest` and a consumer `c` is
bound, `consume(k)` invokes `c` exactly once, with `(k, v)`, and leaves the queue `rest`
with the consumer (and capacity) unchanged; if the queue is empty or no consumer is bound
it invokes nothing and leaves the channel unchanged; in all cases at most one
invocation is made. -/
theorem C14_consume_single_step {K V C : Type} (ch : Channel V C) (k : K) :
    (∀ v rest c, ch.queue_ = v :: rest → ch.consumer_ = some c →
        ch.consume k = ({ ch with queue_ := rest }, [Call.mk c k v]) ∧
        (ch.consume k).1.consumer_ = some c) ∧
      ((ch.queue_ = [] ∨ ch.consumer_ = none) → ch.consume k = (ch, [])) ∧
      (ch.consume k).2.length ≤ 1 := by
  refine ⟨fun v rest c hq hc => ?_, Channel.consume_idle ch k, ?_⟩
  · rw [Channel.consume_deliver ch k v rest c hq hc]
    exact ⟨rfl, hc⟩
  · rw [Channel.consume_length]
    split <;> omega

/-- Claim C14 on a channel holding 8, 9 with consumer 4 and on the same channel without
consumer. -/
theorem C14_consume_single_step_witness :
    (Channel.mk [(8 : Nat), 9] (some (4 : Nat)) 5).consume (2 : Nat) =
        (Channel.mk [9] (some 4) 5, [Call.mk 4 2 8]) ∧
      (Channel.mk [(8 : Nat), 9] (none : Option Nat) 5).consume (2 : Nat) =
        (Channel.mk [8, 9] none 5, []) :=
  ⟨((C14_consume_single_step (Channel.mk [(8 : Nat), 9] (some (4 : Nat)) 5) (2 : Nat)).1
      8 [9] 4 rfl rfl).1,
    (C14_consume_single_step (Channel.mk [(8 : Nat), 9] (none : Option Nat) 5) (2 : Nat)).2.1
      (Or.inr rfl)⟩

theorem consume_all_map {K V C : Type} (l : List (K × Channel V C)) :
    (consume_all l).1 = l.map (fun e => (e.1, (e.2.consume e.1).1)) ∧
      (consume_all l).2 = l.flatMap (fun e => (e.2.consume e.1).2) := by
  induction l with
  | nil => exact ⟨rfl, rfl⟩
  | cons a l ih =>
    obtain ⟨k, ch⟩ := a
    simp [consume_all, ih.1, ih.2]

theorem consume_all_length {K V C : Type} (l : List (K × Channel V C)) :
    (consume_all l).2.length = deliverable l := by
  induction l with
  | nil => rfl
  | cons a l ih =>
    obtain ⟨k, ch⟩ := a
    simp only [consume_all, List.length_append, ih, deliverable, List.countP_cons,
      Channel.consume_length]
    omega

section Pass

variable {K V C : Type} [DecidableEq K]

/-- Claim C15 (dispatch pass fairness).  One dispatch pass replaces every channel of the
table by the result of one `consume` with its own key, in place, and invokes exactly what
those `consume`s invoke: the keys are unchanged, the number of deliveries is the number of
channels that had a non-empty queue and a bound consumer (at most one per channel), a
channel with a value and a consumer loses exactly its head, delivered to its own consumer
with its own key, every other channel is unchanged, and
with one channel per key the channel of every key `k` becomes `consume(k)` of itself and
the deliveries made with key `k` are those of that one `consume`.  Capacity, wake count and
running flag are untouched. -/
theorem C15_dispatch_pass_once_per_channel (p : MQProcessor K V C) :
    p.dispatch_pass.1.channels_ = p.channels_.map (fun e => (e.1, (e.2.consume e.1).1)) ∧
      p.dispatch_pass.2 = p.channels_.flatMap (fun e => (e.2.consume e.1).2) ∧
      p.dispatch_pass.1.channels_.map Prod.fst = p.channels_.map Prod.fst ∧
      p.dispatch_pass.2.length = deliverable p.channels_ ∧
      p.dispatch_pass.2.length ≤ p.channels_.length ∧
      p.dispatch_pass.1.semaphore_ = p.semaphore_ ∧
      p.dispatch_pass.1.running_ = p.running_ ∧
      p.dispatch_pass.1.maxChannelSize_ = p.maxChannelSize_ ∧
      (∀ (i : Nat) (k : K) (ch : Channel V C), p.channels_[i]? = some (k, ch) →
        p.dispatch_pass.1.channels_[i]? = some (k, (ch.consume k).1) ∧
        (∀ v rest c, ch.queue_ = v :: rest → ch.consumer_ = some c →
          ch.consume k = ({ ch with queue_ := rest }, [Call.mk c k v])) ∧
        ((ch.queue_ = [] ∨ ch.consumer_ = none) → ch.consume k = (ch, []))) ∧
      (p.WF → ∀ k,
        find k p.dispatch_pass.1.channels_ =
            (find k p.channels_).map (fun ch => (ch.consume k).1) ∧
          callsOf k p.dispatch_pass.2 =
            match find k p.channels_ with
            | some ch => (ch.consume k).2
            | none => []) := by
  refine ⟨(consume_all_map p.channels_).1, (consume_all_map p.channels_).2,
    consume_all_keys p.channels_, consume_all_length p.channels_, ?_, rfl, rfl, rfl, ?_, ?_⟩
  · show (consume_all p.channels_).2.length ≤ p.channels_.length
    rw [consume_all_length]
    exact List.countP_le_length _
  · intro i k ch hi
    refine ⟨?_, fun v rest c hq hc => Channel.consume_deliver ch k v rest c hq hc,
      Channel.consume_idle ch k⟩
    show (consume_all p.channels_).1[i]? = some (k, (ch.consume k).1)
    rw [(consume_all_map p.channels_).1, List.getElem?_map, hi]
    rfl
  · intro hwf k
    exact ⟨consume_all_find k p.channels_, consume_all_callsOf k p.channels_ hwf⟩

end Pass


/-! ## The channel table along a run (claim C12) -/

section Lazy

variable {K V C : Type} [DecidableEq K]

theorem keys_put_eq (id : K) (ch' : Channel V C) (l : List (K × Channel V C)) :
    (put id ch' l).map Prod.fst =
      if id ∈ l.map Prod.fst then l.map Prod.fst else l.map Prod.fst ++ [id] := by
  unfold put
  cases hf : find id l with
  | none =>
    have hn := (find_eq_none_iff id l).1 hf
    simp [hn]
  | some ch =>
    have hn : id ∈ l.map Prod.fst := by
      by_contra h
      rw [(find_eq_none_iff id l).2 h] at hf
      cases hf
    simp only [keys_assign, if_pos hn]

theorem find_put_new (id : K) (ch' : Channel V C) (l : List (K × Channel V C)) :
    find id (put id ch' l) = some ch' := find_put_self id ch' l

/-- The keys of the table after one step: unchanged, or extended at the end by the key of
the `Enqueue` or `Subscribe` just made when that key had no channel. -/
theorem Sys.step_keys (ej : Bool) (s s1 : Sys K V C) (op : Op K V C)
    (h : s.step ej op = some s1) :
    s1.proc.maxChannelSize_ = s.proc.maxChannelSize_ ∧
      s1.proc.channels_.map Prod.fst = keysAfter (s.proc.channels_.map Prod.fst) op := by
  cases op with
  | Enqueue id v =>
    simp only [Sys.step, MQProcessor.Enqueue_eq] at h
    cases hp : (s.proc.channelOf id).push ej v with
    | none => simp [hp] at h
    | some r =>
      simp only [hp, Option.map_some', Option.some.injEq] at h
      subst h
      exact ⟨rfl, keys_put_eq id r.2 s.proc.channels_⟩
  | Subscribe id c =>
    simp only [Sys.step, MQProcessor.Subscribe_eq, Option.map_some', Option.some.injEq] at h
    subst h
    exact ⟨rfl, keys_put_eq id _ s.proc.channels_⟩
  | Unsubscribe id =>
    simp only [Sys.step, MQProcessor.Unsubscribe_eq, Option.map_some', Option.some.injEq] at h
    cases hf : find id s.proc.channels_ with
    | none =>
      simp only [hf] at h
      subst h
      exact ⟨rfl, rfl⟩
    | some ch =>
      simp only [hf] at h
      subst h
      exact ⟨rfl, keys_assign id _ s.proc.channels_⟩
  | Pass =>
    simp only [Sys.step, Option.some.injEq] at h
    subst h
    exact ⟨rfl, consume_all_keys s.proc.channels_⟩

theorem Sys.step_WF (ej : Bool) (s s1 : Sys K V C) (op : Op K V C)
    (h : s.step ej op = some s1) (hwf : s.proc.WF) : s1.proc.WF := by
  cases op with
  | Enqueue id v => exact (Sys.step_Enqueue ej s s1 id v h).2.2.2.2 hwf
  | Subscribe id c => exact (Sys.step_Subscribe ej s s1 id c h).2.2.2.2 hwf
  | Unsubscribe id => exact (Sys.step_Unsubscribe ej s s1 id h).2.2.2.2 hwf
  | Pass => exact (Sys.step_Pass ej s s1 h).2.2.2 hwf

/-- Every channel has the capacity of the table, and this is kept by every step. -/
theorem Sys.step_capacity (ej : Bool) (s s1 : Sys K V C) (op : Op K V C)
    (h : s.step ej op = some s1)
    (hcap : ∀ k, (s.proc.channelOf k).maxChannelSize_ = s.proc.maxChannelSize_) :
    ∀ k, (s1.proc.channelOf k).maxChannelSize_ = s1.proc.maxChannelSize_ := by
  intro k
  cases op with
  | Enqueue id v =>
    obtain ⟨_, hm, ⟨r, hp⟩, hother, _⟩ := Sys.step_Enqueue ej s s1 id v h
    rw [hm]
    by_cases hk : k = id
    · subst hk
      rw [(Channel.push_sublist ej _ _ v r hp).2]
      exact hcap k
    · rw [hother k hk]; exact hcap k
  | Subscribe id c =>
    obtain ⟨_, hm, hself, hother, _⟩ := Sys.step_Subscribe ej s s1 id c h
    rw [hm]
    by_cases hk : k = id
    · subst hk
      rw [hself]
      exact hcap k
    · rw [hother k hk]; exact hcap k
  | Unsubscribe id =>
    obtain ⟨_, hm, hself, hother, _⟩ := Sys.step_Unsubscribe ej s s1 id h
    rw [hm]
    by_cases hk : k = id
    · subst hk
      rw [hself]
      exact hcap k
    · rw [hother k hk]; exact hcap k
  | Pass =>
    obtain ⟨hm, hch, _, _⟩ := Sys.step_Pass ej s s1 h
    rw [hm, hch k, (Channel.consume_queue (s.proc.channelOf k) k).2.1]
    exact hcap k

theorem Sys.run_table (ej : Bool) (ops : List (Op K V C)) :
    ∀ s s' : Sys K V C, Sys.run ej s ops = some s' →
      (∀ k, k ∈ s.proc.channels_.map Prod.fst → k ∈ s'.proc.channels_.map Prod.fst) ∧
        (s.proc.WF → s'.proc.WF) ∧
        s'.proc.maxChannelSize_ = s.proc.maxChannelSize_ ∧
        ((∀ k, (s.proc.channelOf k).maxChannelSize_ = s.proc.maxChannelSize_) →
          ∀ k, (s'.proc.channelOf k).maxChannelSize_ = s'.proc.maxChannelSize_) := by
  induction ops with
  | nil =>
    intro s s' h
    simp only [Sys.run, Option.some.injEq] at h
    subst h
    exact ⟨fun _ hk => hk, fun h => h, rfl, fun h => h⟩
  | cons op ops ih =>
    intro s s' h
    rw [Sys.run] at h
    cases hs : s.step ej op with
    | none => simp [hs] at h
    | some s1 =>
      simp only [hs] at h
      obtain ⟨h1, h2, h3, h4⟩ := ih s1 s' h
      obtain ⟨hm, hk⟩ := Sys.step_keys ej s s1 op hs
      refine ⟨fun k hkin => h1 k ?_, fun hwf => h2 (Sys.step_WF ej s s1 op hs hwf), by rw [h3, hm],
        fun hcap => h4 (Sys.step_capacity ej s s1 op hs hcap)⟩
      rw [hk]
      cases op with
      | Enqueue id v => simp only [keysAfter]; split <;> simp [hkin]
      | Subscribe id c => simp only [keysAfter]; split <;> simp [hkin]
      | Unsubscribe id => exact hkin
      | Pass => exact hkin

/-- Claim C12 (channel table: one channel per key, created lazily, never removed).
Along every run of `Subscribe`, `Unsubscribe`, `Enqueue` and dispatch-pass steps the keys
that have a channel never shrink, the table keeps one channel per key, and from a fresh
processor every channel has the table's capacity.  In one step, a key without channel
has one afterwards exactly when the step is an `Enqueue` or a `Subscribe` on that key
(never through `Unsubscribe` or a pass), and that step works on a fresh channel with the
table's capacity, empty queue and no consumer; a step on a key that has a channel works on
that channel, with its queue and consumer, and adds no key. -/
theorem C12_channels_lazy_never_removed (EjectingStrategy : Bool) :
    (∀ (s s' : Sys K V C) (ops : List (Op K V C)), Sys.run EjectingStrategy s ops = some s' →
        (∀ k, k ∈ s.proc.channels_.map Prod.fst → k ∈ s'.proc.channels_.map Prod.fst) ∧
        (s.proc.WF → s'.proc.WF)) ∧
      (∀ (cap : Nat) (s' : Sys K V C) (ops : List (Op K V C)),
        Sys.run EjectingStrategy (Sys.init cap) ops = some s' →
        s'.proc.WF ∧ s'.proc.maxChannelSize_ = cap ∧
          ∀ k ch, find k s'.proc.channels_ = some ch → ch.maxChannelSize_ = cap) ∧
      (∀ (s s1 : Sys K V C) (op : Op K V C) (k : K), s.step EjectingStrategy op = some s1 →
        k ∉ s.proc.channels_.map Prod.fst →
        (k ∈ s1.proc.channels_.map Prod.fst ↔
          (∃ v, op = Op.Enqueue k v) ∨ ∃ c, op = Op.Subscribe k c)) ∧
      (∀ (s s1 : Sys K V C) (k : K), find k s.proc.channels_ = none →
        (∀ c, s.step EjectingStrategy (Op.Subscribe k c) = some s1 →
          find k s1.proc.channels_ =
            some ((Channel.new s.proc.maxChannelSize_).reset_consumer c)) ∧
        (∀ v, s.step EjectingStrategy (Op.Enqueue k v) = some s1 →
          ∃ r ch1, (Channel.new s.proc.maxChannelSize_ : Channel V C).push EjectingStrategy v =
              some (r, ch1) ∧ find k s1.proc.channels_ = some ch1)) ∧
      (∀ (s s1 : Sys K V C) (k : K) (ch : Channel V C), find k s.proc.channels_ = some ch →
        (∀ c, s.step EjectingStrategy (Op.Subscribe k c) = some s1 →
          find k s1.proc.channels_ = some (ch.reset_consumer c) ∧
            s1.proc.channels_.map Prod.fst = s.proc.channels_.map Prod.fst) ∧
        (∀ v, s.step EjectingStrategy (Op.Enqueue k v) = some s1 →
          ∃ r ch1, ch.push EjectingStrategy v = some (r, ch1) ∧
            find k s1.proc.channels_ = some ch1 ∧
            s1.proc.channels_.map Prod.fst = s.proc.channels_.map Prod.fst)) := by
  refine ⟨?_, ?_, ?_, ?_, ?_⟩
  · intro s s' ops h
    obtain ⟨h1, h2, _, _⟩ := Sys.run_table EjectingStrategy ops s s' h
    exact ⟨h1, h2⟩
  · intro cap s' ops h
    obtain ⟨_, h2, h3, h4⟩ := Sys.run_table EjectingStrategy ops (Sys.init cap) s' h
    have hcap := h4 (fun k => rfl)
    refine ⟨h2 (by simp [MQProcessor.WF, Sys.init, MQProcessor.new]), h3, ?_⟩
    intro k ch hf
    have := hcap k
    simp only [MQProcessor.channelOf, hf] at this
    rw [this, h3]
    rfl
  · intro s s1 op k h hk
    obtain ⟨_, hkeys⟩ := Sys.step_keys EjectingStrategy s s1 op h
    rw [hkeys]
    cases op with
    | Enqueue id v =>
      simp only [keysAfter]
      by_cases hid : id = k
      · subst hid
        simp [hk]
      · have hid' : ¬ k = id := fun e => hid e.symm
        split <;> simp [hk, hid, hid']
    | Subscribe id c =>
      simp only [keysAfter]
      by_cases hid : id = k
      · subst hid
        simp [hk]
      · have hid' : ¬ k = id := fun e => hid e.symm
        split <;> simp [hk, hid, hid']
    | Unsubscribe id => simp [keysAfter, hk]
    | Pass => simp [keysAfter, hk]
  · intro s s1 k hf
    have hco : s.proc.channelOf k = Channel.new s.proc.maxChannelSize_ := by
      simp [MQProcessor.channelOf, hf]
    constructor
    · intro c h
      simp only [Sys.step, MQProcessor.Subscribe_eq, Option.map_some', Option.some.injEq] at h
      subst h
      rw [← hco]
      exact find_put_self k _ _
    · intro v h
      simp only [Sys.step, MQProcessor.Enqueue_eq] at h
      cases hp : (s.proc.channelOf k).push EjectingStrategy v with
      | none => simp [hp] at h
      | some r =>
        simp only [hp, Option.map_some', Option.some.injEq] at h
        subst h
        rw [hco] at hp
        exact ⟨r.1, r.2, hp, find_put_self k _ _⟩
  · intro s s1 k ch hf
    have hco : s.proc.channelOf k = ch := by
      simp [MQProcessor.channelOf, hf]
    have hin : k ∈ s.proc.channels_.map Prod.fst := by
      by_contra hn
      rw [(find_eq_none_iff k _).2 hn] at hf
      cases hf
    constructor
    · intro c h
      simp only [Sys.step, MQProcessor.Subscribe_eq, Option.map_some', Option.some.injEq] at h
      subst h
      rw [hco]
      exact ⟨find_put_self k _ _, by simp only [keys_put_eq, if_pos hin]⟩
    · intro v h
      simp only [Sys.step, MQProcessor.Enqueue_eq] at h
      cases hp : (s.proc.channelOf k).push EjectingStrategy v with
      | none => simp [hp] at h
      | some r =>
        simp only [hp, Option.map_some', Option.some.injEq] at h
        subst h
        rw [hco] at hp
        exact ⟨r.1, r.2, hp, find_put_self k _ _, by simp only [keys_put_eq, if_pos hin]⟩

end Lazy


/-! ## The worker and the destructor (claims C11, C16, C18) -/

theorem MQProcessor.Process_body_eq {K V C : Type} (p p' : MQProcessor K V C) (cs : List (Call K V C))
    (h : p.Process_body = some (p', cs)) :
    0 < p.semaphore_.count_ ∧ p'.semaphore_.count_ + 1 = p.semaphore_.count_ ∧
      p'.running_ = p.running_ ∧ p'.maxChannelSize_ = p.maxChannelSize_ ∧
      p'.channels_ = (consume_all p.channels_).1 ∧ cs = (consume_all p.channels_).2 := by
  unfold MQProcessor.Process_body Semaphore.wait at h
  by_cases hc : p.semaphore_.count_ ≠ 0
  · rw [if_pos hc] at h
    simp only [MQProcessor.dispatch_pass, Option.some.injEq, Prod.mk.injEq] at h
    obtain ⟨h1, h2⟩ := h
    subst h1 h2
    refine ⟨by omega, ?_, rfl, rfl, rfl, rfl⟩
    simp only
    omega
  · rw [if_neg hc] at h
    cases h

section Worker

variable {K V C : Type} [DecidableEq K]

/-- What one step does to the counters, the trace, the table and the running flag. -/
theorem World.step_effect (ej : Bool) (w w' : World K V C) (a : Action K V C)
    (h : w.step ej a = some w') :
    w'.passes + w'.proc.semaphore_.count_ + w.posts =
        w.passes + w.proc.semaphore_.count_ + w'.posts ∧
      w.posts ≤ w'.posts ∧ w.passes ≤ w'.passes ∧
      w'.pushes + w.posts ≤ w.pushes + w'.posts ∧ w.pushes ≤ w'.pushes ∧
      (w'.passes = w.passes → w'.calls = w.calls) ∧
      (w.proc.WF → w'.proc.WF) ∧
      (w.proc.WF → ∀ k, (callsOf k w'.calls).length + w.passes ≤
        (callsOf k w.calls).length + w'.passes) ∧
      (w.proc.running_ = false → w'.proc.running_ = false ∧
        w'.passes + w'.worker.passesLeft ≤ w.passes + w.worker.passesLeft) := by
  cases a with
  | Enqueue id v =>
    simp only [World.step, MQProcessor.Enqueue_eq] at h
    cases hp : (w.proc.channelOf id).push ej v with
    | none => simp [hp] at h
    | some r =>
      obtain ⟨res, ch'⟩ := r
      simp only [hp, Option.some.injEq] at h
      subst h
      refine ⟨by simp [Semaphore.post]; omega, by simp, by simp, ?_, ?_, fun _ => rfl,
        fun hwf => nodup_keys_put id ch' w.proc.channels_ hwf, fun _ k => by simp,
        fun hr => ⟨hr, by simp⟩⟩
      · cases res with
        | false => simp
        | true => simp only [if_true]; omega
      · cases res <;> simp
  | Subscribe id c =>
    simp only [World.step, MQProcessor.Subscribe_eq, Option.some.injEq] at h
    subst h
    exact ⟨rfl, le_refl _, le_refl _, le_refl _, le_refl _, fun _ => rfl,
      fun hwf => nodup_keys_put id _ w.proc.channels_ hwf, fun _ k => le_refl _,
      fun hr => ⟨hr, le_refl _⟩⟩
  | Unsubscribe id =>
    simp only [World.step, MQProcessor.Unsubscribe_eq, Option.some.injEq] at h
    cases hf : find id w.proc.channels_ with
    | none =>
      simp only [hf] at h
      subst h
      exact ⟨rfl, le_refl _, le_refl _, le_refl _, le_refl _, fun _ => rfl, fun hwf => hwf,
        fun _ k => le_refl _, fun hr => ⟨hr, le_refl _⟩⟩
    | some ch =>
      simp only [hf] at h
      subst h
      refine ⟨rfl, le_refl _, le_refl _, le_refl _, le_refl _, fun _ => rfl, fun hwf => ?_,
        fun _ k => le_refl _, fun hr => ⟨hr, le_refl _⟩⟩
      simp only [MQProcessor.WF, keys_assign]
      exact hwf
  | WorkerCheck =>
    simp only [World.step] at h
    cases hw : w.worker with
    | checking =>
      simp only [hw, Option.some.injEq] at h
      subst h
      refine ⟨rfl, le_refl _, le_refl _, le_refl _, le_refl _, fun _ => rfl, fun hwf => hwf,
        fun _ k => le_refl _, fun hr => ⟨hr, ?_⟩⟩
      simp [hr, WorkerPc.passesLeft]
    | waiting => simp [hw] at h
    | exited => simp [hw] at h
  | WorkerWake =>
    simp only [World.step] at h
    cases hw : w.worker with
    | checking => simp [hw] at h
    | exited => simp [hw] at h
    | waiting =>
      simp only [hw] at h
      cases hb : w.proc.Process_body with
      | none => simp [hb] at h
      | some r =>
        obtain ⟨p', cs⟩ := r
        simp only [hb, Option.some.injEq] at h
        subst h
        obtain ⟨hpos, hcnt, hrun, _, hch, hcs⟩ := MQProcessor.Process_body_eq w.proc p' cs hb
        refine ⟨by simp only; omega, le_refl _, by simp, le_refl _, le_refl _,
          fun hp => by simp at hp, fun hwf => ?_, fun hwf k => ?_, fun hr => ⟨?_, ?_⟩⟩
        · simp only [MQProcessor.WF, hch, consume_all_keys]
          exact hwf
        · simp only [callsOf_append, List.length_append, hcs,
            consume_all_callsOf k w.proc.channels_ hwf]
          cases hf : find k w.proc.channels_ with
          | none => simp
          | some ch =>
            simp only [Channel.consume_length]
            split <;> omega
        · simp only [hrun]; exact hr
        · simp [WorkerPc.passesLeft]
  | Destroy =>
    simp only [World.step] at h
    cases ht : w.teardown with
    | notStarted =>
      simp only [ht, Option.some.injEq] at h
      subst h
      exact ⟨rfl, le_refl _, le_refl _, le_refl _, le_refl _, fun _ => rfl, fun hwf => hwf,
        fun _ k => le_refl _, fun _ => ⟨rfl, le_refl _⟩⟩
    | flagSet =>
      simp only [ht, Option.some.injEq] at h
      subst h
      exact ⟨by simp [MQProcessor.post, Semaphore.post]; omega, by simp, le_refl _, by simp,
        le_refl _, fun _ => rfl, fun hwf => hwf, fun _ k => le_refl _,
        fun hr => ⟨hr, le_refl _⟩⟩
    | posted =>
      simp only [ht] at h
      cases hw : w.worker with
      | checking => simp [hw] at h
      | waiting => simp [hw] at h
      | exited =>
        simp only [hw, Option.some.injEq] at h
        subst h
        exact ⟨rfl, le_refl _, le_refl _, le_refl _, le_refl _, fun _ => rfl, fun hwf => hwf,
          fun _ k => le_refl _, fun hr => ⟨hr, by simp [hw]⟩⟩
    | joined => simp [ht] at h

/-- The effects of one step, accumulated along a run. -/
theorem World.run_effect (ej : Bool) (acts : List (Action K V C)) :
    ∀ w w' : World K V C, World.run ej w acts = some w' →
      w'.passes + w'.proc.semaphore_.count_ + w.posts =
          w.passes + w.proc.semaphore_.count_ + w'.posts ∧
        w.posts ≤ w'.posts ∧ w.passes ≤ w'.passes ∧
        w'.pushes + w.posts ≤ w.pushes + w'.posts ∧ w.pushes ≤ w'.pushes ∧
        (w'.passes = w.passes → w'.calls = w.calls) ∧
        (w.proc.WF → w'.proc.WF) ∧
        (w.proc.WF → ∀ k, (callsOf k w'.calls).length + w.passes ≤
          (callsOf k w.calls).length + w'.passes) ∧
        (w.proc.running_ = false → w'.proc.running_ = false ∧
          w'.passes + w'.worker.passesLeft ≤ w.passes + w.worker.passesLeft) := by
  induction acts with
  | nil =>
    intro w w' h
    simp only [World.run, Option.some.injEq] at h
    subst h
    exact ⟨rfl, le_refl _, le_refl _, le_refl _, le_refl _, fun _ => rfl, fun hwf => hwf,
      fun _ k => le_refl _, fun hr => ⟨hr, le_refl _⟩⟩
  | cons a acts ih =>
    intro w w' h
    rw [World.run] at h
    cases hs : w.step ej a with
    | none => simp [hs] at h
    | some w1 =>
      simp only [hs] at h
      obtain ⟨a1, a2, a3, a4, a5, a6, a7, a8, a9⟩ := World.step_effect ej w w1 a hs
      obtain ⟨b1, b2, b3, b4, b5, b6, b7, b8, b9⟩ := ih w1 w' h
      refine ⟨by omega, by omega, by omega, by omega, by omega, ?_, fun hwf => b7 (a7 hwf), ?_, ?_⟩
      · intro hp
        have h1 : w1.passes = w.passes := by omega
        have h2 : w'.passes = w1.passes := by omega
        rw [b6 h2, a6 h1]
      · intro hwf k
        have := a8 hwf k
        have := b8 (a7 hwf) k
        omega
      · intro hr
        obtain ⟨hr1, hl1⟩ := a9 hr
        obtain ⟨hr2, hl2⟩ := b9 hr1
        exact ⟨hr2, by omega⟩

/-- Before the destructor starts the flag is true, and while the flag is true the worker
has not exited. -/
theorem World.step_alive (ej : Bool) (w w' : World K V C) (a : Action K V C)
    (h : w.step ej a = some w')
    (hJ : (w.teardown = TeardownPc.notStarted → w.proc.running_ = true) ∧
      (w.proc.running_ = true → w.worker ≠ WorkerPc.exited)) :
    (w'.teardown = TeardownPc.notStarted → w'.proc.running_ = true) ∧
      (w'.proc.running_ = true → w'.worker ≠ WorkerPc.exited) := by
  obtain ⟨hJ1, hJ2⟩ := hJ
  cases a with
  | Enqueue id v =>
    simp only [World.step, MQProcessor.Enqueue_eq] at h
    cases hp : (w.proc.channelOf id).push ej v with
    | none => simp [hp] at h
    | some r =>
      simp only [hp, Option.some.injEq] at h
      subst h
      exact ⟨hJ1, hJ2⟩
  | Subscribe id c =>
    simp only [World.step, MQProcessor.Subscribe_eq, Option.some.injEq] at h
    subst h
    exact ⟨hJ1, hJ2⟩
  | Unsubscribe id =>
    simp only [World.step, MQProcessor.Unsubscribe_eq, Option.some.injEq] at h
    cases hf : find id w.proc.channels_ with
    | none =>
      simp only [hf] at h
      subst h
      exact ⟨hJ1, hJ2⟩
    | some ch =>
      simp only [hf] at h
      subst h
      exact ⟨hJ1, hJ2⟩
  | WorkerCheck =>
    simp only [World.step] at h
    cases hw : w.worker with
    | checking =>
      simp only [hw, Option.some.injEq] at h
      subst h
      refine ⟨hJ1, fun hr => ?_⟩
      simp only at hr
      simp [hr]
    | waiting => simp [hw] at h
    | exited => simp [hw] at h
  | WorkerWake =>
    simp only [World.step] at h
    cases hw : w.worker with
    | checking => simp [hw] at h
    | exited => simp [hw] at h
    | waiting =>
      simp only [hw] at h
      cases hb : w.proc.Process_body with
      | none => simp [hb] at h
      | some r =>
        simp only [hb, Option.some.injEq] at h
        subst h
        have hrun := (MQProcessor.Process_body_eq w.proc r.1 r.2 hb).2.2.1
        exact ⟨fun ht => by simp only [hrun]; exact hJ1 ht, fun _ => by simp⟩
  | Destroy =>
    simp only [World.step] at h
    cases ht : w.teardown with
    | notStarted =>
      simp only [ht, Option.some.injEq] at h
      subst h
      exact ⟨fun hh => by simp at hh, fun hh => by simp [MQProcessor.stop] at hh⟩
    | flagSet =>
      simp only [ht, Option.some.injEq] at h
      subst h
      exact ⟨fun hh => by simp at hh, hJ2⟩
    | posted =>
      simp only [ht] at h
      cases hw : w.worker with
      | checking => simp [hw] at h
      | waiting => simp [hw] at h
      | exited =>
        simp only [hw, Option.some.injEq] at h
        subst h
        exact ⟨fun hh => by simp at hh, fun hr => absurd hw (hJ2 hr)⟩
    | joined => simp [ht] at h

theorem World.run_alive (ej : Bool) (acts : List (Action K V C)) :
    ∀ w w' : World K V C, World.run ej w acts = some w' →
      ((w.teardown = TeardownPc.notStarted → w.proc.running_ = true) ∧
        (w.proc.running_ = true → w.worker ≠ WorkerPc.exited)) →
      (w'.teardown = TeardownPc.notStarted → w'.proc.running_ = true) ∧
        (w'.proc.running_ = true → w'.worker ≠ WorkerPc.exited) := by
  induction acts with
  | nil =>
    intro w w' h hJ
    simp only [World.run, Option.some.injEq] at h
    subst h
    exact hJ
  | cons a acts ih =>
    intro w w' h hJ
    rw [World.run] at h
    cases hs : w.step ej a with
    | none => simp [hs] at h
    | some w1 =>
      simp only [hs] at h
      exact ih w1 w' h (World.step_alive ej w w1 a hs hJ)

/-- While the flag is true, a worker that has not exited can take every available wake:
by steps of the worker alone it starts as many passes as the wake count. -/
theorem World.worker_can_drain (ej : Bool) (n : Nat) :
    ∀ w : World K V C, w.proc.running_ = true → w.worker ≠ WorkerPc.exited →
      w.proc.semaphore_.count_ = n →
      ∃ acts w', World.run ej w acts = some w' ∧
        (∀ a ∈ acts, a = Action.WorkerCheck ∨ a = Action.WorkerWake) ∧
        w'.passes = w.passes + n ∧ w'.proc.semaphore_.count_ = 0 ∧
        w'.posts = w.posts ∧ w'.pushes = w.pushes := by
  induction n with
  | zero =>
    intro w _ _ hc
    exact ⟨[], w, rfl, by simp, rfl, hc, rfl, rfl⟩
  | succ n ih =>
    intro w hr hw hc
    -- bring the worker into `wait`
    have hwait : ∃ pre w1, World.run ej w pre = some w1 ∧
        (∀ a ∈ pre, a = Action.WorkerCheck ∨ a = Action.WorkerWake) ∧
        w1.worker = WorkerPc.waiting ∧ w1.proc = w.proc ∧ w1.passes = w.passes ∧
        w1.posts = w.posts ∧ w1.pushes = w.pushes := by
      cases hwk : w.worker with
      | exited => exact absurd hwk hw
      | waiting => exact ⟨[], w, rfl, by simp, hwk, rfl, rfl, rfl, rfl⟩
      | checking =>
        refine ⟨[Action.WorkerCheck], { w with worker := WorkerPc.waiting }, ?_, by simp, rfl,
          rfl, rfl, rfl, rfl⟩
        simp [World.run, World.step, hwk, hr]
    obtain ⟨pre, w1, hrun1, hpre, hw1, hp1, hpa1, hpo1, hpu1⟩ := hwait
    have hbody : ∃ p' cs, w1.proc.Process_body = some (p', cs) := by
      rw [hp1]
      unfold MQProcessor.Process_body Semaphore.wait
      rw [if_pos (by omega)]
      exact ⟨_, _, rfl⟩
    obtain ⟨p', cs, hb⟩ := hbody
    obtain ⟨_, hcnt, hrun', _⟩ := MQProcessor.Process_body_eq w1.proc p' cs hb
    have hstep : w1.step ej Action.WorkerWake =
        some { w1 with proc := p', calls := w1.calls ++ cs, worker := WorkerPc.checking,
                       passes := w1.passes + 1 } := by
      simp [World.step, hw1, hb]
    obtain ⟨acts, w', hrun2, hacts, h1, h2, h3, h4⟩ :=
      ih { w1 with proc := p', calls := w1.calls ++ cs, worker := WorkerPc.checking,
                   passes := w1.passes + 1 }
        (by simp only [hrun', hp1]; exact hr) (by simp)
        (by simp only; rw [hp1] at hcnt; omega)
    refine ⟨pre ++ Action.WorkerWake :: acts, w', ?_, ?_, ?_, h2, ?_, ?_⟩
    · have happ : ∀ (l1 l2 : List (Action K V C)) (x y : World K V C),
          World.run ej x l1 = some y → World.run ej x (l1 ++ l2) = World.run ej y l2 := by
        intro l1
        induction l1 with
        | nil =>
          intro l2 x y hxy
          simp only [World.run, Option.some.injEq] at hxy
          subst hxy
          rfl
        | cons b l1 ihl =>
          intro l2 x y hxy
          simp only [List.cons_append, World.run] at hxy ⊢
          cases hsb : x.step ej b with
          | none => simp [hsb] at hxy
          | some x1 =>
            simp only [hsb] at hxy ⊢
            exact ihl l2 x1 y hxy
      rw [happ pre _ w w1 hrun1, World.run, hstep]
      exact hrun2
    · intro a ha
      simp only [List.mem_append, List.mem_cons] at ha
      rcases ha with ha | ha | ha
      · exact hpre a ha
      · exact Or.inr ha
      · exact hacts a ha
    · rw [h1]
      simp only
      omega
    · rw [h3]; exact hpo1
    · rw [h4]; exact hpu1


/-- Claim C16 (wake accounting).  `post` increments the count by exactly one; `wait` is
enabled exactly when the count is positive and then decrements it by exactly one (no
underflow); a step of the worker that completes a `wait` starts exactly one dispatch pass
and no other step starts one; hence in every state reachable from a fresh processor
(passes started) + (wake count) = (posts), and the successful pushes are at most the posts,
that is at most the passes started plus the wakes still available; and as long as the
destructor has not started, the worker can take all these wakes: by its own steps it
reaches a number of passes equal to the posts, which is at least the successful pushes. -/
theorem C16_wake_accounting (EjectingStrategy : Bool) :
    (∀ s : Semaphore, s.post.count_ = s.count_ + 1) ∧
      (∀ s : Semaphore, (s.wait = none ↔ s.count_ = 0) ∧
        ∀ s', s.wait = some s' → 0 < s.count_ ∧ s'.count_ + 1 = s.count_) ∧
      (∀ (w w' : World K V C) (a : Action K V C), w.step EjectingStrategy a = some w' →
        (a = Action.WorkerWake →
          w'.passes = w.passes + 1 ∧ w'.proc.semaphore_.count_ + 1 = w.proc.semaphore_.count_) ∧
        (a ≠ Action.WorkerWake →
          w'.passes = w.passes ∧ w.proc.semaphore_.count_ ≤ w'.proc.semaphore_.count_)) ∧
      (∀ (cap : Nat) (acts : List (Action K V C)) (w : World K V C),
        World.run EjectingStrategy (World.init cap) acts = some w →
        w.passes + w.proc.semaphore_.count_ = w.posts ∧ w.pushes ≤ w.posts ∧
          w.pushes ≤ w.passes + w.proc.semaphore_.count_) ∧
      (∀ (cap : Nat) (acts : List (Action K V C)) (w : World K V C),
        World.run EjectingStrategy (World.init cap) acts = some w →
        w.teardown = TeardownPc.notStarted →
        ∃ more w', World.run EjectingStrategy w more = some w' ∧
          (∀ a ∈ more, a = Action.WorkerCheck ∨ a = Action.WorkerWake) ∧
          w'.passes = w.posts ∧ w.pushes ≤ w'.passes) := by
  refine ⟨fun s => rfl, fun s => ⟨?_, ?_⟩, ?_, ?_, ?_⟩
  · unfold Semaphore.wait
    by_cases hc : s.count_ = 0
    · simp [hc]
    · simp [hc]
  · intro s' h
    unfold Semaphore.wait at h
    by_cases hc : s.count_ ≠ 0
    · rw [if_pos hc, Option.some.injEq] at h
      subst h
      exact ⟨by omega, by simp only; omega⟩
    · rw [if_neg hc] at h
      cases h
  · intro w w' a h
    obtain ⟨h1, h2, h3, _⟩ := World.step_effect EjectingStrategy w w' a h
    constructor
    · intro ha
      subst ha
      simp only [World.step] at h
      cases hw : w.worker with
      | checking => simp [hw] at h
      | exited => simp [hw] at h
      | waiting =>
        simp only [hw] at h
        cases hb : w.proc.Process_body with
        | none => simp [hb] at h
        | some r =>
          simp only [hb, Option.some.injEq] at h
          subst h
          exact ⟨rfl, (MQProcessor.Process_body_eq w.proc r.1 r.2 hb).2.1⟩
    · intro ha
      have hp : w'.passes = w.passes := by
        cases a with
        | WorkerWake => exact absurd rfl ha
        | Enqueue id v =>
          simp only [World.step] at h
          cases he : w.proc.Enqueue EjectingStrategy id v with
          | none => simp [he] at h
          | some r =>
            simp only [he, Option.some.injEq] at h
            subst h
            rfl
        | Subscribe id c =>
          simp only [World.step, MQProcessor.Subscribe_eq, Option.some.injEq] at h
          subst h
          rfl
        | Unsubscribe id =>
          simp only [World.step, MQProcessor.Unsubscribe_eq, Option.some.injEq] at h
          subst h
          rfl
        | WorkerCheck =>
          simp only [World.step] at h
          cases hw : w.worker with
          | checking =>
            simp only [hw, Option.some.injEq] at h
            subst h
            rfl
          | waiting => simp [hw] at h
          | exited => simp [hw] at h
        | Destroy =>
          simp only [World.step] at h
          cases ht : w.teardown with
          | notStarted => simp only [ht, Option.some.injEq] at h; subst h; rfl
          | flagSet => simp only [ht, Option.some.injEq] at h; subst h; rfl
          | posted =>
            simp only [ht] at h
            cases hw : w.worker with
            | checking => simp [hw] at h
            | waiting => simp [hw] at h
            | exited => simp only [hw, Option.some.injEq] at h; subst h; rfl
          | joined => simp [ht] at h
      exact ⟨hp, by omega⟩
  · intro cap acts w h
    obtain ⟨h1, _, _, h4, _⟩ := World.run_effect EjectingStrategy acts (World.init cap) w h
    simp only [World.init, MQProcessor.new] at h1 h4
    refine ⟨by omega, by omega, by omega⟩
  · intro cap acts w h ht
    obtain ⟨h1, _, _, h4, _⟩ := World.run_effect EjectingStrategy acts (World.init cap) w h
    simp only [World.init, MQProcessor.new] at h1 h4
    obtain ⟨hJ1, hJ2⟩ := World.run_alive EjectingStrategy acts (World.init cap) w h
      ⟨fun _ => rfl, fun _ => by simp [World.init]⟩
    obtain ⟨more, w', hrun, hmore, hp, _, _, _⟩ :=
      World.worker_can_drain EjectingStrategy w.proc.semaphore_.count_ w (hJ1 ht)
        (hJ2 (hJ1 ht)) rfl
    exact ⟨more, w', hrun, hmore, by omega, by omega⟩

/-- Claim C11 fails as stated: after `strandingRun` and the two statements `running_ = false`
and `semaphore_.post()` of the destructor, the flag is false, the wake is posted, no
consumer has been invoked yet and the worker is inside `wait`; its next step is a dispatch
pass that invokes consumer 3 with `(0, 7)`. -/
theorem C11_pass_after_shutdown_flag :
    (World.run true (World.init 5) (strandingRun ++ [Action.Destroy, Action.Destroy])).map
        (fun w => (w.proc.running_, w.teardown, w.worker, w.calls)) =
        some (false, TeardownPc.posted, WorkerPc.waiting, []) ∧
      (World.run true (World.init 5)
          (strandingRun ++ [Action.Destroy, Action.Destroy, Action.WorkerWake])).map
        (fun w => (w.proc.running_, w.worker, w.calls)) =
        some (false, WorkerPc.checking, [Call.mk 3 0 7]) := by
  constructor <;> decide

/-- Claim C11 as amended.  Once `running_` is false it stays false, and along every run
from such a state the worker starts at most one more dispatch pass, and none at all unless
it was inside `wait` when the flag was set; as long as no pass starts no consumer is
invoked; after that one pass the worker is not inside `wait` again, and when it next tests
`running_` it exits. -/
theorem C11_at_most_one_pass_after_flag (EjectingStrategy : Bool) (w w' : World K V C)
    (acts : List (Action K V C)) (hflag : w.proc.running_ = false)
    (hrun : World.run EjectingStrategy w acts = some w') :
    w'.proc.running_ = false ∧
      w'.passes ≤ w.passes + w.worker.passesLeft ∧
      (w.worker ≠ WorkerPc.waiting → w'.passes = w.passes ∧ w'.calls = w.calls) ∧
      (w'.passes = w.passes → w'.calls = w.calls) ∧
      (w'.passes = w.passes + 1 → w'.worker ≠ WorkerPc.waiting) ∧
      (∀ w'', w'.step EjectingStrategy Action.WorkerCheck = some w'' →
        w''.worker = WorkerPc.exited) := by
  obtain ⟨_, _, h3, _, _, h6, _, _, h9⟩ := World.run_effect EjectingStrategy acts w w' hrun
  obtain ⟨hr, hl⟩ := h9 hflag
  refine ⟨hr, by omega, ?_, h6, ?_, ?_⟩
  · intro hw
    have hz : w.worker.passesLeft = 0 := by
      cases hw' : w.worker with
      | waiting => exact absurd hw' hw
      | checking => rfl
      | exited => rfl
    have hp : w'.passes = w.passes := by omega
    exact ⟨hp, h6 hp⟩
  · intro hp hw
    have h1 : w.worker.passesLeft ≤ 1 := by
      cases w.worker <;> simp [WorkerPc.passesLeft]
    have h2 : WorkerPc.passesLeft WorkerPc.waiting = 1 := rfl
    rw [hw, h2] at hl
    omega
  · intro w'' hs
    simp only [World.step] at hs
    cases hw : w'.worker with
    | checking =>
      simp only [hw, hr, Option.some.injEq] at hs
      subst hs
      rfl
    | waiting => simp [hw] at hs
    | exited => simp [hw] at hs

/-- Claim C11 as amended, on `flagSetWorld` (the state reached by `strandingRun` and the
first statement of the destructor), followed by the post of the destructor and the pass
it releases. -/
theorem C11_at_most_one_pass_after_flag_witness :
    World.run true (World.init 5) (strandingRun ++ [Action.Destroy]) = some flagSetWorld ∧
      World.run true flagSetWorld [Action.Destroy, Action.WorkerWake] = some drainedWorld ∧
      drainedWorld.proc.running_ = false ∧
      drainedWorld.passes ≤ flagSetWorld.passes + flagSetWorld.worker.passesLeft ∧
      (drainedWorld.passes = flagSetWorld.passes + 1 →
        drainedWorld.worker ≠ WorkerPc.waiting) :=
  ⟨by decide, by decide,
    (C11_at_most_one_pass_after_flag true flagSetWorld drainedWorld
      [Action.Destroy, Action.WorkerWake] rfl (by decide)).1,
    (C11_at_most_one_pass_after_flag true flagSetWorld drainedWorld
      [Action.Destroy, Action.WorkerWake] rfl (by decide)).2.1,
    (C11_at_most_one_pass_after_flag true flagSetWorld drainedWorld
      [Action.Destroy, Action.WorkerWake] rfl (by decide)).2.2.2.2.1⟩

/-- Claim C18 (Subscribe never posts, so a backlog can be stranded).  The state
`strandedWorld` is reached from a fresh processor by `strandingRun` under either policy:
key 0 has a bound consumer and a pending value, the wake count is 0 and the worker is
inside `wait`, where it cannot proceed.  `Subscribe` changes neither the wake count nor the
number of posts.  From
every state with wake count 0, as long as no post is made (no `Enqueue`, no post of the
destructor) no dispatch pass starts and no consumer is invoked; and with one channel per
key the number of values delivered with a key since that state is at most the number of
posts made since. -/
theorem C18_backlog_stranded (EjectingStrategy : Bool) :
    (World.run EjectingStrategy (World.init 5) strandingRun = some strandedWorld ∧
        strandedWorld.proc.consumer 0 = some 3 ∧ strandedWorld.proc.pending 0 = [7] ∧
        strandedWorld.proc.semaphore_.count_ = 0 ∧ strandedWorld.worker = WorkerPc.waiting ∧
        strandedWorld.step EjectingStrategy Action.WorkerWake = none ∧
        strandedWorld.proc.WF) ∧
      (∀ (w w' : World K V C) (k : K) (c : Option C),
        w.step EjectingStrategy (Action.Subscribe k c) = some w' →
        w'.proc.semaphore_ = w.proc.semaphore_ ∧ w'.posts = w.posts ∧ w'.calls = w.calls) ∧
      (∀ (w w' : World K V C) (acts : List (Action K V C)), w.proc.semaphore_.count_ = 0 →
        World.run EjectingStrategy w acts = some w' → w'.posts = w.posts →
        w'.calls = w.calls ∧ w'.passes = w.passes) ∧
      (∀ (w w' : World K V C) (acts : List (Action K V C)) (k : K), w.proc.WF →
        w.proc.semaphore_.count_ = 0 → World.run EjectingStrategy w acts = some w' →
        (callsOf k w'.calls).length ≤ (callsOf k w.calls).length + (w'.posts - w.posts)) := by
  refine ⟨⟨?_, rfl, rfl, rfl, rfl, rfl, by simp [MQProcessor.WF, strandedWorld]⟩, ?_, ?_, ?_⟩
  · cases EjectingStrategy <;> decide
  · intro w w' k c h
    simp only [World.step, MQProcessor.Subscribe_eq, Option.some.injEq] at h
    subst h
    exact ⟨rfl, rfl, rfl⟩
  · intro w w' acts hz h hposts
    obtain ⟨h1, _, h3, _, _, h6, _⟩ := World.run_effect EjectingStrategy acts w w' h
    have hp : w'.passes = w.passes := by omega
    exact ⟨h6 hp, hp⟩
  · intro w w' acts k hwf hz h
    obtain ⟨h1, h2, _, _, _, _, _, h8, _⟩ := World.run_effect EjectingStrategy acts w w' h
    have := h8 hwf k
    omega

/-- Claim C18 on `strandedWorld`: a second `Subscribe` and the statement `running_ = false`
of the destructor post nothing, and nothing is delivered. -/
theorem C18_backlog_stranded_witness :
    World.run true strandedWorld [Action.Subscribe 0 (some 4), Action.Destroy] =
        some { flagSetWorld with
          proc := MQProcessor.mk 5 [(0, Channel.mk [7] (some 4) 5)] (Semaphore.mk 0) false } ∧
      ({ flagSetWorld with
          proc := MQProcessor.mk 5 [(0, Channel.mk [7] (some 4) 5)] (Semaphore.mk 0) false } :
        World Nat Nat Nat).calls = strandedWorld.calls :=
  ⟨by decide,
    ((C18_backlog_stranded true).2.2.1 strandedWorld
      { flagSetWorld with
        proc := MQProcessor.mk 5 [(0, Channel.mk [7] (some 4) 5)] (Semaphore.mk 0) false }
      [Action.Subscribe 0 (some 4), Action.Destroy] rfl (by decide) rfl).1⟩

/-- Claim C16 on the run `strandingRun` followed by a second `Enqueue`: two posts, one
pass started, one wake left. -/
theorem C16_wake_accounting_witness :
    World.run true (World.init 5) (strandingRun ++ [Action.Enqueue 0 8]) = some twoPostsWorld ∧
      twoPostsWorld.passes + twoPostsWorld.proc.semaphore_.count_ = twoPostsWorld.posts ∧
      twoPostsWorld.pushes ≤ twoPostsWorld.posts ∧
      twoPostsWorld.pushes ≤ twoPostsWorld.passes + twoPostsWorld.proc.semaphore_.count_ :=
  ⟨by decide,
    (C16_wake_accounting true).2.2.2.1 5 (strandingRun ++ [Action.Enqueue 0 8]) twoPostsWorld
      (by decide)⟩

end Worker


/-! ## The statement-level model: one call alone, and interleavings -/

section Exec

variable {K V C : Type}

theorem Micro.exec_push (ej : Bool) (ch : Channel V C) (v : V) :
    (Micro.exec ej ch (Pc.push_lock v : Pc K V C)).map
        (fun m => (m.ch, m.threads, m.mutex_, m.calls)) =
      (ch.push ej v).map (fun r => (r.2, [Pc.returned (some r.1)], none, [])) := by
  unfold Channel.push
  by_cases hfull : ch.queue_.length ≥ ch.maxChannelSize_
  · cases ej with
    | false =>
      simp [Micro.exec, Micro.finish, Micro.step, Micro.start, Micro.acquire, Micro.goto,
        Micro.release, hfull]
    | true =>
      cases hq : ch.queue_ with
      | nil =>
        rw [hq] at hfull
        have h0 : ch.maxChannelSize_ = 0 := by simpa using hfull
        simp [Micro.exec, Micro.finish, Micro.step, Micro.start, Micro.acquire, Micro.goto,
          Micro.release, h0, hq, pop_front]
      | cons x q =>
        rw [hq] at hfull
        have h0 : ch.maxChannelSize_ ≤ q.length + 1 := by simpa using hfull
        simp [Micro.exec, Micro.finish, Micro.step, Micro.start, Micro.acquire, Micro.goto,
          Micro.release, h0, hq, pop_front]
  · simp [Micro.exec, Micro.finish, Micro.step, Micro.start, Micro.acquire, Micro.goto,
      Micro.release, hfull]

theorem Micro.exec_reset_consumer (ej : Bool) (ch : Channel V C) (c : Option C) :
    (Micro.exec ej ch (Pc.reset_lock c : Pc K V C)).map
        (fun m => (m.ch, m.threads, m.mutex_, m.calls)) =
      some (ch.reset_consumer c, [Pc.returned none], none, []) := by
  simp [Micro.exec, Micro.finish, Micro.step, Micro.start, Micro.acquire, Micro.goto,
    Micro.release]

theorem Micro.exec_consume (ej : Bool) (ch : Channel V C) (id : K) :
    (Micro.exec ej ch (Pc.consume_test id : Pc K V C)).map
        (fun m => (m.ch, m.threads, m.mutex_, m.calls)) =
      some ((ch.consume id).1, [Pc.returned none], none, (ch.consume id).2) := by
  unfold Channel.consume
  cases hq : ch.queue_ with
  | nil =>
    simp [Micro.exec, Micro.finish, Micro.step, Micro.start, Micro.acquire, Micro.goto,
      Micro.release, hq]
  | cons x q =>
    cases hc : ch.consumer_ with
    | none =>
      simp [Micro.exec, Micro.finish, Micro.step, Micro.start, Micro.acquire, Micro.goto,
        Micro.release, hq, hc]
    | some c =>
      simp [Micro.exec, Micro.finish, Micro.step, Micro.start, Micro.acquire, Micro.goto,
        Micro.release, hq, hc, pop_front]

end Exec


section Interleaving

variable {K V C : Type}

theorem Pc.holds_of_isPop (pc : Pc K V C) (h : pc.isPop = true) : pc.holds = true := by
  cases pc <;> first | rfl | simp [Pc.isPop] at h

theorem getElem?_set_cases {α : Type} (l : List α) (t t' : Nat) (a b : α)
    (h : (l.set t a)[t']? = some b) : (t' = t ∧ b = a) ∨ (t' ≠ t ∧ l[t']? = some b) := by
  rw [List.getElem?_set] at h
  by_cases ht : t = t'
  · subst ht
    simp only [if_true] at h
    split at h
    · simp only [Option.some.injEq] at h
      exact Or.inl ⟨rfl, h.symm⟩
    · cases h
  · rw [if_neg ht] at h
    exact Or.inr ⟨fun e => ht e.symm, h⟩

/-- What one statement does, in the form used by the invariant. -/
theorem Micro.step_summary (ej : Bool) (m m' : Micro K V C) (t : Nat)
    (h : m.step ej t = some m') :
    ∃ pc pc', m.threads[t]? = some pc ∧ m'.threads = m.threads.set t pc' ∧
      ((pc.holds = false ∧ pc'.holds = true ∧ m.mutex_ = none ∧ m'.mutex_ = some t) ∨
        (pc.holds = true ∧ pc'.holds = false ∧ m'.mutex_ = none) ∨
        (pc.holds = pc'.holds ∧ m'.mutex_ = m.mutex_)) ∧
      (∃ new, m'.log = m.log ++ new ∧ ∀ a ∈ new, a.locked = decide (m.mutex_ = some t) ∧
        (pc.holds = false → a.line = 85 ∧ a.write = false)) ∧
      (pc.holds = false → m'.ch = m.ch ∧ m'.calls = m.calls ∧ m'.emplaced = m.emplaced) ∧
      ((pc'.isPop = true ∧ ∃ id c v rest, pc = Pc.consume_invoke id ∧
          m.ch.queue_ = v :: rest ∧ m.ch.consumer_ = some c ∧ m'.ch = m.ch ∧
          m'.calls = m.calls ++ [Call.mk c id v] ∧ m'.emplaced = m.emplaced) ∨
        (pc'.isPop = false ∧ pc.isPop = true ∧ m'.calls = m.calls ∧
          m'.emplaced = m.emplaced ∧ ∃ v, m.ch.queue_ = v :: m'.ch.queue_) ∨
        (pc'.isPop = false ∧ pc.isPop = false ∧ m'.calls = m.calls ∧
          ((m'.ch.queue_ = m.ch.queue_ ∧ m'.emplaced = m.emplaced) ∨
            (∃ x, m.ch.queue_ = x :: m'.ch.queue_ ∧ m'.emplaced = m.emplaced) ∨
            (∃ v, m'.ch.queue_ = m.ch.queue_ ++ [v] ∧ m'.emplaced = m.emplaced ++ [v])))) ∧
      (∀ id, pc' = Pc.consume_invoke id →
        m.ch.queue_ ≠ [] ∧ m.ch.consumer_ ≠ none ∧ m'.ch = m.ch) := by
  unfold Micro.step at h
  cases hpc : m.threads[t]? with
  | none => simp [hpc] at h
  | some pc =>
    rw [hpc] at h
    cases pc with
    | push_lock v =>
      dsimp only at h
      unfold Micro.acquire at h
      cases hm : m.mutex_ with
      | some o => simp [hm] at h
      | none =>
        simp only [hm, Option.some.injEq] at h
        subst h
        exact ⟨_, Pc.push_test v, rfl, rfl, Or.inl ⟨rfl, rfl, rfl, rfl⟩, ⟨[], by simp, by simp⟩,
          fun _ => ⟨rfl, rfl, rfl⟩, Or.inr (Or.inr ⟨rfl, rfl, rfl, Or.inl ⟨rfl, rfl⟩⟩),
          fun id hid => by cases hid⟩
    | push_test v =>
      dsimp only at h
      have hlog : ∀ pc' : Pc K V C, ∃ new, m.log ++ [m.access t 74 Member.queue_ false] =
          m.log ++ new ∧ ∀ a ∈ new, a.locked = decide (m.mutex_ = some t) ∧
            ((Pc.push_test v : Pc K V C).holds = false → a.line = 85 ∧ a.write = false) :=
        fun _ => ⟨_, rfl, by simp [Micro.access, Pc.holds]⟩
      split at h
      · split at h
        · simp only [Option.some.injEq] at h
          subst h
          exact ⟨_, Pc.push_unlock false, rfl, rfl, Or.inr (Or.inr ⟨rfl, rfl⟩), hlog (Pc.push_unlock false),
            fun hh => by simp [Pc.holds] at hh,
            Or.inr (Or.inr ⟨rfl, rfl, rfl, Or.inl ⟨rfl, rfl⟩⟩), fun id hid => by cases hid⟩
        · simp only [Option.some.injEq] at h
          subst h
          exact ⟨_, Pc.push_pop v, rfl, rfl, Or.inr (Or.inr ⟨rfl, rfl⟩), hlog (Pc.push_pop v),
            fun hh => by simp [Pc.holds] at hh,
            Or.inr (Or.inr ⟨rfl, rfl, rfl, Or.inl ⟨rfl, rfl⟩⟩), fun id hid => by cases hid⟩
      · simp only [Option.some.injEq] at h
        subst h
        exact ⟨_, Pc.push_emplace v, rfl, rfl, Or.inr (Or.inr ⟨rfl, rfl⟩), hlog (Pc.push_emplace v),
          fun hh => by simp [Pc.holds] at hh,
          Or.inr (Or.inr ⟨rfl, rfl, rfl, Or.inl ⟨rfl, rfl⟩⟩), fun id hid => by cases hid⟩
    | push_pop v =>
      dsimp only at h
      cases hq : m.ch.queue_ with
      | nil => simp [hq, pop_front] at h
      | cons x q =>
        simp only [hq, pop_front, Option.some.injEq] at h
        subst h
        exact ⟨_, Pc.push_emplace v, rfl, rfl, Or.inr (Or.inr ⟨rfl, rfl⟩),
          ⟨_, rfl, by simp [Micro.access, Pc.holds]⟩, fun hh => by simp [Pc.holds] at hh,
          Or.inr (Or.inr ⟨rfl, rfl, rfl, Or.inr (Or.inl ⟨x, rfl, rfl⟩)⟩),
          fun id hid => by cases hid⟩
    | push_emplace v =>
      dsimp only at h
      simp only [Option.some.injEq] at h
      subst h
      exact ⟨_, Pc.push_unlock true, rfl, rfl, Or.inr (Or.inr ⟨rfl, rfl⟩),
        ⟨_, rfl, by simp [Micro.access, Pc.holds]⟩, fun hh => by simp [Pc.holds] at hh,
        Or.inr (Or.inr ⟨rfl, rfl, rfl, Or.inr (Or.inr ⟨v, rfl, rfl⟩)⟩),
        fun id hid => by cases hid⟩
    | push_unlock r =>
      dsimp only at h
      simp only [Option.some.injEq] at h
      subst h
      exact ⟨_, Pc.returned (some r), rfl, rfl, Or.inr (Or.inl ⟨rfl, rfl, rfl⟩),
        ⟨[], by simp [Micro.release], by simp⟩, fun hh => by simp [Pc.holds] at hh,
        Or.inr (Or.inr ⟨rfl, rfl, rfl, Or.inl ⟨rfl, rfl⟩⟩), fun id hid => by cases hid⟩
    | reset_lock c =>
      dsimp only at h
      unfold Micro.acquire at h
      cases hm : m.mutex_ with
      | some o => simp [hm] at h
      | none =>
        simp only [hm, Option.some.injEq] at h
        subst h
        exact ⟨_, Pc.reset_assign c, rfl, rfl, Or.inl ⟨rfl, rfl, rfl, rfl⟩, ⟨[], by simp, by simp⟩,
          fun _ => ⟨rfl, rfl, rfl⟩, Or.inr (Or.inr ⟨rfl, rfl, rfl, Or.inl ⟨rfl, rfl⟩⟩),
          fun id hid => by cases hid⟩
    | reset_assign c =>
      dsimp only at h
      simp only [Option.some.injEq] at h
      subst h
      exact ⟨_, Pc.reset_unlock, rfl, rfl, Or.inr (Or.inr ⟨rfl, rfl⟩),
        ⟨_, rfl, by simp [Micro.access, Pc.holds]⟩, fun hh => by simp [Pc.holds] at hh,
        Or.inr (Or.inr ⟨rfl, rfl, rfl, Or.inl ⟨rfl, rfl⟩⟩), fun id hid => by cases hid⟩
    | reset_unlock =>
      dsimp only at h
      simp only [Option.some.injEq] at h
      subst h
      exact ⟨_, Pc.returned none, rfl, rfl, Or.inr (Or.inl ⟨rfl, rfl, rfl⟩),
        ⟨[], by simp [Micro.release], by simp⟩, fun hh => by simp [Pc.holds] at hh,
        Or.inr (Or.inr ⟨rfl, rfl, rfl, Or.inl ⟨rfl, rfl⟩⟩), fun id hid => by cases hid⟩
    | consume_test id =>
      dsimp only at h
      cases hq : m.ch.queue_ with
      | nil =>
        simp only [hq, Option.some.injEq] at h
        subst h
        exact ⟨_, Pc.returned none, rfl, rfl, Or.inr (Or.inr ⟨rfl, rfl⟩),
          ⟨_, rfl, by simp [Micro.access]⟩, fun _ => ⟨rfl, rfl, rfl⟩,
          Or.inr (Or.inr ⟨rfl, rfl, rfl, Or.inl ⟨hq, rfl⟩⟩), fun id hid => by cases hid⟩
      | cons x q =>
        simp only [hq] at h
        cases hc : m.ch.consumer_ with
        | none =>
          simp only [hc, Option.some.injEq] at h
          subst h
          exact ⟨_, Pc.returned none, rfl, rfl, Or.inr (Or.inr ⟨rfl, rfl⟩),
            ⟨_, rfl, by simp [Micro.access]⟩, fun _ => ⟨rfl, rfl, rfl⟩,
            Or.inr (Or.inr ⟨rfl, rfl, rfl, Or.inl ⟨hq, rfl⟩⟩), fun id hid => by cases hid⟩
        | some c =>
          simp only [hc, Option.some.injEq] at h
          subst h
          exact ⟨_, Pc.consume_lock id, rfl, rfl, Or.inr (Or.inr ⟨rfl, rfl⟩),
            ⟨_, rfl, by simp [Micro.access]⟩, fun _ => ⟨rfl, rfl, rfl⟩,
            Or.inr (Or.inr ⟨rfl, rfl, rfl, Or.inl ⟨hq, rfl⟩⟩), fun id hid => by cases hid⟩
    | consume_lock id =>
      dsimp only at h
      unfold Micro.acquire at h
      cases hm : m.mutex_ with
      | some o => simp [hm] at h
      | none =>
        simp only [hm, Option.some.injEq] at h
        subst h
        exact ⟨_, Pc.consume_retest id, rfl, rfl, Or.inl ⟨rfl, rfl, rfl, rfl⟩,
          ⟨[], by simp, by simp⟩, fun _ => ⟨rfl, rfl, rfl⟩,
          Or.inr (Or.inr ⟨rfl, rfl, rfl, Or.inl ⟨rfl, rfl⟩⟩), fun id hid => by cases hid⟩
    | consume_retest id =>
      dsimp only at h
      cases hq : m.ch.queue_ with
      | nil =>
        simp only [hq, Option.some.injEq] at h
        subst h
        exact ⟨_, Pc.consume_unlock, rfl, rfl, Or.inr (Or.inr ⟨rfl, rfl⟩),
          ⟨_, rfl, by simp [Micro.access, Pc.holds]⟩, fun hh => by simp [Pc.holds] at hh,
          Or.inr (Or.inr ⟨rfl, rfl, rfl, Or.inl ⟨hq, rfl⟩⟩), fun id hid => by cases hid⟩
      | cons x q =>
        simp only [hq] at h
        cases hc : m.ch.consumer_ with
        | none =>
          simp only [hc, Option.some.injEq] at h
          subst h
          exact ⟨_, Pc.consume_unlock, rfl, rfl, Or.inr (Or.inr ⟨rfl, rfl⟩),
            ⟨_, rfl, by simp [Micro.access, Pc.holds]⟩, fun hh => by simp [Pc.holds] at hh,
            Or.inr (Or.inr ⟨rfl, rfl, rfl, Or.inl ⟨hq, rfl⟩⟩), fun id hid => by cases hid⟩
        | some c =>
          simp only [hc, Option.some.injEq] at h
          subst h
          exact ⟨_, Pc.consume_invoke id, rfl, rfl, Or.inr (Or.inr ⟨rfl, rfl⟩),
            ⟨_, rfl, by simp [Micro.access, Pc.holds]⟩, fun hh => by simp [Pc.holds] at hh,
            Or.inr (Or.inr ⟨rfl, rfl, rfl, Or.inl ⟨hq, rfl⟩⟩),
            fun id' _ => ⟨by simp [hq], by simp [hc], rfl⟩⟩
    | consume_invoke id =>
      dsimp only at h
      cases hc : m.ch.consumer_ with
      | none => simp [hc] at h
      | some c =>
        cases hq : m.ch.queue_ with
        | nil => simp [hc, hq] at h
        | cons x q =>
          simp only [hc, hq, Option.some.injEq] at h
          subst h
          exact ⟨_, Pc.consume_pop, rfl, rfl, Or.inr (Or.inr ⟨rfl, rfl⟩),
            ⟨_, rfl, by simp [Micro.access, Pc.holds]⟩, fun hh => by simp [Pc.holds] at hh,
            Or.inl ⟨rfl, id, c, x, q, rfl, rfl, rfl, rfl, rfl, rfl⟩, fun id hid => by cases hid⟩
    | consume_pop =>
      dsimp only at h
      cases hq : m.ch.queue_ with
      | nil => simp [hq, pop_front] at h
      | cons x q =>
        simp only [hq, pop_front, Option.some.injEq] at h
        subst h
        exact ⟨_, Pc.consume_unlock, rfl, rfl, Or.inr (Or.inr ⟨rfl, rfl⟩),
          ⟨_, rfl, by simp [Micro.access, Pc.holds]⟩, fun hh => by simp [Pc.holds] at hh,
          Or.inr (Or.inl ⟨rfl, rfl, rfl, rfl, x, rfl⟩), fun id hid => by cases hid⟩
    | consume_unlock =>
      dsimp only at h
      simp only [Option.some.injEq] at h
      subst h
      exact ⟨_, Pc.returned none, rfl, rfl, Or.inr (Or.inl ⟨rfl, rfl, rfl⟩),
        ⟨[], by simp [Micro.release], by simp⟩, fun hh => by simp [Pc.holds] at hh,
        Or.inr (Or.inr ⟨rfl, rfl, rfl, Or.inl ⟨rfl, rfl⟩⟩), fun id hid => by cases hid⟩
    | returned r => simp at h


theorem Micro.settled_of_free (m : Micro K V C) (h : m.mutex_ = none) :
    m.settled = m.calls.map Call.value := by
  simp [Micro.settled, h]

theorem Micro.settled_of_owner (m : Micro K V C) (t : Nat) (pc : Pc K V C)
    (h : m.mutex_ = some t) (hpc : m.threads[t]? = some pc) :
    m.settled =
      if pc.isPop = true then (m.calls.map Call.value).dropLast else m.calls.map Call.value := by
  unfold Micro.settled
  rw [h]
  simp only [hpc]
  cases pc <;> simp [Pc.isPop]

/-- Every statement keeps the invariant. -/
theorem Micro.step_good (ej : Bool) (q0 : List V) (m m' : Micro K V C) (t : Nat)
    (hg : m.Good q0) (h : m.step ej t = some m') : m'.Good q0 := by
  obtain ⟨hI1, hI2, hI3, hI4, hI5⟩ := hg
  obtain ⟨pc, pc', hpc, hth, hA, ⟨new, hlog, hnew⟩, hC, hD, hE⟩ :=
    Micro.step_summary ej m m' t h
  have hown : pc.holds = true → m.mutex_ = some t := fun hh => (hI1 t pc hpc).1 hh
  have hnot : pc.holds = false → m.mutex_ ≠ some t := by
    intro hh hm
    have := (hI1 t pc hpc).2 hm
    rw [hh] at this
    cases this
  -- another thread inside a locked scope forces the stepping thread outside of it
  have hother : ∀ (t' : Nat) (pc'' : Pc K V C), t' ≠ t → m.threads[t']? = some pc'' →
      pc''.holds = true → pc.holds = false := by
    intro t' pc'' hne hpc'' hh
    have h1 := (hI1 t' pc'' hpc'').1 hh
    cases hp : pc.holds with
    | false => rfl
    | true =>
      have h2 := hown hp
      rw [h1] at h2
      simp only [Option.some.injEq] at h2
      exact absurd h2 hne
  have hlt : t < m.threads.length := by
    rcases Nat.lt_or_ge t m.threads.length with h1 | h1
    · exact h1
    · rw [List.getElem?_eq_none h1] at hpc
      cases hpc
  have hnew_t : m'.threads[t]? = some pc' := by
    rw [hth, List.getElem?_set_self hlt]
  refine ⟨?_, ?_, ?_, ?_, ?_⟩
  · -- the owner of the mutex
    intro t' pc'' hpc''
    rw [hth] at hpc''
    rcases getElem?_set_cases m.threads t t' pc' pc'' hpc'' with ⟨ht, hp⟩ | ⟨ht, hp⟩
    · subst ht hp
      rcases hA with ⟨_, h2, _, h4⟩ | ⟨_, h2, h3⟩ | ⟨h1, h2⟩
      · simp [h2, h4]
      · simp [h2, h3]
      · rw [← h1, h2]
        exact hI1 t' pc hpc
    · have hold := hI1 t' pc'' hp
      rcases hA with ⟨_, _, h3, h4⟩ | ⟨h1, _, h3⟩ | ⟨_, h2⟩
      · rw [h3] at hold
        rw [h4]
        constructor
        · intro hh
          have := hold.1 hh
          cases this
        · intro hh
          simp only [Option.some.injEq] at hh
          exact absurd hh.symm ht
      · rw [h3]
        constructor
        · intro hh
          have := hother t' pc'' ht hp hh
          rw [h1] at this
          cases this
        · intro hh
          cases hh
      · rw [h2]
        exact hold
  · -- the log
    intro a ha
    rw [hlog, List.mem_append] at ha
    rcases ha with ha | ha
    · exact hI2 a ha
    · obtain ⟨h1, h2⟩ := hnew a ha
      cases hp : pc.holds with
      | true =>
        left
        rw [h1, hown hp]
        simp
      | false => exact Or.inr (h2 hp)
  · -- before the call of the consumer
    intro t' id hpc''
    rw [hth] at hpc''
    rcases getElem?_set_cases m.threads t t' pc' _ hpc'' with ⟨_, hp⟩ | ⟨ht, hp⟩
    · obtain ⟨h1, h2, h3⟩ := hE id hp.symm
      rw [h3]
      exact ⟨h1, h2⟩
    · have hf := hother t' _ ht hp rfl
      rw [(hC hf).1]
      exact hI3 t' id hp
  · -- between the call and the pop
    intro t' hpc''
    rw [hth] at hpc''
    rcases getElem?_set_cases m.threads t t' pc' _ hpc'' with ⟨_, hp⟩ | ⟨ht, hp⟩
    · rcases hD with ⟨_, id, c, v, rest, _, hq, _, hch, hcalls, _⟩ | ⟨hh, _⟩ | ⟨hh, _⟩
      · exact ⟨c, id, v, rest, by rw [hch]; exact hq, by rw [hcalls]; simp⟩
      · rw [← hp] at hh; cases hh
      · rw [← hp] at hh; cases hh
    · have hf := hother t' _ ht hp rfl
      rw [(hC hf).1, (hC hf).2.1]
      exact hI4 t' hp
  · -- settled deliveries and the queue
    cases hp : pc.holds with
    | false =>
      obtain ⟨hch, hcalls, hemp⟩ := hC hp
      have hset : m'.settled = m.settled := by
        have hpop' : pc'.isPop = false := by
          rcases hD with ⟨_, id, _, _, _, hpcid, _⟩ | ⟨_, hh, _⟩ | ⟨hh, _⟩
          · rw [hpcid] at hp; cases hp
          · rw [Pc.holds_of_isPop pc hh] at hp; cases hp
          · exact hh
        rcases hA with ⟨_, _, h3, h4⟩ | ⟨h1, _, _⟩ | ⟨_, h2⟩
        · rw [Micro.settled_of_free m h3, Micro.settled_of_owner m' t pc' h4 hnew_t, hpop',
            hcalls]
          simp
        · rw [h1] at hp; cases hp
        · cases hm : m.mutex_ with
          | none =>
            rw [Micro.settled_of_free m hm, Micro.settled_of_free m' (by rw [h2, hm]), hcalls]
          | some o =>
            have hne : o ≠ t := fun e => hnot hp (by rw [hm, e])
            cases hpo : m.threads[o]? with
            | none =>
              have hpo' : m'.threads[o]? = none := by
                rw [hth, List.getElem?_set_ne (fun e => hne e.symm)]
                exact hpo
              simp [Micro.settled, hm, h2, hpo, hpo', hcalls]
            | some pco =>
              have hpo' : m'.threads[o]? = some pco := by
                rw [hth, List.getElem?_set_ne (fun e => hne e.symm)]
                exact hpo
              rw [Micro.settled_of_owner m o pco hm hpo,
                Micro.settled_of_owner m' o pco (by rw [h2, hm]) hpo', hcalls]
      rw [hset, hch, hemp]
      exact hI5
    | true =>
      have hm := hown hp
      have hs := Micro.settled_of_owner m t pc hm hpc
      have hs' : m'.settled =
          if pc'.isPop = true then (m'.calls.map Call.value).dropLast
          else m'.calls.map Call.value := by
        rcases hA with ⟨h1, _⟩ | ⟨_, h2, h3⟩ | ⟨_, h2⟩
        · rw [h1] at hp; cases hp
        · have hpop' : pc'.isPop = false := by
            cases hh : pc'.isPop with
            | false => rfl
            | true => rw [Pc.holds_of_isPop pc' hh] at h2; cases h2
          rw [Micro.settled_of_free m' h3, hpop']
          simp
        · exact Micro.settled_of_owner m' t pc' (by rw [h2, hm]) hnew_t
      rcases hD with ⟨hpop', id, c, v, rest, hpcid, hq, _, hch, hcalls, hemp⟩ |
        ⟨hpop', hpop, hcalls, hemp, v, hq⟩ | ⟨hpop', hpop, hcalls, hq⟩
      · have hpop : pc.isPop = false := by rw [hpcid]; rfl
        rw [hs', hpop', hcalls, hch, hemp]
        rw [hs, hpop] at hI5
        simpa using hI5
      · obtain ⟨c, id, v', rest, hq', hlast⟩ := hI4 t (by
          cases pc <;> first | exact hpc | simp [Pc.isPop] at hpop)
        rw [hq] at hq'
        simp only [List.cons.injEq] at hq'
        obtain ⟨hv, hrest⟩ := hq'
        have hD' : m.calls.map Call.value = (m.calls.map Call.value).dropLast ++ [v] := by
          have h1 : (m.calls.map Call.value).getLast? = some v := by
            rw [List.getLast?_map, hlast, hv]
            rfl
          exact (List.dropLast_append_getLast? v h1).symm
        have e : m.calls.map Call.value ++ m'.ch.queue_ =
            (m.calls.map Call.value).dropLast ++ v :: m'.ch.queue_ := by
          conv_lhs => rw [hD']
          simp
        rw [hs', hpop', hcalls, hemp]
        rw [hs, hpop, hq] at hI5
        simp only [Bool.false_eq_true, if_false, if_true] at hI5 ⊢
        rw [e]
        exact hI5
      · rw [hs', hpop', hcalls]
        rw [hs, hpop] at hI5
        simp only [Bool.false_eq_true, if_false] at hI5 ⊢
        rcases hq with ⟨h1, h2⟩ | ⟨x, h1, h2⟩ | ⟨v, h1, h2⟩
        · rw [h1, h2]; exact hI5
        · rw [h2]
          rw [h1] at hI5
          exact (List.Sublist.append (List.Sublist.refl _)
            (List.sublist_cons_self x _)).trans hI5
        · rw [h1, h2, ← List.append_assoc, ← List.append_assoc]
          exact List.Sublist.append hI5 (List.Sublist.refl _)

theorem Micro.start_good (ch : Channel V C) (pcs : List (Pc K V C))
    (hpcs : ∀ pc ∈ pcs, pc.entry = true) : (Micro.start ch pcs).Good ch.queue_ := by
  have hmem : ∀ (t : Nat) (pc : Pc K V C), pcs[t]? = some pc → pc ∈ pcs := by
    intro t pc h
    exact List.getElem?_mem h
  refine ⟨?_, ?_, ?_, ?_, ?_⟩
  · intro t pc hpc
    have he := hpcs pc (hmem t pc hpc)
    simp only [Micro.start]
    cases pc <;> simp [Pc.entry] at he <;> simp [Pc.holds]
  · intro a ha
    simp [Micro.start] at ha
  · intro t id hpc
    have he := hpcs _ (hmem t _ hpc)
    simp [Pc.entry] at he
  · intro t hpc
    have he := hpcs _ (hmem t _ hpc)
    simp [Pc.entry] at he
  · simp [Micro.start, Micro.settled]

theorem Micro.run_good (ej : Bool) (q0 : List V) (ts : List Nat) :
    ∀ m m' : Micro K V C, m.Good q0 → Micro.run ej m ts = some m' → m'.Good q0 := by
  induction ts with
  | nil =>
    intro m m' hg h
    simp only [Micro.run, Option.some.injEq] at h
    subst h
    exact hg
  | cons t ts ih =>
    intro m m' hg h
    rw [Micro.run] at h
    cases hs : m.step ej t with
    | none => simp [hs] at h
    | some m1 =>
      simp only [hs] at h
      exact ih m1 m' (Micro.step_good ej q0 m m1 t hg hs) h

end Interleaving


/-! ## Mutual exclusion, order of call and pop, safety of the pops (claims C13, C17, C19) -/

section Statements

variable {K V C : Type}

/-- Claim C13 fails as stated: the first statement of `consume` (line 85) reads `queue_` and
`consumer_` without holding the mutex. -/
theorem C13_unlocked_reads_in_consume :
    (Micro.run true (Micro.start (Channel.mk [8, 9] (some 4) 2)
        [(Pc.consume_test 2 : Pc Nat Nat Nat)]) [0]).map Micro.log =
      some [Access.mk 0 85 Member.queue_ false false,
        Access.mk 0 85 Member.consumer_ false false] := by
  decide

/-- Claim C13 as amended.  For any threads that each start a call of `push`,
`reset_consumer` or `consume` on one channel and any interleaving of their statements:
every write of `queue_` and of `consumer_` is made while holding the mutex; the only
accesses made without it are reads of line 85 (the first test of `consume`); a thread is
inside a locked scope exactly when it owns the mutex, so at most one thread is; a thread
that has called the consumer and not yet popped finds the delivered value at the head of
the queue; and the deliveries whose element has been popped, followed by the queue, form
a subsequence of the initial queue followed by the values appended since (no element is
delivered twice). -/
theorem C13_lock_discipline (EjectingStrategy : Bool) (ch : Channel V C)
    (pcs : List (Pc K V C)) (hpcs : ∀ pc ∈ pcs, pc.entry = true) (ts : List Nat)
    (m : Micro K V C) (hrun : Micro.run EjectingStrategy (Micro.start ch pcs) ts = some m) :
    (∀ a ∈ m.log, a.write = true → a.locked = true) ∧
      (∀ a ∈ m.log, a.locked = false → a.line = 85 ∧ a.write = false) ∧
      (∀ (t : Nat) (pc : Pc K V C), m.threads[t]? = some pc →
        (pc.holds = true ↔ m.mutex_ = some t)) ∧
      (∀ (t1 t2 : Nat) (pc1 pc2 : Pc K V C), m.threads[t1]? = some pc1 →
        m.threads[t2]? = some pc2 → pc1.holds = true → pc2.holds = true → t1 = t2) ∧
      (∀ t : Nat, m.threads[t]? = some Pc.consume_pop →
        ∃ c id v rest, m.ch.queue_ = v :: rest ∧
          m.calls.getLast? = some (Call.mk c id v)) ∧
      (m.settled ++ m.ch.queue_).Sublist (ch.queue_ ++ m.emplaced) := by
  obtain ⟨h1, h2, _, h4, h5⟩ :=
    Micro.run_good EjectingStrategy ch.queue_ ts _ m (Micro.start_good ch pcs hpcs) hrun
  refine ⟨?_, ?_, h1, ?_, h4, h5⟩
  · intro a ha hw
    rcases h2 a ha with h | ⟨_, h⟩
    · exact h
    · rw [hw] at h; cases h
  · intro a ha hl
    rcases h2 a ha with h | h
    · rw [hl] at h; cases h
    · exact h
  · intro t1 t2 pc1 pc2 hp1 hp2 hh1 hh2
    have e1 := (h1 t1 pc1 hp1).1 hh1
    have e2 := (h1 t2 pc2 hp2).1 hh2
    rw [e1] at e2
    simpa using e2

/-- Claim C13 as amended, on `racingSchedule`: the consumer is reset between the unlocked
test and the locked test of `consume`, and nothing is delivered. -/
theorem C13_lock_discipline_witness :
    Micro.run true (Micro.start (Channel.mk [8, 9] (some 4) 2)
        [Pc.consume_test 2, Pc.reset_lock none]) racingSchedule = some racingFinal ∧
      (∀ a ∈ racingFinal.log, a.write = true → a.locked = true) ∧
      (∀ a ∈ racingFinal.log, a.locked = false → a.line = 85 ∧ a.write = false) :=
  ⟨by decide,
    (C13_lock_discipline true (Channel.mk [8, 9] (some 4) 2)
      [Pc.consume_test 2, Pc.reset_lock none] (by decide) racingSchedule racingFinal
      (by decide)).1,
    (C13_lock_discipline true (Channel.mk [8, 9] (some 4) 2)
      [Pc.consume_test 2, Pc.reset_lock none] (by decide) racingSchedule racingFinal
      (by decide)).2.1⟩

/-- Claim C17 fails as stated: after the first four statements of `consume(2)` on a channel
holding 8, 9 with consumer 4, the consumer has been invoked with 8 and 8 is still at the
head of the queue; `pop_front` is the next statement. -/
theorem C17_value_pending_at_call :
    (Micro.run true (Micro.start (Channel.mk [8, 9] (some 4) 5)
        [(Pc.consume_test 2 : Pc Nat Nat Nat)]) [0, 0, 0, 0]).map
        (fun m => (m.calls, m.ch.queue_, m.threads)) =
      some ([Call.mk 4 2 8], [8, 9], [Pc.consume_pop]) := by
  decide

/-- Claim C17 as amended.  The statement of line 88 invokes the bound consumer with the
head of the queue and leaves the channel unchanged, so that the delivered value is still
the head of the pending queue when the consumer is called and after it has returned; the
thread then stands before `pop_front`, which is defined and removes exactly that value
without invoking anything.  A `consume` executed alone is the composition of these
statements and equals `Channel.consume`. -/
theorem C17_call_then_pop (EjectingStrategy : Bool) (m m' : Micro K V C) (t : Nat) (id : K)
    (hpc : m.threads[t]? = some (Pc.consume_invoke id))
    (hstep : m.step EjectingStrategy t = some m') :
    (∃ c v rest, m.ch.queue_ = v :: rest ∧ m.ch.consumer_ = some c ∧
        m'.calls = m.calls ++ [Call.mk c id v] ∧ m'.ch = m.ch ∧
        m'.threads[t]? = some Pc.consume_pop ∧
        ∃ m'', m'.step EjectingStrategy t = some m'' ∧ m''.calls = m'.calls ∧
          m''.ch = { m.ch with queue_ := rest } ∧
          m''.threads[t]? = some Pc.consume_unlock) ∧
      ∀ (ch : Channel V C) (k : K),
        (Micro.exec EjectingStrategy ch (Pc.consume_test k : Pc K V C)).map
            (fun m => (m.ch, m.calls)) = some (ch.consume k) := by
  constructor
  · have hlt : t < m.threads.length := by
      rcases Nat.lt_or_ge t m.threads.length with h1 | h1
      · exact h1
      · rw [List.getElem?_eq_none h1] at hpc
        cases hpc
    unfold Micro.step at hstep
    rw [hpc] at hstep
    dsimp only at hstep
    cases hc : m.ch.consumer_ with
    | none => simp [hc] at hstep
    | some c =>
      cases hq : m.ch.queue_ with
      | nil => simp [hc, hq] at hstep
      | cons v rest =>
        simp only [hc, hq, Option.some.injEq] at hstep
        subst hstep
        have hth : (m.threads.set t (Pc.consume_pop : Pc K V C))[t]? = some Pc.consume_pop :=
          List.getElem?_set_self hlt
        refine ⟨c, v, rest, rfl, rfl, rfl, rfl, hth, ?_⟩
        have hlt' : t < (m.threads.set t (Pc.consume_pop : Pc K V C)).length := by
          rw [List.length_set]; exact hlt
        simp only [Micro.step, Micro.goto, hth, hq, pop_front]
        exact ⟨_, rfl, rfl, rfl, List.getElem?_set_self hlt'⟩
  · intro ch k
    have h := Micro.exec_consume EjectingStrategy ch k
    cases he : Micro.exec EjectingStrategy ch (Pc.consume_test k : Pc K V C) with
    | none => rw [he] at h; cases h
    | some r =>
      rw [he] at h
      simp only [Option.map_some', Option.some.injEq, Prod.mk.injEq] at h
      simp only [Option.map_some', Option.some.injEq]
      exact Prod.ext h.1 h.2.2.2

/-- Claim C17 as amended, on `beforeCall`: line 88 leads to `afterCall`, where 8 has
been delivered and is still pending. -/
theorem C17_call_then_pop_witness :
    beforeCall.step true 0 = some afterCall ∧
      ∃ c v rest, beforeCall.ch.queue_ = v :: rest ∧ beforeCall.ch.consumer_ = some c ∧
        afterCall.calls = beforeCall.calls ++ [Call.mk c 2 v] ∧ afterCall.ch = beforeCall.ch ∧
        afterCall.threads[0]? = some Pc.consume_pop ∧
        ∃ m'', afterCall.step true 0 = some m'' ∧ m''.calls = afterCall.calls ∧
          m''.ch = { beforeCall.ch with queue_ := rest } ∧
          m''.threads[0]? = some Pc.consume_unlock :=
  ⟨by decide, (C17_call_then_pop true beforeCall afterCall 0 2 rfl (by decide)).1⟩

theorem Channel.push_eq_none_iff (ej : Bool) (ch : Channel V C) (v : V) :
    ch.push ej v = none ↔ ej = true ∧ ch.maxChannelSize_ = 0 ∧ ch.queue_ = [] := by
  unfold Channel.push
  by_cases hfull : ch.queue_.length ≥ ch.maxChannelSize_
  · rw [if_pos hfull]
    cases ej with
    | false => simp
    | true =>
      cases hq : ch.queue_ with
      | nil =>
        rw [hq] at hfull
        simp only [List.length_nil, ge_iff_le, Nat.le_zero_eq] at hfull
        simp [pop_front, hfull]
      | cons x q => simp [pop_front]
  · rw [if_neg hfull]
    simp only [reduceCtorEq, false_iff, not_and]
    intro _ h0 hq
    rw [h0, hq] at hfull
    exact hfull (Nat.le_refl _)

theorem Channel.apply_bound (ej : Bool) (id : K) (ch ch' : Channel V C) (op : ChannelOp V C)
    (hb : ch.queue_.length ≤ ch.maxChannelSize_) (h : ch.apply ej id op = some ch') :
    ch'.maxChannelSize_ = ch.maxChannelSize_ ∧ ch'.queue_.length ≤ ch'.maxChannelSize_ := by
  cases op with
  | push v =>
    simp only [Channel.apply] at h
    cases hp : ch.push ej v with
    | none => rw [hp] at h; cases h
    | some r =>
      rw [hp] at h
      simp only [Option.map_some', Option.some.injEq] at h
      subst h
      unfold Channel.push at hp
      split at hp
      · next hfull =>
        split at hp
        · simp only [Option.some.injEq] at hp
          subst hp
          exact ⟨rfl, hb⟩
        · cases hq : ch.queue_ with
          | nil => simp [hq, pop_front] at hp
          | cons x q =>
            simp only [hq, pop_front, Option.some.injEq] at hp
            subst hp
            rw [hq] at hb
            simp only [List.length_cons] at hb
            exact ⟨rfl, by simp only [List.length_append, List.length_cons, List.length_nil]; omega⟩
      · next hfull =>
        simp only [Option.some.injEq] at hp
        subst hp
        exact ⟨rfl, by simp only [List.length_append, List.length_cons, List.length_nil]; omega⟩
  | consume =>
    simp only [Channel.apply, Option.some.injEq] at h
    subst h
    have := Channel.consume_fst_length ch id
    exact ⟨this.2, by omega⟩
  | reset_consumer c =>
    simp only [Channel.apply, Option.some.injEq] at h
    subst h
    exact ⟨rfl, hb⟩

theorem Channel.applyAll_reach (ej : Bool) (id : K) (ops : List (ChannelOp V C)) :
    ∀ ch ch' : Channel V C, ch.queue_.length ≤ ch.maxChannelSize_ →
      Channel.applyAll ej id ch ops = some ch' →
      ch'.maxChannelSize_ = ch.maxChannelSize_ ∧ ch'.queue_.length ≤ ch'.maxChannelSize_ := by
  induction ops with
  | nil =>
    intro ch ch' hb h
    simp only [Channel.applyAll, Option.some.injEq] at h
    subst h
    exact ⟨rfl, hb⟩
  | cons op ops ih =>
    intro ch ch' hb h
    rw [Channel.applyAll] at h
    cases ha : ch.apply ej id op with
    | none => simp [ha] at h
    | some ch1 =>
      simp only [ha] at h
      obtain ⟨h1, h2⟩ := Channel.apply_bound ej id ch ch1 op hb ha
      obtain ⟨h3, h4⟩ := ih ch1 ch' h2 h
      exact ⟨by rw [h3, h1], h4⟩

/-- Claim C19 (the overflow pop is safe exactly when the capacity is at least 1).  Under
the ejecting policy, on every channel reached from a fresh one of capacity `c` by `push`,
`consume` and `reset_consumer`: `push` is undefined, which happens only by `pop_front` on
an empty queue, if and only if `c = 0`, both for `Channel.push` and for its statements
executed one by one; for `c ≥ 1` every operation is defined; and for every capacity
`consume` executed statement by statement is defined, that is its `front` and `pop_front`
only run on a non-empty queue. -/
theorem C19_overflow_pop_safe_iff_capacity_positive (id : K) (c : Nat)
    (ops : List (ChannelOp V C)) (ch : Channel V C) (v : V)
    (hreach : Channel.applyAll true id (Channel.new c) ops = some ch) :
    (ch.push true v = none ↔ c = 0) ∧
      (∀ ej w, ch.push ej w = none → ej = true ∧ pop_front ch.queue_ = none) ∧
      (Micro.exec true ch (Pc.push_lock v : Pc K V C) = none ↔ c = 0) ∧
      (1 ≤ c → ∀ op, ∃ ch', ch.apply true id op = some ch') ∧
      (∀ k, Micro.exec true ch (Pc.consume_test k : Pc K V C) ≠ none) := by
  obtain ⟨hcap, hlen⟩ :=
    Channel.applyAll_reach true id ops (Channel.new c) ch (by simp [Channel.new]) hreach
  have hcap' : ch.maxChannelSize_ = c := hcap
  have hpush : ch.push true v = none ↔ c = 0 := by
    rw [Channel.push_eq_none_iff, hcap']
    constructor
    · intro h; exact h.2.1
    · intro h
      refine ⟨rfl, h, ?_⟩
      rw [hcap', h] at hlen
      exact List.eq_nil_of_length_eq_zero (Nat.le_zero.1 hlen)
  refine ⟨hpush, ?_, ?_, ?_, ?_⟩
  · intro ej w h
    obtain ⟨h1, _, h3⟩ := (Channel.push_eq_none_iff ej ch w).1 h
    exact ⟨h1, by rw [h3]; rfl⟩
  · rw [← hpush]
    have h := Micro.exec_push (K := K) true ch v
    constructor
    · intro he
      rw [he] at h
      cases hp : ch.push true v with
      | none => rfl
      | some r => rw [hp] at h; cases h
    · intro hp
      rw [hp] at h
      cases he : Micro.exec true ch (Pc.push_lock v : Pc K V C) with
      | none => rfl
      | some r => rw [he] at h; cases h
  · intro hc op
    cases op with
    | push w =>
      obtain ⟨r, ch', hp, _⟩ := Channel.push_cases true ch w (Or.inr (Or.inl (by omega)))
      exact ⟨ch', by simp [Channel.apply, hp]⟩
    | consume => exact ⟨_, rfl⟩
    | reset_consumer c' => exact ⟨_, rfl⟩
  · intro k he
    have h := Micro.exec_consume true ch k
    rw [he] at h
    cases h

/-- Claim C19 at capacity 0, where after `consume` and `reset_consumer` the fresh channel is
still empty and `push` is undefined, and at capacity 2 on a full channel, where `push` is
defined. -/
theorem C19_overflow_pop_safe_iff_capacity_positive_witness :
    (Channel.applyAll true (0 : Nat) (Channel.new 0)
          [ChannelOp.consume, ChannelOp.reset_consumer (some (7 : Nat))] =
          some (Channel.mk ([] : List Nat) (some 7) 0) ∧
        ((Channel.mk ([] : List Nat) (some (7 : Nat)) 0).push true 5 = none ↔ (0 : Nat) = 0)) ∧
      (Channel.applyAll true (0 : Nat) (Channel.new 2)
          [ChannelOp.push 1, ChannelOp.push 2, ChannelOp.push (3 : Nat)] =
          some (Channel.mk [2, 3] (none : Option Nat) 2) ∧
        ∃ ch', (Channel.mk [2, 3] (none : Option Nat) 2).apply true (0 : Nat)
          (ChannelOp.push 4) = some ch') :=
  ⟨⟨rfl,
      (C19_overflow_pop_safe_iff_capacity_positive (0 : Nat) 0
        [ChannelOp.consume, ChannelOp.reset_consumer (some (7 : Nat))]
        (Channel.mk ([] : List Nat) (some 7) 0) 5 rfl).1⟩,
    ⟨rfl,
      (C19_overflow_pop_safe_iff_capacity_positive (0 : Nat) 2
        [ChannelOp.push 1, ChannelOp.push 2, ChannelOp.push (3 : Nat)]
        (Channel.mk [2, 3] (none : Option Nat) 2) 4 rfl).2.2.2.1 (by decide)
        (ChannelOp.push 4)⟩⟩

end Statements

section Witnesses2

/-- Claim C12 on `mixedOps`: two keys, one channel each, of capacity 2. -/
theorem C12_channels_lazy_never_removed_witness :
    Sys.run true (Sys.init 2) mixedOps = some mixedFinal ∧
      mixedFinal.proc.WF ∧ mixedFinal.proc.maxChannelSize_ = 2 ∧
      ∀ k ch, find k mixedFinal.proc.channels_ = some ch → ch.maxChannelSize_ = 2 :=
  ⟨by decide, (C12_channels_lazy_never_removed true).2.1 2 mixedFinal mixedOps (by decide)⟩

/-- Claim C15 on `busyTable`: only key 1 has both a value and a consumer; the pass delivers
5 to consumer 4 and leaves 6. -/
theorem C15_dispatch_pass_once_per_channel_witness :
    busyTable.dispatch_pass.2 = [Call.mk 4 1 5] ∧
      find 1 busyTable.dispatch_pass.1.channels_ =
        (find 1 busyTable.channels_).map (fun ch => (ch.consume 1).1) ∧
      find 1 busyTable.dispatch_pass.1.channels_ = some (Channel.mk [6] (some 4) 5) ∧
      find 2 busyTable.dispatch_pass.1.channels_ = some (Channel.mk [8, 9] none 5) :=
  ⟨by decide,
    ((C15_dispatch_pass_once_per_channel busyTable).2.2.2.2.2.2.2.2.2
      (by simp [MQProcessor.WF, busyTable]) 1).1,
    by decide, by decide⟩

end Witnesses2

end mqp
